import Mathlib

/-!
# objectvault/filter-parser: lexer, parser, syntax checker and MySQL transpiler

A shallow embedding of the Go packages `token`, `lexer`, `ast`, `parser`, `syntax` and
`transpiler`, followed by the properties established about them.

Conventions of the embedding.

* A Go `string` that holds valid UTF-8, and a `[]rune`, are both a `List Char`.
* `token.TokenType` is the enumeration of the nine constants of `token/token.go`.
* Mutable receivers become explicit state passing: a method that changes its receiver returns
  the new receiver next to its result.
* A run-time panic of the source (index out of range, failed type assertion) is a result of its
  own: `none` in the lexer and the parser, `TResult.panic` in the transpiler.
* Loops and the recursive descent run on a fuel counter fixed from the length of the input; a
  counter that runs out gives `none` as well.
* The tables of Go's `unicode` package are not part of this repository.  The Latin-1 range, which
  Go decides from a fixed table, is written out; code points above it are looked up in a
  `UnicodeTables` parameter.
-/

namespace FilterParser

/-! ## Package `token` -/

/-- The token kinds of `token/token.go`. -/
inductive TokenType where
  | ILLEGAL | EOL | IDENT | STRING | INT | NUMBER | COMMA | LPAREN | RPAREN
deriving DecidableEq, Repr

/-- The string value of each `TokenType` constant. -/
def TokenType.toString : TokenType → List Char
  | .ILLEGAL => "ILLEGAL".toList
  | .EOL => "EOL".toList
  | .IDENT => "IDENT".toList
  | .STRING => "STRING".toList
  | .INT => "INT".toList
  | .NUMBER => "NUMBER".toList
  | .COMMA => ",".toList
  | .LPAREN => "(".toList
  | .RPAREN => ")".toList

/-- The struct `token.Token`; the field `Type` is spelled `Typ`. -/
structure Token where
  Typ : TokenType
  Literal : List Char
deriving DecidableEq, Repr

/-! ## Go library functions used by the repository -/

/-- What Go's `unicode` tables answer for code points above U+00FF (classification) and above
U+007F (case mapping). -/
structure UnicodeTables where
  isSpace : Char → Bool
  isLetter : Char → Bool
  isDigit : Char → Bool
  isPrint : Char → Bool
  toUpper : Char → Char
  toLower : Char → Char

/-- Go `unicode.IsSpace`. -/
def unicodeIsSpace (U : UnicodeTables) (ch : Char) : Bool :=
  if ch.toNat ≤ 0xFF then
    ch.toNat = 0x09 || ch.toNat = 0x0A || ch.toNat = 0x0B || ch.toNat = 0x0C || ch.toNat = 0x0D
      || ch.toNat = 0x20 || ch.toNat = 0x85 || ch.toNat = 0xA0
  else U.isSpace ch

/-- Go `unicode.IsLetter`. -/
def unicodeIsLetter (U : UnicodeTables) (ch : Char) : Bool :=
  if ch.toNat ≤ 0xFF then
    (0x41 ≤ ch.toNat && ch.toNat ≤ 0x5A) || (0x61 ≤ ch.toNat && ch.toNat ≤ 0x7A)
      || ch.toNat = 0xAA || ch.toNat = 0xB5 || ch.toNat = 0xBA
      || (0xC0 ≤ ch.toNat && ch.toNat ≤ 0xD6) || (0xD8 ≤ ch.toNat && ch.toNat ≤ 0xF6)
      || (0xF8 ≤ ch.toNat && ch.toNat ≤ 0xFF)
  else U.isLetter ch

/-- Go `unicode.IsDigit`. -/
def unicodeIsDigit (U : UnicodeTables) (ch : Char) : Bool :=
  if ch.toNat ≤ 0xFF then 0x30 ≤ ch.toNat && ch.toNat ≤ 0x39 else U.isDigit ch

/-- Go `unicode.IsPrint` (and `strconv.IsPrint`, which agrees with it). -/
def unicodeIsPrint (U : UnicodeTables) (ch : Char) : Bool :=
  if ch.toNat ≤ 0xFF then
    (0x20 ≤ ch.toNat && ch.toNat ≤ 0x7E) || (0xA1 ≤ ch.toNat && ch.toNat ≠ 0xAD)
  else U.isPrint ch

/-- Go `unicode.ToUpper`. -/
def unicodeToUpper (U : UnicodeTables) (ch : Char) : Char :=
  if ch.toNat ≤ 0x7F then
    if 0x61 ≤ ch.toNat && ch.toNat ≤ 0x7A then Char.ofNat (ch.toNat - 32) else ch
  else U.toUpper ch

/-- Go `unicode.ToLower`. -/
def unicodeToLower (U : UnicodeTables) (ch : Char) : Char :=
  if ch.toNat ≤ 0x7F then
    if 0x41 ≤ ch.toNat && ch.toNat ≤ 0x5A then Char.ofNat (ch.toNat + 32) else ch
  else U.toLower ch

/-- Go `strings.ToUpper` on valid UTF-8. -/
def stringsToUpper (U : UnicodeTables) (s : List Char) : List Char :=
  s.map (unicodeToUpper U)

/-- Go `strings.ToLower` on valid UTF-8. -/
def stringsToLower (U : UnicodeTables) (s : List Char) : List Char :=
  s.map (unicodeToLower U)

/-- Worker of `stringsReplaceAll`: `skip` counts the characters of a match still to be dropped. -/
def stringsReplaceAllAux (old new : List Char) : Nat → List Char → List Char
  | _, [] => []
  | skip + 1, _ :: cs => stringsReplaceAllAux old new skip cs
  | 0, c :: cs =>
    if old.isPrefixOf (c :: cs) then new ++ stringsReplaceAllAux old new (old.length - 1) cs
    else c :: stringsReplaceAllAux old new 0 cs

/-- Go `strings.ReplaceAll(s, old, new)` for a non-empty `old`: the non-overlapping occurrences
of `old`, found from the left, are replaced by `new`. -/
def stringsReplaceAll (s old new : List Char) : List Char :=
  stringsReplaceAllAux old new 0 s

/-- The decimal digits of `%d`. -/
def fmtInt (n : Nat) : List Char := Nat.toDigits 10 n

/-- A lower-case hexadecimal digit, as `strconv` writes it. -/
def hexDigit (n : Nat) : Char := Nat.digitChar (n % 16)

/-- The text `strconv.Quote` writes for one rune of a valid UTF-8 string. -/
def quoteRune (U : UnicodeTables) (ch : Char) : List Char :=
  if ch = '"' || ch = '\\' then ['\\', ch]
  else if unicodeIsPrint U ch then [ch]
  else if ch.toNat = 0x07 then ['\\', 'a']
  else if ch.toNat = 0x08 then ['\\', 'b']
  else if ch.toNat = 0x0C then ['\\', 'f']
  else if ch.toNat = 0x0A then ['\\', 'n']
  else if ch.toNat = 0x0D then ['\\', 'r']
  else if ch.toNat = 0x09 then ['\\', 't']
  else if ch.toNat = 0x0B then ['\\', 'v']
  else if ch.toNat < 0x20 || ch.toNat = 0x7F then
    ['\\', 'x', hexDigit (ch.toNat / 16), hexDigit ch.toNat]
  else if ch.toNat < 0x10000 then
    ['\\', 'u', hexDigit (ch.toNat / 4096), hexDigit (ch.toNat / 256), hexDigit (ch.toNat / 16),
      hexDigit ch.toNat]
  else
    ['\\', 'U', hexDigit (ch.toNat / 268435456), hexDigit (ch.toNat / 16777216),
      hexDigit (ch.toNat / 1048576), hexDigit (ch.toNat / 65536), hexDigit (ch.toNat / 4096),
      hexDigit (ch.toNat / 256), hexDigit (ch.toNat / 16), hexDigit ch.toNat]

/-- The verb `%q` of `fmt` applied to a string: `strconv.Quote`. -/
def fmtQuote (U : UnicodeTables) (s : List Char) : List Char :=
  ['"'] ++ (s.map (quoteRune U)).flatten ++ ['"']

/-! ## Package `lexer` -/

/-- The struct `lexer.Lexer`. -/
structure Lexer where
  input : List Char
  position : Nat
  readPosition : Nat
  ch : Char
deriving DecidableEq, Repr

/-- The rune 0, which the lexer uses as its end marker. -/
def NUL : Char := Char.ofNat 0

/-- The wildcard marker U+FFFD that replaces an unescaped `*`. -/
def wildcardMarker : Char := Char.ofNat 0xFFFD

def isWhiteSpace (U : UnicodeTables) (ch : Char) : Bool := unicodeIsSpace U ch

def isLetter (U : UnicodeTables) (ch : Char) : Bool := unicodeIsLetter U ch

def isDigit (U : UnicodeTables) (ch : Char) : Bool := unicodeIsDigit U ch

def isValidFirstIdentifierRune (U : UnicodeTables) (ch : Char) : Bool := isLetter U ch

def isValidNextIdentifierRune (U : UnicodeTables) (ch : Char) : Bool :=
  isLetter U ch || ch = '_'

def isValidNumberRune (U : UnicodeTables) (ch : Char) : Bool := isDigit U ch || ch = '.'

def isValidStringRune (U : UnicodeTables) (ch : Char) : Bool := unicodeIsPrint U ch

def newToken (tokenType : TokenType) (ch : Char) : Token :=
  { Typ := tokenType, Literal := [ch] }

def Lexer.isEOL (l : Lexer) : Bool := decide (l.position ≥ l.input.length)

def Lexer.nextChar (l : Lexer) : Lexer :=
  if l.readPosition ≥ l.input.length then
    { l with ch := NUL, position := l.readPosition }
  else
    { l with ch := l.input.getD l.readPosition NUL, position := l.readPosition,
             readPosition := l.readPosition + 1 }

/-- The method `undoChar`; `none` is the index-out-of-range panic of `l.input[l.position]` after
the decrement. -/
def Lexer.undoChar (l : Lexer) : Option Lexer :=
  if 1 ≤ l.position ∧ l.position - 1 < l.input.length then
    some { l with position := l.position - 1, ch := l.input.getD (l.position - 1) NUL,
                  readPosition := l.position - 1 + 1 }
  else none

def Lexer.peekChar (l : Lexer) (peek : Nat) : Char :=
  if peek ≥ l.input.length then NUL else l.input.getD peek NUL

/-- The slice expression `l.input[start:end_]`; `none` is its bounds panic. -/
def Lexer.slice (l : Lexer) (start end_ : Nat) : Option (List Char) :=
  if start ≤ end_ ∧ end_ ≤ l.input.length then some ((l.input.drop start).take (end_ - start))
  else none

/-- The loop of `skipWhiteSpaces`. -/
def skipWhiteSpacesLoop (U : UnicodeTables) : Nat → Lexer → Option Lexer
  | 0, _ => none
  | fuel + 1, l =>
    if !l.isEOL && isWhiteSpace U (l.peekChar l.position) then
      skipWhiteSpacesLoop U fuel l.nextChar
    else some l

/-- The method `skipWhiteSpaces`; the count it returns is read by no caller and is not carried. -/
def Lexer.skipWhiteSpaces (U : UnicodeTables) (l : Lexer) : Option Lexer :=
  skipWhiteSpacesLoop U (l.input.length + 1) l

/-- The local variables of `nextTokenNumber` together with the lexer. -/
structure NumberScan where
  l : Lexer
  matchedPeriod : Bool
  requireNextDigit : Bool
  tt : TokenType

/-- The loop of `nextTokenNumber`, entered after its init statement `l.nextChar()`. -/
def nextTokenNumberLoop (U : UnicodeTables) : Nat → NumberScan → Option NumberScan
  | 0, _ => none
  | fuel + 1, s =>
    if isValidNumberRune U s.l.ch then
      if s.l.ch = '.' then
        if s.matchedPeriod || s.requireNextDigit then
          some { s with tt := .ILLEGAL, l := s.l.nextChar }
        else
          nextTokenNumberLoop U fuel
            { l := s.l.nextChar, matchedPeriod := true, requireNextDigit := true, tt := .NUMBER }
      else
        nextTokenNumberLoop U fuel { s with l := s.l.nextChar, requireNextDigit := false }
    else some s

def Lexer.nextTokenNumber (U : UnicodeTables) (l : Lexer) : Option (Token × Lexer) :=
  let s0 : NumberScan :=
    if l.ch = '.' then { l := l, matchedPeriod := true, requireNextDigit := true, tt := .NUMBER }
    else { l := l, matchedPeriod := false, requireNextDigit := false, tt := .INT }
  let start := l.position
  match nextTokenNumberLoop U (l.input.length + 1) { s0 with l := s0.l.nextChar } with
  | none => none
  | some s =>
    let end_ := s.l.position
    let tt := if s.requireNextDigit then TokenType.ILLEGAL else s.tt
    match s.l.undoChar with
    | none => none
    | some l1 =>
      match l1.slice start end_ with
      | none => none
      | some lit => some ({ Typ := tt, Literal := lit }, l1)

/-- The loop of `nextTokenIdentifier`, entered after its init statement `l.nextChar()`. -/
def nextTokenIdentifierLoop (U : UnicodeTables) : Nat → Lexer → Option Lexer
  | 0, _ => none
  | fuel + 1, l =>
    if isValidNextIdentifierRune U l.ch then nextTokenIdentifierLoop U fuel l.nextChar
    else some l

def Lexer.nextTokenIdentifier (U : UnicodeTables) (l : Lexer) : Option (Token × Lexer) :=
  let start := l.position
  match nextTokenIdentifierLoop U (l.input.length + 1) l.nextChar with
  | none => none
  | some l1 =>
    let end_ := l1.position
    match l1.undoChar with
    | none => none
    | some l2 =>
      match l2.slice start end_ with
      | none => none
      | some lit => some ({ Typ := .IDENT, Literal := lit }, l2)

/-- The body of the loop of `nextTokenString` between the test for the closing quote and
`s.WriteRune(l.ch)`: an escape consumes its backslash, an unescaped `*` becomes the marker. -/
def stringEscape (l : Lexer) : Lexer :=
  if l.ch = '\\' then
    if l.peekChar l.readPosition = '\\' || l.peekChar l.readPosition = '"' then l.nextChar
    else if l.peekChar l.readPosition = '*' then l.nextChar
    else l
  else if l.ch = '*' then { l with ch := wildcardMarker }
  else l

/-- The loop of `nextTokenString`, entered after its init statement `l.nextChar()`; `s` is the
string builder and the Boolean of the result is `foundEOS`. -/
def nextTokenStringLoop (U : UnicodeTables) :
    Nat → Lexer → List Char → Option (Lexer × List Char × Bool)
  | 0, _, _ => none
  | fuel + 1, l, s =>
    if isValidStringRune U l.ch || l.ch = '"' then
      if l.ch = '"' then some (l, s, true)
      else nextTokenStringLoop U fuel (stringEscape l).nextChar (s ++ [(stringEscape l).ch])
    else some (l, s, false)

def Lexer.nextTokenString (U : UnicodeTables) (l : Lexer) : Option (Token × Lexer) :=
  let nch := l.peekChar l.readPosition
  if nch = NUL then some ({ Typ := .ILLEGAL, Literal := [] }, l)
  else if nch = '"' then some ({ Typ := .STRING, Literal := [] }, l.nextChar)
  else
    match nextTokenStringLoop U (l.input.length + 1) l.nextChar [] with
    | none => none
    | some (l1, s, foundEOS) =>
      if !foundEOS then some ({ Typ := .ILLEGAL, Literal := s }, l1)
      else some ({ Typ := .STRING, Literal := s }, l1)

/-- The method `NextToken`: the token and the lexer after the call. -/
def Lexer.NextToken (U : UnicodeTables) (l : Lexer) : Option (Token × Lexer) :=
  match l.skipWhiteSpaces U with
  | none => none
  | some l1 =>
    let r : Option (Token × Lexer) :=
      if l1.ch = '(' then some (newToken .LPAREN l1.ch, l1)
      else if l1.ch = ')' then some (newToken .RPAREN l1.ch, l1)
      else if l1.ch = ',' then some (newToken .COMMA l1.ch, l1)
      else if l1.ch = NUL then some (newToken .EOL l1.ch, l1)
      else if isValidNumberRune U l1.ch then l1.nextTokenNumber U
      else if isValidFirstIdentifierRune U l1.ch then l1.nextTokenIdentifier U
      else if l1.ch = '"' then l1.nextTokenString U
      else some (newToken .ILLEGAL l1.ch, l1)
    match r with
    | none => none
    | some (tok, l2) => some (tok, l2.nextChar)

/-- The constructor `NewLexer`; the argument is `[]rune(input)`. -/
def NewLexer (input : List Char) : Lexer :=
  Lexer.nextChar { input := input, position := 0, readPosition := 0, ch := NUL }

def Lexer.Reset (l : Lexer) : Lexer :=
  Lexer.nextChar { l with position := 0, readPosition := 0 }

/-- The first `n` tokens a lexer returns, one `NextToken` call each. -/
def lexN (U : UnicodeTables) : Nat → Lexer → Option (List Token)
  | 0, _ => some []
  | n + 1, l =>
    match l.NextToken U with
    | none => none
    | some (tok, l1) =>
      match lexN U n l1 with
      | none => none
      | some toks => some (tok :: toks)

/-- Tables that know no code point above Latin-1; used to run the model on ASCII text, where
the tables are never consulted. -/
def noTables : UnicodeTables :=
  { isSpace := fun _ => false, isLetter := fun _ => false, isDigit := fun _ => false,
    isPrint := fun _ => false, toUpper := fun c => c, toLower := fun c => c }

/-! ## Package `ast` -/

mutual
/-- The struct `ast.Function`. -/
inductive Function where
  | mk (Name : Token) (Parameters : List Node)
/-- What a parameter slot or a result of type `interface{}` can hold: the four node structs of
`ast/ast.go`.  The root of a `Filter` is a `Function`; a nil root is not represented. -/
inductive Node where
  | Value (V : Token)
  | Function (F : Function)
  | Filter (F : Function)
  | ParseError (Message : List Char)
end

mutual
/-- Equality of functions is decidable. -/
def Function.decEq : (a b : Function) → Decidable (a = b)
  | .mk n1 p1, .mk n2 p2 =>
    if h : n1 = n2 then
      match Node.decEqList p1 p2 with
      | isTrue h2 => isTrue (by rw [h, h2])
      | isFalse h2 => isFalse (fun e => h2 (by cases e; rfl))
    else isFalse (fun e => h (by cases e; rfl))
/-- Equality of nodes is decidable. -/
def Node.decEq : (a b : Node) → Decidable (a = b)
  | .Value v1, .Value v2 =>
    if h : v1 = v2 then isTrue (by rw [h]) else isFalse (fun e => h (by cases e; rfl))
  | .Function f1, .Function f2 =>
    match Function.decEq f1 f2 with
    | isTrue h => isTrue (by rw [h])
    | isFalse h => isFalse (fun e => h (by cases e; rfl))
  | .Filter f1, .Filter f2 =>
    match Function.decEq f1 f2 with
    | isTrue h => isTrue (by rw [h])
    | isFalse h => isFalse (fun e => h (by cases e; rfl))
  | .ParseError m1, .ParseError m2 =>
    if h : m1 = m2 then isTrue (by rw [h]) else isFalse (fun e => h (by cases e; rfl))
  | .Value _, .Function _ => isFalse (fun e => by cases e)
  | .Value _, .Filter _ => isFalse (fun e => by cases e)
  | .Value _, .ParseError _ => isFalse (fun e => by cases e)
  | .Function _, .Value _ => isFalse (fun e => by cases e)
  | .Function _, .Filter _ => isFalse (fun e => by cases e)
  | .Function _, .ParseError _ => isFalse (fun e => by cases e)
  | .Filter _, .Value _ => isFalse (fun e => by cases e)
  | .Filter _, .Function _ => isFalse (fun e => by cases e)
  | .Filter _, .ParseError _ => isFalse (fun e => by cases e)
  | .ParseError _, .Value _ => isFalse (fun e => by cases e)
  | .ParseError _, .Function _ => isFalse (fun e => by cases e)
  | .ParseError _, .Filter _ => isFalse (fun e => by cases e)
/-- Equality of parameter lists is decidable. -/
def Node.decEqList : (a b : List Node) → Decidable (a = b)
  | [], [] => isTrue rfl
  | [], _ :: _ => isFalse (fun e => by cases e)
  | _ :: _, [] => isFalse (fun e => by cases e)
  | x :: xs, y :: ys =>
    match Node.decEq x y with
    | isTrue h =>
      match Node.decEqList xs ys with
      | isTrue h2 => isTrue (by rw [h, h2])
      | isFalse h2 => isFalse (fun e => h2 (by cases e; rfl))
    | isFalse h => isFalse (fun e => h (by cases e; rfl))
end

instance : DecidableEq Function := Function.decEq

instance : DecidableEq Node := Node.decEq

def Function.Name : Function → Token
  | .mk name _ => name

def Function.Parameters : Function → List Node
  | .mk _ params => params

/-- The method `(*Value).ToString`. -/
def Value.ToString (V : Token) : List Char :=
  if V.Typ = .STRING then
    let s := stringsReplaceAll V.Literal ['*'] ['\\', '*']
    let s := stringsReplaceAll s [wildcardMarker] ['*']
    ['"'] ++ s ++ ['"']
  else V.Literal

mutual
/-- The method `(*Function).ToString`. -/
def Function.ToString : Function → List Char
  | .mk name params => name.Literal ++ " ( ".toList ++ paramsToString false params ++ " )".toList
/-- The method `ToString` of each node struct. -/
def Node.ToString : Node → List Char
  | .Value V => Value.ToString V
  | .Function F => Function.ToString F
  | .Filter F => Function.ToString F
  | .ParseError Message => "ERROR [".toList ++ Message ++ "]".toList
/-- The loop of `(*Function).ToString`; `comma` is its flag and the result is the buffer. -/
def paramsToString : Bool → List Node → List Char
  | _, [] => []
  | comma, ni :: rest =>
    (if comma then ", ".toList else []) ++ Node.ToString ni ++ paramsToString true rest
end

/-! ## Package `parser` -/

/-- The one method of `*lexer.Lexer` the parser calls, `NextToken`, on a lexer state of type
`σ`.  The parser is written against it, so that the same text runs on `lexer.Lexer`
(`Lexer.NextToken`) and on a list of tokens that were lexed beforehand (`listNext`). -/
abbrev TokenSource (σ : Type) := σ → Option (Token × σ)

/-- The struct `parser.Parser`. -/
structure Parser (σ : Type) where
  l : σ
  curToken : Token
  peekToken : Token

/-- The method `nextToken`: the token that was current, and the parser after the call. -/
def Parser.nextToken {σ : Type} (next : TokenSource σ) (p : Parser σ) :
    Option (Token × Parser σ) :=
  match next p.l with
  | none => none
  | some (tok, l1) => some (p.curToken, { l := l1, curToken := p.peekToken, peekToken := tok })

/-- The constructor `NewParser`: two `nextToken` calls load the current and the peek token. -/
def NewParser {σ : Type} (next : TokenSource σ) (l : σ) : Option (Parser σ) :=
  match next l with
  | none => none
  | some (tok0, l1) =>
    match next l1 with
    | none => none
    | some (tok1, l2) => some { l := l2, curToken := tok0, peekToken := tok1 }

/-- What `parseFunctionParameters` returns: the parameter slice or a `*ast.ParseError`. -/
inductive Params where
  | list (params : List Node)
  | ParseError (Message : List Char)

mutual
/-- The method `parseFunction`; the result is a `Node.Function` or a `Node.ParseError`. -/
def parseFunction {σ : Type} (U : UnicodeTables) (next : TokenSource σ) :
    Nat → Parser σ → Token → Option (Node × Parser σ)
  | 0, _, _ => none
  | fuel + 1, p, name =>
    if p.curToken.Typ ≠ .LPAREN then
      some (.ParseError "FUNCTION: expecting function \"(\"".toList, p)
    else
      match p.nextToken next with
      | none => none
      | some (_, p1) =>
        if p1.curToken.Typ ≠ .IDENT then
          some (.ParseError "FUNCTION: expecting function IDENTIFIER".toList, p1)
        else
          -- the call `p.parseFunctionParameters()`, which starts its loop on an empty slice
          match parseFunctionParametersLoop U next fuel p1 [] with
          | none => none
          | some (.ParseError m, p2) => some (.ParseError m, p2)
          | some (.list params, p2) =>
            if p2.curToken.Typ ≠ .RPAREN then
              some (.ParseError "FUNCTION: expecting function \")\"".toList, p2)
            else
              match p2.nextToken next with
              | none => none
              | some (_, p3) => some (.Function (.mk name params), p3)
/-- One pass of the loop of `parseFunctionParameters`, from its `p.nextToken()` on; `params` is
the slice built so far. -/
def parseFunctionParametersLoop {σ : Type} (U : UnicodeTables) (next : TokenSource σ) :
    Nat → Parser σ → List Node → Option (Params × Parser σ)
  | 0, _, _ => none
  | fuel + 1, p, params =>
    match p.nextToken next with
    | none => none
    | some (current, p1) =>
      match p1.curToken.Typ with
      | .LPAREN =>
        match parseFunction U next fuel p1 current with
        | none => none
        | some (.ParseError m, p2) =>
          -- finished = true
          some (.list (params ++ [.ParseError m]), p2)
        | some (n, p2) =>
          let p3 : Option (Parser σ) :=
            if p2.curToken.Typ = .COMMA then (p2.nextToken next).map Prod.snd else some p2
          match p3 with
          | none => none
          | some p3 =>
            if p3.curToken.Typ = .RPAREN then some (.list (params ++ [n]), p3)
            else parseFunctionParametersLoop U next fuel p3 (params ++ [n])
      | .COMMA =>
        match p1.nextToken next with
        | none => none
        | some (_, p2) =>
          if p2.curToken.Typ = .RPAREN then some (.list (params ++ [.Value current]), p2)
          else parseFunctionParametersLoop U next fuel p2 (params ++ [.Value current])
      | .RPAREN => some (.list (params ++ [.Value current]), p1)
      | _ =>
        some (.ParseError ("FUNCTION PARAMS: unexpected token type [".toList
          ++ fmtQuote U p1.peekToken.Typ.toString ++ "]\n".toList), p1)
end

/-- The method `parseFunctionParameters`. -/
def parseFunctionParameters {σ : Type} (U : UnicodeTables) (next : TokenSource σ) (fuel : Nat)
    (p : Parser σ) : Option (Params × Parser σ) :=
  parseFunctionParametersLoop U next fuel p []

/-- The method `ParseFilter`, run with `fuel` levels of recursive descent. -/
def ParseFilterFuel {σ : Type} (U : UnicodeTables) (next : TokenSource σ) (fuel : Nat)
    (p : Parser σ) : Option Node :=
  if p.curToken.Typ = .IDENT then
    let name := p.curToken
    match p.nextToken next with
    | none => none
    | some (_, p1) =>
      match parseFunction U next fuel p1 name with
      | none => none
      | some (.ParseError m, _) => some (.ParseError m)
      | some (f, p2) =>
        if p2.curToken.Typ ≠ .EOL then some (.ParseError "FILTER: End-of-line Expected".toList)
        else
          match f with
          | .Function fast => some (.Filter fast)
          | _ => some f
  else some (.ParseError "FILTER: expecting function name".toList)

/-- The method `ParseFilter` of a parser on a `lexer.Lexer`. -/
def ParseFilter (U : UnicodeTables) (p : Parser Lexer) : Option Node :=
  ParseFilterFuel U (Lexer.NextToken U) (p.l.input.length + 1) p

/-- The steps `parser.NewParser(lexer.NewLexer(f)).ParseFilter()` of `main`. -/
def parseText (U : UnicodeTables) (input : List Char) : Option Node :=
  match NewParser (Lexer.NextToken U) (NewLexer input) with
  | none => none
  | some p => ParseFilter U p

/-- A token source that hands out the tokens of a list; it fails when the list is used up. -/
def listNext : TokenSource (List Token)
  | [] => none
  | tok :: rest => some (tok, rest)

/-- The parser run on tokens that were lexed beforehand. -/
def parseTokens (U : UnicodeTables) (fuel : Nat) (toks : List Token) : Option Node :=
  match NewParser listNext toks with
  | none => none
  | some p => ParseFilterFuel U listNext fuel p

/-! ## Package `syntax` -/

/-- The struct `syntax.SyntaxError`. -/
structure SyntaxError where
  Message : List Char
deriving DecidableEq, Repr

/-- The strings `functionType` returns. -/
inductive FunctionType where
  | logicalUnary | logicalBinary | operator | unknown
deriving DecidableEq, Repr

def functionType (name : List Char) : FunctionType :=
  if name = "NOT".toList then .logicalUnary
  else if name = "OR".toList || name = "AND".toList then .logicalBinary
  else if name = "EQ".toList || name = "NEQ".toList || name = "GT".toList || name = "GTE".toList
      || name = "LT".toList || name = "LTE".toList || name = "CONTAINS".toList
      || name = "IN".toList then .operator
  else .unknown

/-- The message `Function [%s] should have <n> parameter, found [%d]`. -/
def arityMessage (fname : List Char) (n : List Char) (found : Nat) : List Char :=
  "Function [".toList ++ fname ++ "] should have ".toList ++ n ++ " parameter, found [".toList
    ++ fmtInt found ++ "]".toList

/-- The case `"operator"` of `verifyFunction`, which calls no other function; `name` is the name
token after its literal has been upper-cased. -/
def verifyOperator (U : UnicodeTables) (name : Token) (params : List Node) :
    Function × Option SyntaxError :=
  let fname := name.Literal
  match params with
  | [n0, n1] =>
    match n0 with
    | .Value pv1 =>
      if pv1.Typ ≠ .IDENT then
        (.mk name params, some ⟨"Function [".toList ++ fname
          ++ "] Parameter 1 is not a Field Identifier, not [".toList ++ pv1.Typ.toString
          ++ "]".toList⟩)
      else
        let pv1 : Token := { pv1 with Literal := stringsToLower U pv1.Literal }
        match n1 with
        | .Value pv2 =>
          if pv2.Typ = .IDENT then
            (.mk name [.Value pv1, n1], some ⟨"Function [".toList ++ fname
              ++ "] Parameter 2 should not be an Identifier".toList⟩)
          else if (fname = "CONTAINS".toList || fname = "IN".toList) && pv2.Typ ≠ .STRING then
            (.mk name [.Value pv1, n1], some ⟨"Function [".toList ++ fname
              ++ "] Parameter 2 should be a String no [".toList ++ pv2.Typ.toString
              ++ "]".toList⟩)
          else (.mk name [.Value pv1, n1], none)
        | _ =>
          (.mk name [.Value pv1, n1], some ⟨"Function [".toList ++ fname
            ++ "] invalid type for Parameter 2".toList⟩)
    | _ =>
      (.mk name params, some ⟨"Function [".toList ++ fname
        ++ "] invalid type for Parameter 1".toList⟩)
  | _ => (.mk name params, some ⟨arityMessage fname "2".toList params.length⟩)

/-- The method `verifyFunction`: the function as the call leaves it, and the error (`none` is
the nil error).  The parent argument of the source is read nowhere and is not carried. -/
def verifyFunction (U : UnicodeTables) : Function → Function × Option SyntaxError
  | .mk name0 params =>
    let fname := stringsToUpper U name0.Literal
    let name : Token := { name0 with Literal := fname }
    match functionType fname with
    | .logicalUnary =>
      match params with
      | [n0] =>
        match n0 with
        | .Function p0 =>
          let r := verifyFunction U p0
          (.mk name [.Function r.1], r.2)
        | _ =>
          (.mk name params, some ⟨"Function [".toList ++ fname
            ++ "] should have a function as only parameter".toList⟩)
      | _ => (.mk name params, some ⟨arityMessage fname "1".toList params.length⟩)
    | .logicalBinary =>
      match params with
      | [n0, n1] =>
        match n0 with
        | .Function p1 =>
          match n1 with
          | .Function p2 =>
            let r1 := verifyFunction U p1
            match r1.2 with
            | none =>
              let r2 := verifyFunction U p2
              (.mk name [.Function r1.1, .Function r2.1], r2.2)
            | some e => (.mk name [.Function r1.1, .Function p2], some e)
          | _ =>
            (.mk name params, some ⟨"Function [".toList ++ fname
              ++ "] 2nd parameter should be a function".toList⟩)
        | _ =>
          (.mk name params, some ⟨"Function [".toList ++ fname
            ++ "] 1st parameter should be a function".toList⟩)
      | _ => (.mk name params, some ⟨arityMessage fname "2".toList params.length⟩)
    | .operator => verifyOperator U name params
    | .unknown =>
      (.mk name params, some ⟨"Function [".toList ++ fname ++ "] is not recognized".toList⟩)

/-- The method `verifyFilter`. -/
def verifyFilter (U : UnicodeTables) (fu : Function) : Function × Option SyntaxError :=
  verifyFunction U fu

/-- The method `Verify` on the node the checker was created with: the node as the call leaves
it, and the error. -/
def Verify (U : UnicodeTables) (AST : Node) : Node × Option SyntaxError :=
  match AST with
  | .Filter f =>
    let r := verifyFilter U f
    (.Filter r.1, r.2)
  | _ => (AST, some ⟨"Invalid AST Object".toList⟩)

/-! ## Package `transpiler` -/

/-- The struct `transpiler.TranspilerError`, of which the repository shows the field `Message`. -/
structure TranspilerError where
  Message : List Char
deriving DecidableEq, Repr

/-- What the transpiler methods return in their `interface{}`: a string or a
`*TranspilerError`; `panic` is a failed type assertion or an index out of range. -/
inductive TResult where
  | str (s : List Char)
  | err (e : TranspilerError)
  | panic
deriving DecidableEq, Repr

/-- The type `TMapIdentityToField`. -/
abbrev TMapIdentityToField := List Char → List Char

def reflectIdentityToFieldMapper (identity : List Char) : List Char := identity

/-- The old string of the last replacement of `mysqlEscapeValue`, as the source file spells it:
the three code points U+00EF U+00BF U+00BD. -/
def markerAsWritten : List Char := [Char.ofNat 0xEF, Char.ofNat 0xBF, Char.ofNat 0xBD]

def mysqlEscapeValue (v : Token) : List Char :=
  if v.Typ ≠ .STRING then v.Literal
  else
    let s := stringsReplaceAll v.Literal ['\\'] ['\\', '\\']
    let s := stringsReplaceAll s ['"'] ['\\', '"']
    let s := stringsReplaceAll s ['\''] ['\\', '\'']
    let s := stringsReplaceAll s ['%'] ['\\', '%']
    let s := stringsReplaceAll s markerAsWritten ['%']
    s

def invalidField (literal : List Char) : TResult :=
  .err ⟨"Invalid Field [".toList ++ literal ++ "]".toList⟩

def mysqlBinaryOperator (U : UnicodeTables) (FieldMapper : TMapIdentityToField)
    (op : List Char) (f v : Token) : TResult :=
  let field := FieldMapper f.Literal
  if field = [] then invalidField f.Literal
  else
    let value := mysqlEscapeValue v
    if v.Typ = .STRING then .str (field ++ " ".toList ++ op ++ " ".toList ++ fmtQuote U value)
    else .str (field ++ " ".toList ++ op ++ " ".toList ++ value)

/-- The shared body of `mysqlOperatorEQ` ... `mysqlOperatorLTE`: two type assertions, then
`mysqlBinaryOperator` with the operator text. -/
def mysqlOperator (U : UnicodeTables) (FieldMapper : TMapIdentityToField) (op : List Char)
    (f : Function) : TResult :=
  match f.Parameters with
  | .Value pv1 :: .Value pv2 :: _ => mysqlBinaryOperator U FieldMapper op pv1 pv2
  | _ => .panic

/-- The shared body of `mysqlOperatorCONTAINS` (`kw` is `LIKE`) and `mysqlOperatorIN`
(`kw` is `IN`). -/
def mysqlOperatorQuoted (U : UnicodeTables) (FieldMapper : TMapIdentityToField) (kw : List Char)
    (f : Function) : TResult :=
  match f.Parameters with
  | .Value pv1 :: .Value pv2 :: _ =>
    let field := FieldMapper pv1.Literal
    if field = [] then invalidField pv1.Literal
    else .str (field ++ " ".toList ++ kw ++ " ".toList ++ fmtQuote U (mysqlEscapeValue pv2))
  | _ => .panic

/-- The part of `mysqlLogicalNOT` after the recursive call returned `r`. -/
def mysqlLogicalNOTResult (r : TResult) : TResult :=
  match r with
  | .str rs => .str ("NOT(".toList ++ rs ++ ")".toList)
  | _ => r

/-- The part of `mysqlBinaryLogical` after both recursive calls returned: a failed assertion
`r1.(string)` returns the zero string `rs1`. -/
def mysqlBinaryLogicalResult (op : List Char) (r1 r2 : TResult) : TResult :=
  match r1, r2 with
  | .panic, _ => .panic
  | _, .panic => .panic
  | .err _, _ => .str []
  | .str _, .err _ => .str []
  | .str rs1, .str rs2 =>
    .str ("(".toList ++ rs1 ++ ") ".toList ++ op ++ " (".toList ++ rs2 ++ ")".toList)

/-- The method `mysqlFunctionToStatement` with the bodies of `mysqlLogicalNOT`,
`mysqlLogicalAND`, `mysqlLogicalOR` and `mysqlBinaryLogical` in place of their calls. -/
def mysqlFunctionToStatement (U : UnicodeTables) (FieldMapper : TMapIdentityToField) :
    Function → TResult
  | .mk name params =>
    let fname := name.Literal
    if fname = "NOT".toList then
      match params with
      | .Function pf1 :: _ =>
        mysqlLogicalNOTResult (mysqlFunctionToStatement U FieldMapper pf1)
      | _ => .panic
    else if fname = "AND".toList then
      match params with
      | .Function pf1 :: .Function pf2 :: _ =>
        mysqlBinaryLogicalResult "AND".toList (mysqlFunctionToStatement U FieldMapper pf1)
          (mysqlFunctionToStatement U FieldMapper pf2)
      | _ => .panic
    else if fname = "OR".toList then
      match params with
      | .Function pf1 :: .Function pf2 :: _ =>
        mysqlBinaryLogicalResult "OR".toList (mysqlFunctionToStatement U FieldMapper pf1)
          (mysqlFunctionToStatement U FieldMapper pf2)
      | _ => .panic
    else if fname = "EQ".toList then mysqlOperator U FieldMapper "=".toList (.mk name params)
    else if fname = "NEQ".toList then mysqlOperator U FieldMapper "!=".toList (.mk name params)
    else if fname = "GT".toList then mysqlOperator U FieldMapper ">".toList (.mk name params)
    else if fname = "GTE".toList then mysqlOperator U FieldMapper ">=".toList (.mk name params)
    else if fname = "LT".toList then mysqlOperator U FieldMapper "<".toList (.mk name params)
    else if fname = "LTE".toList then mysqlOperator U FieldMapper "<=".toList (.mk name params)
    else if fname = "CONTAINS".toList then
      mysqlOperatorQuoted U FieldMapper "LIKE".toList (.mk name params)
    else if fname = "IN".toList then
      mysqlOperatorQuoted U FieldMapper "IN".toList (.mk name params)
    else .err ⟨"Unsupported Funcion [".toList ++ fname ++ "]".toList⟩

/-- The constructor `NewTranspileToMysqlWhere` followed by `Transpile`: a nil mapper (`none`)
leaves the identity mapper in place. -/
def Transpile (U : UnicodeTables) (mapper : Option TMapIdentityToField) (Filter : Function) :
    TResult :=
  mysqlFunctionToStatement U (mapper.getD reflectIdentityToFieldMapper) Filter

/-- The pipeline of `main` with a nil mapper: parse, check, transpile the checked tree.  The
result is `none` where `main` stops before the transpiler. -/
def compile (U : UnicodeTables) (input : List Char) : Option TResult :=
  match parseText U input with
  | some (.Filter f) =>
    match Verify U (.Filter f) with
    | (.Filter g, none) => some (Transpile U none g)
    | _ => none
  | _ => none

/-! ## Relating the parser on a lexer to the parser on a token list -/

/-- Two parsers agree: same current and peek token, lexer states related by `R`. -/
structure ParserRel {σ τ : Type} (R : σ → τ → Prop) (p : Parser σ) (q : Parser τ) : Prop where
  l : R p.l q.l
  cur : p.curToken = q.curToken
  peek : p.peekToken = q.peekToken

/-- Every step of the source `nx` on a state related to a state of `ny` is matched by `ny`. -/
def Simulates {σ τ : Type} (R : σ → τ → Prop) (nx : TokenSource σ) (ny : TokenSource τ) : Prop :=
  ∀ a b, R a b → ∀ tok b1, ny b = some (tok, b1) → ∃ a1, nx a = some (tok, a1) ∧ R a1 b1

/-- A lexer and a token list are related when the list is what the lexer returns next. -/
def Lexes (U : UnicodeTables) (l : Lexer) (toks : List Token) : Prop :=
  lexN U toks.length l = some toks

/-! ## Properties of trees -/

mutual
/-- A ParseError node occurs in the tree of the function. -/
def Function.hasParseError : Function → Bool
  | .mk _ params => Node.anyParseError params
/-- A ParseError node occurs in the tree of the node. -/
def Node.hasParseError : Node → Bool
  | .Value _ => false
  | .Function F => F.hasParseError
  | .Filter F => F.hasParseError
  | .ParseError _ => true
/-- A ParseError node occurs in one of the trees of the list. -/
def Node.anyParseError : List Node → Bool
  | [] => false
  | n :: rest => n.hasParseError || Node.anyParseError rest
end

/-- The operator names of the function catalog. -/
def operatorNames : List (List Char) :=
  ["EQ".toList, "NEQ".toList, "GT".toList, "GTE".toList, "LT".toList, "LTE".toList,
    "CONTAINS".toList, "IN".toList]

/-- The invariant of a checked tree, in the words of the specification: every name is an
upper-case catalog name; NOT has one parameter, a function; AND and OR have two, both functions;
an operator has two values, the first an IDENT with a lower-cased literal, the second not an
IDENT and a STRING for CONTAINS and IN. -/
def CheckedAST (U : UnicodeTables) : Function → Prop
  | .mk name [.Function c] =>
    name.Literal = "NOT".toList ∧ stringsToUpper U name.Literal = name.Literal ∧ CheckedAST U c
  | .mk name [.Function lhs, .Function rhs] =>
    (name.Literal = "AND".toList ∨ name.Literal = "OR".toList)
      ∧ stringsToUpper U name.Literal = name.Literal ∧ CheckedAST U lhs ∧ CheckedAST U rhs
  | .mk name [.Value field, .Value value] =>
    name.Literal ∈ operatorNames ∧ stringsToUpper U name.Literal = name.Literal
      ∧ field.Typ = .IDENT ∧ (∃ s, field.Literal = stringsToLower U s)
      ∧ value.Typ ≠ .IDENT
      ∧ ((name.Literal = "CONTAINS".toList ∨ name.Literal = "IN".toList) → value.Typ = .STRING)
  | _ => False

/-- ASCII upper-casing of one character. -/
def asciiUpper (c : Char) : Char :=
  if 0x61 ≤ c.toNat ∧ c.toNat ≤ 0x7A then Char.ofNat (c.toNat - 32) else c

/-- Two strings are equal when ASCII letter case is ignored. -/
def eqIgnoreAsciiCase (s t : List Char) : Prop := s.map asciiUpper = t.map asciiUpper

/-- What the function catalog of the specification allows: NOT over one function, AND and OR over
two functions, an operator over an IDENT value followed by a value that is not an IDENT and that
is a STRING for CONTAINS and IN; names are compared ignoring ASCII letter case. -/
def CatalogAllows : Function → Prop
  | .mk name [.Function c] => eqIgnoreAsciiCase name.Literal "NOT".toList ∧ CatalogAllows c
  | .mk name [.Function lhs, .Function rhs] =>
    (eqIgnoreAsciiCase name.Literal "AND".toList ∨ eqIgnoreAsciiCase name.Literal "OR".toList)
      ∧ CatalogAllows lhs ∧ CatalogAllows rhs
  | .mk name [.Value field, .Value value] =>
    (∃ op ∈ operatorNames, eqIgnoreAsciiCase name.Literal op)
      ∧ field.Typ = .IDENT ∧ value.Typ ≠ .IDENT
      ∧ ((eqIgnoreAsciiCase name.Literal "CONTAINS".toList
          ∨ eqIgnoreAsciiCase name.Literal "IN".toList) → value.Typ = .STRING)
  | _ => False

mutual
/-- A Value of kind STRING occurs in the tree of the function. -/
def Function.hasStringValue : Function → Bool
  | .mk _ params => Node.anyStringValue params
/-- A Value of kind STRING occurs in the tree of the node. -/
def Node.hasStringValue : Node → Bool
  | .Value V => V.Typ = .STRING
  | .Function F => F.hasStringValue
  | .Filter F => F.hasStringValue
  | .ParseError _ => false
/-- A Value of kind STRING occurs in one of the trees of the list. -/
def Node.anyStringValue : List Node → Bool
  | [] => false
  | n :: rest => n.hasStringValue || Node.anyStringValue rest
end

/-- The mapper returns a non-empty name for the field of every operator of the tree (the field
is the literal of the operator's first parameter). -/
def FieldsMapped (m : TMapIdentityToField) : Function → Prop
  | .mk _ [.Function c] => FieldsMapped m c
  | .mk _ [.Function lhs, .Function rhs] => FieldsMapped m lhs ∧ FieldsMapped m rhs
  | .mk _ [.Value field, .Value _] => m field.Literal ≠ []
  | _ => True

/-- The comparison sign the dispatch table of the specification gives for an operator name. -/
def operatorSign (name : List Char) : Option (List Char) :=
  if name = "EQ".toList then some "=".toList
  else if name = "NEQ".toList then some "!=".toList
  else if name = "GT".toList then some ">".toList
  else if name = "GTE".toList then some ">=".toList
  else if name = "LT".toList then some "<".toList
  else if name = "LTE".toList then some "<=".toList
  else none

/-- The emission of the dispatch table of the specification for a tree without string values:
`NOT(c)`, `(l) AND (r)`, `(l) OR (r)` and `field sign literal`, with `field` the mapper's result
for the first parameter's literal and `literal` the second parameter's literal. -/
def tableEmission (m : TMapIdentityToField) : Function → List Char
  | .mk name [.Function c] =>
    if name.Literal = "NOT".toList then "NOT(".toList ++ tableEmission m c ++ ")".toList else []
  | .mk name [.Function lhs, .Function rhs] =>
    if name.Literal = "AND".toList then
      "(".toList ++ tableEmission m lhs ++ ") AND (".toList ++ tableEmission m rhs ++ ")".toList
    else if name.Literal = "OR".toList then
      "(".toList ++ tableEmission m lhs ++ ") OR (".toList ++ tableEmission m rhs ++ ")".toList
    else []
  | .mk name [.Value field, .Value value] =>
    match operatorSign name.Literal with
    | some sign => m field.Literal ++ " ".toList ++ sign ++ " ".toList ++ value.Literal
    | none => []
  | _ => []

/-- The names of the function catalog. -/
def catalogNames : List (List Char) := "NOT".toList :: "AND".toList :: "OR".toList :: operatorNames


/-! ## Well-formed lexer states and the token stream of an input -/

/-- The positions of a lexer agree: `position` is inside the input or one past its end, and
`readPosition` is the next position, capped at the end. -/
def Lexer.PosOk (l : Lexer) : Prop :=
  l.position ≤ l.input.length ∧ l.readPosition = min (l.position + 1) l.input.length

/-- A lexer state between two `NextToken` calls: the positions agree and `ch` is the character
at `position`, or the rune 0 at the end of the input. -/
def Lexer.WF (l : Lexer) : Prop :=
  l.PosOk ∧ l.ch = l.input.getD l.position NUL

/-- The lexer after `k` calls of `NextToken` (a panic leaves the state as it is). -/
def lexState (U : UnicodeTables) (l : Lexer) : Nat → Lexer
  | 0 => l
  | k + 1 =>
    match (lexState U l k).NextToken U with
    | some (_, l1) => l1
    | none => lexState U l k

/-- The token the call number `k` of `NextToken` returns, counted from 0. -/
def lexTok (U : UnicodeTables) (l : Lexer) (k : Nat) : Token :=
  match (lexState U l k).NextToken U with
  | some (tok, _) => tok
  | none => { Typ := .ILLEGAL, Literal := [] }

/-- What the scanners of `NextToken` leave: a token and a lexer from which the closing
`l.nextChar()` lands past the position the scan started from. -/
def ScanOk (l : Lexer) (r : Option (Token × Lexer)) : Prop :=
  ∃ tok l1, r = some (tok, l1) ∧ l1.PosOk ∧ l1.input = l.input
    ∧ l.position + 1 ≤ min (l1.position + 1) l1.input.length

/-! ## The parser on a token stream -/

/-- The sequence `st`, `tok` records a run of the token source: call number `k` is made in the
state `st k`, returns `tok k` and leaves `st (k + 1)`. -/
def IsTrace {σ : Type} (next : TokenSource σ) (st : Nat → σ) (tok : Nat → Token) : Prop :=
  ∀ k, next (st k) = some (tok k, st (k + 1))

/-- The parser whose current token is token number `k` of the run. -/
def parserAt {σ : Type} (st : Nat → σ) (tok : Nat → Token) (k : Nat) : Parser σ :=
  { l := st (k + 2), curToken := tok k, peekToken := tok (k + 1) }

/-- Token `k` stands where a parameter begins: it is an IDENT (the first parameter, which
`parseFunction` has checked) or it follows a COMMA or an RPAREN. -/
def ParamStart (tok : Nat → Token) (k : Nat) : Prop :=
  (tok k).Typ = .IDENT
    ∨ (1 ≤ k ∧ ((tok (k - 1)).Typ = .COMMA ∨ (tok (k - 1)).Typ = .RPAREN))

/-- The one place where the parser lets an ILLEGAL token pass: at the start of a parameter
after the first of its list (right after a COMMA or an RPAREN), directly followed by LPAREN,
COMMA or RPAREN. -/
def IllegalPasses (tok : Nat → Token) (i : Nat) : Prop :=
  1 ≤ i ∧ ((tok (i - 1)).Typ = .COMMA ∨ (tok (i - 1)).Typ = .RPAREN)
    ∧ ((tok (i + 1)).Typ = .LPAREN ∨ (tok (i + 1)).Typ = .COMMA ∨ (tok (i + 1)).Typ = .RPAREN)

/-- Token `i` is not an ILLEGAL token, or it stands where the parser lets one pass. -/
def Allowed (tok : Nat → Token) (i : Nat) : Prop :=
  (tok i).Typ = .ILLEGAL → IllegalPasses tok i

/-- Every token from `k` up to `k1` (excluded) is allowed. -/
def AllowedOn (tok : Nat → Token) (k k1 : Nat) : Prop :=
  ∀ i, k ≤ i → i < k1 → Allowed tok i

/-- What `parseFunction`, started on token `k`, has done when it returns `r` on token `k1`: a
function ends behind its RPAREN and every token it consumed is allowed; an error leaves the
parser on a token that is not an RPAREN, or every consumed token is allowed. -/
def PostFunction (tok : Nat → Token) (k : Nat) (r : Node) (k1 : Nat) : Prop :=
  (∃ f, r = .Function f ∧ k + 1 ≤ k1 ∧ (tok (k1 - 1)).Typ = .RPAREN ∧ AllowedOn tok k k1)
    ∨ (∃ m, r = .ParseError m ∧ ((tok k1).Typ = .RPAREN → AllowedOn tok k k1))

/-- What the loop of `parseFunctionParameters`, started on token `k`, has done when it returns
`r` on token `k1`. -/
def PostParams (tok : Nat → Token) (k : Nat) (r : Params) (k1 : Nat) : Prop :=
  (∃ ps, r = .list ps ∧ ((tok k1).Typ = .RPAREN → AllowedOn tok k k1))
    ∨ (∃ m, r = .ParseError m ∧ (tok k1).Typ ≠ .RPAREN)

/-! ## What the parser guarantees about the first parameter -/

/-- The list does not begin with a Value of another kind than IDENT. -/
def headIdent : List Node → Bool
  | .Value V :: _ => V.Typ = .IDENT
  | _ => true

mutual
/-- In the tree of the function, every first parameter that is a Value holds an IDENT token. -/
def Function.firstValuesIdent : Function → Bool
  | .mk _ params => headIdent params && Node.firstValuesIdentAll params
/-- In the tree of the node, every first parameter that is a Value holds an IDENT token. -/
def Node.firstValuesIdent : Node → Bool
  | .Value _ => true
  | .Function F => F.firstValuesIdent
  | .Filter F => F.firstValuesIdent
  | .ParseError _ => true
/-- The property `Node.firstValuesIdent` of every node of the list. -/
def Node.firstValuesIdentAll : List Node → Bool
  | [] => true
  | n :: rest => n.firstValuesIdent && Node.firstValuesIdentAll rest
end

mutual
/-- Every Value of the tree of the function holds a STRING, INT, NUMBER or IDENT token. -/
def Function.valuesAreLiterals : Function → Bool
  | .mk _ params => Node.valuesAreLiteralsAll params
/-- Every Value of the tree of the node holds a STRING, INT, NUMBER or IDENT token. -/
def Node.valuesAreLiterals : Node → Bool
  | .Value V => V.Typ = .STRING || V.Typ = .INT || V.Typ = .NUMBER || V.Typ = .IDENT
  | .Function F => F.valuesAreLiterals
  | .Filter F => F.valuesAreLiterals
  | .ParseError _ => true
/-- The property `Node.valuesAreLiterals` of every node of the list. -/
def Node.valuesAreLiteralsAll : List Node → Bool
  | [] => true
  | n :: rest => n.valuesAreLiterals && Node.valuesAreLiteralsAll rest
end


/-! ## The lexer seen as a cursor in its input -/

/-- The lexer between two tokens with `pre` behind the cursor and `suf` from the cursor on:
`position` is the length of `pre` and `ch` the first character of `suf` (the rune 0 at the
end). -/
def lexerAt (pre suf : List Char) : Lexer :=
  { input := pre ++ suf, position := pre.length,
    readPosition := min (pre.length + 1) (pre ++ suf).length, ch := suf.headD NUL }


/-! ## Reference scanners, in the words of the specification -/

/-- The prefix of `r` up to and including its first `.` (all of `r` if it has none). -/
def throughPeriod : List Char → List Char
  | [] => []
  | c :: cs => if c = '.' then [c] else c :: throughPeriod cs

/-- The prefix of `r` up to and including its second `.` (all of `r` if it has fewer). -/
def throughSecondPeriod : List Char → List Char
  | [] => []
  | c :: cs => if c = '.' then c :: throughPeriod cs else c :: throughSecondPeriod cs

/-- The reference machine for numbers, applied to the maximal run `r` of digits and periods:
without a period an INT, with one period a NUMBER when the run ends in a digit and ILLEGAL when
it ends with the period, with two or more periods ILLEGAL up to and including the second. -/
def numberReference (r : List Char) : Token :=
  if r.count '.' = 0 then { Typ := .INT, Literal := r }
  else if r.count '.' = 1 then
    if r.getLast? = some '.' then { Typ := .ILLEGAL, Literal := r }
    else { Typ := .NUMBER, Literal := r }
  else { Typ := .ILLEGAL, Literal := throughSecondPeriod r }

/-- The reference decoder for the body of a string: a backslash followed by a backslash, a double
quote or `*` gives that following character alone, any other backslash stays, an unescaped `*`
gives the wildcard marker, every other character stays. -/
def decode : List Char → List Char
  | [] => []
  | c :: cs =>
    let tail := decode cs
    if c = '\\' then
      match cs with
      | d :: ds => if d = '\\' ∨ d = '"' ∨ d = '*' then d :: decode ds else '\\' :: tail
      | [] => ['\\']
    else if c = '*' then wildcardMarker :: tail
    else c :: tail

/-- The index of the first unescaped double quote of the text that follows an opening quote,
read from the left with the escapes of `decode`; `none` if the text ends before one. -/
def closingQuote : List Char → Option Nat
  | [] => none
  | c :: cs =>
    let tail := (closingQuote cs).map (· + 1)
    if c = '\\' then
      match cs with
      | d :: ds =>
        if d = '\\' ∨ d = '"' ∨ d = '*' then (closingQuote ds).map (· + 2) else tail
      | [] => none
    else if c = '"' then some 0
    else tail

/-- The token of a delimiter character. -/
def delimiterToken (c : Char) : Token :=
  if c = '(' then newToken .LPAREN c
  else if c = ')' then newToken .RPAREN c
  else newToken .COMMA c

/-- The string with its whitespace removed. -/
def stripWhiteSpace (U : UnicodeTables) (s : List Char) : List Char :=
  s.filter (fun c => !isWhiteSpace U c)

/-- The state of the loop of `nextTokenNumber` once it has read the characters `done` of a run
with at most one period, `suf` being what follows them. -/
def numberScanAt (pre done suf : List Char) : NumberScan :=
  { l := lexerAt (pre ++ done) suf, matchedPeriod := decide (done.count '.' = 1),
    requireNextDigit := decide (done.getLast? = some '.'),
    tt := if done.count '.' = 1 then .NUMBER else .INT }

/-- A field mapper that knows no field `secret`: it returns the empty string for it and maps
every other identity to itself. -/
def secretMapper : TMapIdentityToField :=
  fun identity => if identity = "secret".toList then [] else identity

/-! ## Properties of trees, of escaped text and of lexer states -/

mutual
/-- In the tree of the function, every function has at least one parameter. -/
def Function.paramsNonEmpty : Function → Bool
  | .mk _ params => !params.isEmpty && Node.paramsNonEmptyAll params
/-- In the tree of the node, every function has at least one parameter. -/
def Node.paramsNonEmpty : Node → Bool
  | .Value _ => true
  | .Function F => F.paramsNonEmpty
  | .Filter F => F.paramsNonEmpty
  | .ParseError _ => true
/-- The property `Node.paramsNonEmpty` of every node of the list. -/
def Node.paramsNonEmptyAll : List Node → Bool
  | [] => true
  | n :: rest => n.paramsNonEmpty && Node.paramsNonEmptyAll rest
end

mutual
/-- The second function is the first with nothing changed but letter case: the name has the
same kind and its literal is the same or upper-cased, and the parameters correspond one to one,
the first parameter of an operator being allowed a lower-cased literal. -/
def Function.sameUpToCase (U : UnicodeTables) : Function → Function → Bool
  | .mk n ps, .mk n1 ps1 =>
    decide (n1.Typ = n.Typ)
      && (decide (n1.Literal = n.Literal) || decide (n1.Literal = stringsToUpper U n.Literal))
      && Node.sameUpToCaseAll U
          (decide (functionType (stringsToUpper U n.Literal) = .operator)) ps ps1
/-- The second node is the first with nothing changed but letter case; `first` says that the
node is the first parameter of an operator, whose literal may be lower-cased. -/
def Node.sameUpToCase (U : UnicodeTables) (first : Bool) : Node → Node → Bool
  | .Value v, n1 =>
    match n1 with
    | .Value v1 =>
      decide (v1.Typ = v.Typ)
        && (decide (v1.Literal = v.Literal)
          || (first && decide (v1.Literal = stringsToLower U v.Literal)))
    | _ => false
  | .Function f, n1 =>
    match n1 with
    | .Function f1 => Function.sameUpToCase U f f1
    | _ => false
  | .Filter f, n1 =>
    match n1 with
    | .Filter f1 => Function.sameUpToCase U f f1
    | _ => false
  | .ParseError m, n1 =>
    match n1 with
    | .ParseError m1 => decide (m1 = m)
    | _ => false
/-- The two parameter lists have the same length and correspond node by node; only the first
node of the lists can be the first parameter of an operator. -/
def Node.sameUpToCaseAll (U : UnicodeTables) (first : Bool) : List Node → List Node → Bool
  | [], ps1 => ps1.isEmpty
  | n :: ns, ps1 =>
    match ps1 with
    | n1 :: ns1 => Node.sameUpToCase U first n n1 && Node.sameUpToCaseAll U false ns ns1
    | [] => false
end

/-- The number of backslashes that stand directly at the end of `pre`. -/
def backslashRun (pre : List Char) : Nat :=
  (pre.reverse.takeWhile (fun c => decide (c = '\\'))).length

/-- The shape of an escaped text: it is made of single characters that are neither a backslash
nor a quote, and of pairs of a backslash and the character it escapes. -/
inductive EscapeShape : List Char → Prop where
  | nil : EscapeShape []
  | plain (c : Char) (cs : List Char) : c ≠ '\\' → c ≠ '"' → c ≠ '\'' → EscapeShape cs →
      EscapeShape (c :: cs)
  | pair (x : Char) (cs : List Char) : EscapeShape cs → EscapeShape ('\\' :: x :: cs)

/-- The lexer states that can be reached from `NewLexer input` by calls of `NextToken` and
`Reset`. -/
inductive Reachable (U : UnicodeTables) (input : List Char) : Lexer → Prop where
  | new : Reachable U input (NewLexer input)
  | next (l l1 : Lexer) (tok : Token) : Reachable U input l → l.NextToken U = some (tok, l1) →
      Reachable U input l1
  | reset (l : Lexer) : Reachable U input l → Reachable U input l.Reset

/-! ## The lexer never changes its input buffer -/

theorem nextChar_input (l : Lexer) : l.nextChar.input = l.input := by
  unfold Lexer.nextChar
  split <;> rfl

theorem undoChar_input {l l1 : Lexer} (h : l.undoChar = some l1) : l1.input = l.input := by
  unfold Lexer.undoChar at h
  split at h
  · simp only [Option.some.injEq] at h
    subst h
    rfl
  · exact absurd h (by simp)

theorem skipWhiteSpacesLoop_input (U : UnicodeTables) (fuel : Nat) :
    ∀ (l l1 : Lexer), skipWhiteSpacesLoop U fuel l = some l1 → l1.input = l.input := by
  induction fuel with
  | zero => intro l l1 h; simp [skipWhiteSpacesLoop] at h
  | succ fuel ih =>
    intro l l1 h
    rw [skipWhiteSpacesLoop] at h
    split at h
    · rw [ih _ _ h, nextChar_input]
    · simp only [Option.some.injEq] at h
      subst h
      rfl

theorem nextTokenNumberLoop_input (U : UnicodeTables) (fuel : Nat) :
    ∀ (s s1 : NumberScan), nextTokenNumberLoop U fuel s = some s1 → s1.l.input = s.l.input := by
  induction fuel with
  | zero => intro s s1 h; simp [nextTokenNumberLoop] at h
  | succ fuel ih =>
    intro s s1 h
    rw [nextTokenNumberLoop] at h
    split at h
    · split at h
      · split at h
        · simp only [Option.some.injEq] at h
          subst h
          exact nextChar_input _
        · rw [ih _ _ h]
          exact nextChar_input _
      · rw [ih _ _ h]
        exact nextChar_input _
    · simp only [Option.some.injEq] at h
      subst h
      rfl

theorem nextTokenIdentifierLoop_input (U : UnicodeTables) (fuel : Nat) :
    ∀ (l l1 : Lexer), nextTokenIdentifierLoop U fuel l = some l1 → l1.input = l.input := by
  induction fuel with
  | zero => intro l l1 h; simp [nextTokenIdentifierLoop] at h
  | succ fuel ih =>
    intro l l1 h
    rw [nextTokenIdentifierLoop] at h
    split at h
    · rw [ih _ _ h, nextChar_input]
    · simp only [Option.some.injEq] at h
      subst h
      rfl

theorem stringEscape_input (l : Lexer) : (stringEscape l).input = l.input := by
  unfold stringEscape
  split
  · split
    · exact nextChar_input _
    · split
      · exact nextChar_input _
      · rfl
  · split <;> rfl

theorem nextTokenStringLoop_input (U : UnicodeTables) (fuel : Nat) :
    ∀ (l : Lexer) (s : List Char) (r : Lexer × List Char × Bool),
      nextTokenStringLoop U fuel l s = some r → r.1.input = l.input := by
  induction fuel with
  | zero => intro l s r h; simp [nextTokenStringLoop] at h
  | succ fuel ih =>
    intro l s r h
    rw [nextTokenStringLoop] at h
    split at h
    · split at h
      · simp only [Option.some.injEq] at h
        subst h
        rfl
      · rw [ih _ _ _ h, nextChar_input, stringEscape_input]
    · simp only [Option.some.injEq] at h
      subst h
      rfl

theorem nextTokenNumber_input {U : UnicodeTables} {l l1 : Lexer} {tok : Token}
    (h : l.nextTokenNumber U = some (tok, l1)) : l1.input = l.input := by
  unfold Lexer.nextTokenNumber at h
  simp only at h
  split at h
  · exact absurd h (by simp)
  · rename_i s hs
    split at h
    · exact absurd h (by simp)
    · rename_i l2 hl2
      split at h
      · exact absurd h (by simp)
      · simp only [Option.some.injEq, Prod.mk.injEq] at h
        rw [← h.2, undoChar_input hl2, nextTokenNumberLoop_input U _ _ _ hs]
        simp only [nextChar_input]
        split <;> rfl

theorem nextTokenIdentifier_input {U : UnicodeTables} {l l1 : Lexer} {tok : Token}
    (h : l.nextTokenIdentifier U = some (tok, l1)) : l1.input = l.input := by
  unfold Lexer.nextTokenIdentifier at h
  simp only at h
  split at h
  · exact absurd h (by simp)
  · rename_i s hs
    split at h
    · exact absurd h (by simp)
    · rename_i l2 hl2
      split at h
      · exact absurd h (by simp)
      · simp only [Option.some.injEq, Prod.mk.injEq] at h
        rw [← h.2, undoChar_input hl2, nextTokenIdentifierLoop_input U _ _ _ hs, nextChar_input]

theorem nextTokenString_input {U : UnicodeTables} {l l1 : Lexer} {tok : Token}
    (h : l.nextTokenString U = some (tok, l1)) : l1.input = l.input := by
  unfold Lexer.nextTokenString at h
  simp only at h
  split at h
  · simp only [Option.some.injEq, Prod.mk.injEq] at h
    rw [← h.2]
  · split at h
    · simp only [Option.some.injEq, Prod.mk.injEq] at h
      rw [← h.2, nextChar_input]
    · split at h
      · exact absurd h (by simp)
      · rename_i l2 s f hs
        have := nextTokenStringLoop_input U _ _ _ _ hs
        simp only [nextChar_input] at this
        split at h <;>
        · simp only [Option.some.injEq, Prod.mk.injEq] at h
          rw [← h.2, this]

theorem NextToken_input {U : UnicodeTables} {l l1 : Lexer} {tok : Token}
    (h : l.NextToken U = some (tok, l1)) : l1.input = l.input := by
  unfold Lexer.NextToken at h
  split at h
  · exact absurd h (by simp)
  · rename_i la hla
    have h0 : la.input = l.input := skipWhiteSpacesLoop_input U _ _ _ hla
    simp only at h
    split at h
    · exact absurd h (by simp)
    · rename_i t lb hr
      simp only [Option.some.injEq, Prod.mk.injEq] at h
      rw [← h.2, nextChar_input, ← h0]
      split at hr
      · simp only [Option.some.injEq, Prod.mk.injEq] at hr; rw [← hr.2]
      · split at hr
        · simp only [Option.some.injEq, Prod.mk.injEq] at hr; rw [← hr.2]
        · split at hr
          · simp only [Option.some.injEq, Prod.mk.injEq] at hr; rw [← hr.2]
          · split at hr
            · simp only [Option.some.injEq, Prod.mk.injEq] at hr; rw [← hr.2]
            · split at hr
              · exact nextTokenNumber_input hr
              · split at hr
                · exact nextTokenIdentifier_input hr
                · split at hr
                  · exact nextTokenString_input hr
                  · simp only [Option.some.injEq, Prod.mk.injEq] at hr; rw [← hr.2]

/-! ## The lexer returns a token from every well-formed state and moves forward -/

theorem nextChar_WF {l : Lexer} (h : l.PosOk) :
    l.nextChar.WF ∧ l.nextChar.position = min (l.position + 1) l.input.length := by
  obtain ⟨h1, h2⟩ := h
  unfold Lexer.nextChar
  split
  · rename_i hc
    refine ⟨⟨⟨?_, ?_⟩, ?_⟩, ?_⟩
    · simp only; omega
    · simp only; omega
    · simp only
      rw [List.getD_eq_default]
      omega
    · simp only; omega
  · rename_i hc
    refine ⟨⟨⟨?_, ?_⟩, ?_⟩, ?_⟩
    · simp only; omega
    · simp only; omega
    · simp only
    · simp only; omega

theorem WF_ch_end {l : Lexer} (h : l.WF) (he : l.input.length ≤ l.position) : l.ch = NUL := by
  rw [h.2, List.getD_eq_default]
  exact he

theorem isWhiteSpace_NUL (U : UnicodeTables) : isWhiteSpace U NUL = false := by rfl

theorem isValidNumberRune_NUL (U : UnicodeTables) : isValidNumberRune U NUL = false := by rfl

theorem isValidNextIdentifierRune_NUL (U : UnicodeTables) :
    isValidNextIdentifierRune U NUL = false := by rfl

theorem isValidStringRune_NUL (U : UnicodeTables) : isValidStringRune U NUL = false := by rfl

theorem skipWhiteSpacesLoop_WF (U : UnicodeTables) (fuel : Nat) :
    ∀ (l : Lexer), l.WF → l.input.length - l.position < fuel →
      ∃ l1, skipWhiteSpacesLoop U fuel l = some l1 ∧ l1.WF ∧ l.position ≤ l1.position := by
  induction fuel with
  | zero => intro l _ h; omega
  | succ fuel ih =>
    intro l hw hf
    rw [skipWhiteSpacesLoop]
    split
    · rename_i hc
      simp only [Bool.and_eq_true, Bool.not_eq_true', Lexer.isEOL, decide_eq_false_iff_not,
        not_le] at hc
      obtain ⟨hwf, hpos⟩ := nextChar_WF hw.1
      obtain ⟨l1, h1, h2, h3⟩ := ih l.nextChar hwf (by rw [nextChar_input, hpos]; omega)
      exact ⟨l1, h1, h2, by omega⟩
    · exact ⟨l, rfl, hw, le_refl _⟩

theorem nextTokenNumberLoop_WF (U : UnicodeTables) (fuel : Nat) :
    ∀ (s : NumberScan), s.l.WF → s.l.input.length - s.l.position < fuel →
      ∃ s1, nextTokenNumberLoop U fuel s = some s1 ∧ s1.l.WF
        ∧ s.l.position ≤ s1.l.position := by
  induction fuel with
  | zero => intro s _ h; omega
  | succ fuel ih =>
    intro s hw hf
    have hstep : ∀ (s2 : NumberScan), s2.l = s.l.nextChar → isValidNumberRune U s.l.ch = true →
        ∃ s1, nextTokenNumberLoop U fuel s2 = some s1 ∧ s1.l.WF
          ∧ s.l.position ≤ s1.l.position := by
      intro s2 hs2 hv
      have hlt : s.l.position < s.l.input.length := by
        by_contra hn
        rw [WF_ch_end hw (by omega), isValidNumberRune_NUL] at hv
        exact absurd hv (by simp)
      obtain ⟨hwf, hpos⟩ := nextChar_WF hw.1
      obtain ⟨s1, h1, h2, h3⟩ := ih s2 (by rw [hs2]; exact hwf)
        (by rw [hs2, nextChar_input, hpos]; omega)
      rw [hs2, hpos] at h3
      exact ⟨s1, h1, h2, by omega⟩
    rw [nextTokenNumberLoop]
    split
    · rename_i hv
      split
      · split
        · obtain ⟨hwf, hpos⟩ := nextChar_WF hw.1
          exact ⟨_, rfl, hwf, by simp only [hpos]; have := hw.1.1; omega⟩
        · exact hstep _ rfl hv
      · exact hstep _ rfl hv
    · exact ⟨s, rfl, hw, le_refl _⟩

theorem nextTokenIdentifierLoop_WF (U : UnicodeTables) (fuel : Nat) :
    ∀ (l : Lexer), l.WF → l.input.length - l.position < fuel →
      ∃ l1, nextTokenIdentifierLoop U fuel l = some l1 ∧ l1.WF
        ∧ l.position ≤ l1.position := by
  induction fuel with
  | zero => intro l _ h; omega
  | succ fuel ih =>
    intro l hw hf
    rw [nextTokenIdentifierLoop]
    split
    · rename_i hv
      have hlt : l.position < l.input.length := by
        by_contra hn
        rw [WF_ch_end hw (by omega), isValidNextIdentifierRune_NUL] at hv
        exact absurd hv (by simp)
      obtain ⟨hwf, hpos⟩ := nextChar_WF hw.1
      obtain ⟨l1, h1, h2, h3⟩ := ih l.nextChar hwf (by rw [nextChar_input, hpos]; omega)
      exact ⟨l1, h1, h2, by omega⟩
    · exact ⟨l, rfl, hw, le_refl _⟩

theorem stringEscape_PosOk {l : Lexer} (h : l.PosOk) :
    (stringEscape l).PosOk ∧ l.position ≤ (stringEscape l).position := by
  have hn := nextChar_WF h
  have hle : l.position ≤ l.nextChar.position := by
    rw [hn.2]; have := h.1; omega
  unfold stringEscape
  split
  · split
    · exact ⟨hn.1.1, hle⟩
    · split
      · exact ⟨hn.1.1, hle⟩
      · exact ⟨h, le_refl _⟩
  · split
    · exact ⟨h, le_refl _⟩
    · exact ⟨h, le_refl _⟩

theorem nextTokenStringLoop_WF (U : UnicodeTables) (fuel : Nat) :
    ∀ (l : Lexer) (s : List Char), l.WF → l.input.length - l.position < fuel →
      ∃ r, nextTokenStringLoop U fuel l s = some r ∧ r.1.WF ∧ l.position ≤ r.1.position := by
  induction fuel with
  | zero => intro l _ _ h; omega
  | succ fuel ih =>
    intro l s hw hf
    rw [nextTokenStringLoop]
    split
    · rename_i hv
      split
      · exact ⟨_, rfl, hw, le_refl _⟩
      · have hlt : l.position < l.input.length := by
          by_contra hn
          rw [WF_ch_end hw (by omega), isValidStringRune_NUL] at hv
          exact absurd hv (by decide)
        obtain ⟨he1, he2⟩ := stringEscape_PosOk hw.1
        obtain ⟨hwf, hpos⟩ := nextChar_WF he1
        rw [stringEscape_input] at hpos
        obtain ⟨r, h1, h2, h3⟩ := ih (stringEscape l).nextChar (s ++ [(stringEscape l).ch]) hwf
          (by rw [nextChar_input, stringEscape_input, hpos]; omega)
        exact ⟨r, h1, h2, by omega⟩
    · exact ⟨_, rfl, hw, le_refl _⟩

theorem undoChar_WF {l : Lexer} (h : l.PosOk) (h1 : 1 ≤ l.position) :
    ∃ l1, l.undoChar = some l1 ∧ l1.WF ∧ l1.position + 1 = l.position
      ∧ l1.input = l.input := by
  obtain ⟨ha, hb⟩ := h
  unfold Lexer.undoChar
  rw [if_pos (by omega)]
  refine ⟨_, rfl, ⟨⟨?_, ?_⟩, ?_⟩, ?_, rfl⟩
  · simp only; omega
  · simp only; omega
  · simp only
  · simp only; omega

theorem slice_some (l : Lexer) (start end_ : Nat) (h1 : start ≤ end_)
    (h2 : end_ ≤ l.input.length) : ∃ lit, l.slice start end_ = some lit := by
  unfold Lexer.slice
  rw [if_pos ⟨h1, h2⟩]
  exact ⟨_, rfl⟩

theorem nextTokenNumber_ok (U : UnicodeTables) {l : Lexer} (hw : l.WF)
    (hlt : l.position < l.input.length) : ScanOk l (l.nextTokenNumber U) := by
  unfold Lexer.nextTokenNumber
  simp only
  obtain ⟨hwf, hpos⟩ := nextChar_WF hw.1
  have hsame : ∀ (b1 b2 : Bool) (t : TokenType),
      ∃ s1, nextTokenNumberLoop U (l.input.length + 1)
          { l := l.nextChar, matchedPeriod := b1, requireNextDigit := b2, tt := t } = some s1
        ∧ s1.l.WF ∧ l.position + 1 ≤ s1.l.position ∧ s1.l.input = l.input := by
    intro b1 b2 t
    obtain ⟨s1, h1, h2, h3⟩ := nextTokenNumberLoop_WF U (l.input.length + 1)
      { l := l.nextChar, matchedPeriod := b1, requireNextDigit := b2, tt := t } hwf
      (by simp only [nextChar_input]; omega)
    refine ⟨s1, h1, h2, ?_, ?_⟩
    · simp only [hpos] at h3; omega
    · rw [nextTokenNumberLoop_input U _ _ _ h1]; exact nextChar_input l
  have hfin : ∀ (s1 : NumberScan), s1.l.WF → l.position + 1 ≤ s1.l.position →
      s1.l.input = l.input →
      ScanOk l (match s1.l.undoChar with
        | none => none
        | some l1 =>
          match l1.slice l.position s1.l.position with
          | none => none
          | some lit =>
            some ({ Typ := if s1.requireNextDigit then TokenType.ILLEGAL else s1.tt,
                    Literal := lit }, l1)) := by
    intro s1 hw1 hp1 hin
    obtain ⟨l2, hu, hw2, hp2, hi2⟩ := undoChar_WF hw1.1 (by omega)
    obtain ⟨lit, hl⟩ := slice_some l2 l.position s1.l.position
      (by omega) (by rw [hi2]; exact hw1.1.1)
    simp only [hu, hl]
    refine ⟨_, l2, rfl, hw2.1, by rw [hi2, hin], ?_⟩
    have := hw1.1.1
    rw [hi2]
    omega
  split
  · rename_i heq
    by_cases hdot : l.ch = '.'
    · simp only [hdot, if_true] at heq
      obtain ⟨s1, h1, -⟩ := hsame true true .NUMBER
      rw [h1] at heq
      exact absurd heq (by simp)
    · simp only [hdot, if_false] at heq
      obtain ⟨s1, h1, -⟩ := hsame false false .INT
      rw [h1] at heq
      exact absurd heq (by simp)
  · rename_i s1 heq
    have : s1.l.WF ∧ l.position + 1 ≤ s1.l.position ∧ s1.l.input = l.input := by
      by_cases hdot : l.ch = '.'
      · simp only [hdot, if_true] at heq
        obtain ⟨s2, h1, h2⟩ := hsame true true .NUMBER
        rw [h1] at heq
        simp only [Option.some.injEq] at heq
        rw [← heq]; exact h2
      · simp only [hdot, if_false] at heq
        obtain ⟨s2, h1, h2⟩ := hsame false false .INT
        rw [h1] at heq
        simp only [Option.some.injEq] at heq
        rw [← heq]; exact h2
    exact hfin s1 this.1 this.2.1 this.2.2

theorem nextTokenIdentifier_ok (U : UnicodeTables) {l : Lexer} (hw : l.WF)
    (hlt : l.position < l.input.length) : ScanOk l (l.nextTokenIdentifier U) := by
  unfold Lexer.nextTokenIdentifier
  simp only
  obtain ⟨hwf, hpos⟩ := nextChar_WF hw.1
  obtain ⟨l1, h1, hw1, hp1⟩ := nextTokenIdentifierLoop_WF U (l.input.length + 1) l.nextChar hwf
    (by simp only [nextChar_input]; omega)
  have hin : l1.input = l.input := by
    rw [nextTokenIdentifierLoop_input U _ _ _ h1]; exact nextChar_input l
  obtain ⟨l2, hu, hw2, hp2, hi2⟩ := undoChar_WF hw1.1 (by omega)
  obtain ⟨lit, hl⟩ := slice_some l2 l.position l1.position
    (by omega) (by rw [hi2]; exact hw1.1.1)
  simp only [h1, hu, hl]
  refine ⟨_, l2, rfl, hw2.1, by rw [hi2, hin], ?_⟩
  have := hw1.1.1
  rw [hi2]
  omega

theorem peekChar_ne_NUL {l : Lexer} {peek : Nat} (h : l.peekChar peek ≠ NUL) :
    peek < l.input.length := by
  unfold Lexer.peekChar at h
  by_contra hn
  rw [if_pos (by omega)] at h
  exact h rfl

theorem nextTokenString_ok (U : UnicodeTables) {l : Lexer} (hw : l.WF)
    (hlt : l.position < l.input.length) : ScanOk l (l.nextTokenString U) := by
  unfold Lexer.nextTokenString
  simp only
  obtain ⟨hwf, hpos⟩ := nextChar_WF hw.1
  have hlen := hw.1.1
  split
  · exact ⟨_, l, rfl, hw.1, rfl, by omega⟩
  · rename_i hnul
    have hr : l.readPosition < l.input.length := peekChar_ne_NUL hnul
    have hrp := hw.1.2
    split
    · refine ⟨_, l.nextChar, rfl, hwf.1, nextChar_input l, ?_⟩
      rw [hpos, nextChar_input]
      omega
    · obtain ⟨r, h1, hw1, hp1⟩ := nextTokenStringLoop_WF U (l.input.length + 1) l.nextChar []
        hwf (by simp only [nextChar_input]; omega)
      have hin : r.1.input = l.input := by
        rw [nextTokenStringLoop_input U _ _ _ _ h1]; exact nextChar_input l
      have hle := hw1.1.1
      rw [hpos] at hp1
      obtain ⟨l1, s, found⟩ := r
      simp only [h1]
      split
      · exact ⟨_, l1, rfl, hw1.1, hin, by simp only at hp1 hle hin; rw [hin] at hle ⊢; omega⟩
      · exact ⟨_, l1, rfl, hw1.1, hin, by simp only at hp1 hle hin; rw [hin] at hle ⊢; omega⟩

/-- `NextToken` on a well-formed lexer returns a token and a well-formed lexer on the same
input; the position moves forward unless the lexer is at the end of the input, where the token
is the EOL token with the literal NUL and the lexer stays as it is. -/
theorem NextToken_WF (U : UnicodeTables) {l : Lexer} (hw : l.WF) :
    ∃ tok l1, l.NextToken U = some (tok, l1) ∧ l1.WF ∧ l1.input = l.input
      ∧ (l.position < l.input.length → l.position < l1.position)
      ∧ (l.input.length ≤ l.position → tok = newToken .EOL NUL ∧ l1 = l) := by
  unfold Lexer.NextToken Lexer.skipWhiteSpaces
  obtain ⟨la, h1, hwa, hpa⟩ := skipWhiteSpacesLoop_WF U (l.input.length + 1) l hw (by omega)
  have hia : la.input = l.input := skipWhiteSpacesLoop_input U _ _ _ h1
  simp only [h1]
  have hla := hwa.1.1
  rw [hia] at hla
  have hsingle : ∀ (t : TokenType), la.position < la.input.length →
      ScanOk la (some (newToken t la.ch, la)) := by
    intro t hlt
    exact ⟨_, la, rfl, hwa.1, rfl, by omega⟩
  by_cases hend : la.position < la.input.length
  · have hscan : ScanOk la
        (if la.ch = '(' then some (newToken .LPAREN la.ch, la)
        else if la.ch = ')' then some (newToken .RPAREN la.ch, la)
        else if la.ch = ',' then some (newToken .COMMA la.ch, la)
        else if la.ch = NUL then some (newToken .EOL la.ch, la)
        else if isValidNumberRune U la.ch then la.nextTokenNumber U
        else if isValidFirstIdentifierRune U la.ch then la.nextTokenIdentifier U
        else if la.ch = '"' then la.nextTokenString U
        else some (newToken .ILLEGAL la.ch, la)) := by
      split
      · exact hsingle _ hend
      · split
        · exact hsingle _ hend
        · split
          · exact hsingle _ hend
          · split
            · exact hsingle _ hend
            · split
              · exact nextTokenNumber_ok U hwa hend
              · split
                · exact nextTokenIdentifier_ok U hwa hend
                · split
                  · exact nextTokenString_ok U hwa hend
                  · exact hsingle _ hend
    obtain ⟨tok, l2, hr1, hp2, hi2, hge⟩ := hscan
    simp only [hr1]
    obtain ⟨hwf, hpos⟩ := nextChar_WF hp2
    refine ⟨tok, l2.nextChar, rfl, hwf, by rw [nextChar_input, hi2, hia], ?_, ?_⟩
    · intro _; rw [hpos]; omega
    · intro he; rw [hia] at hend; omega
  · have hch : la.ch = NUL := WF_ch_end hwa (by omega)
    have hpe : la.position = l.input.length := by rw [hia] at hend; omega
    rw [hch]
    have e1 : ¬ (NUL = '(') := by decide
    have e2 : ¬ (NUL = ')') := by decide
    have e3 : ¬ (NUL = ',') := by decide
    simp only [e1, e2, e3, if_false, if_true]
    obtain ⟨hwf, hpos⟩ := nextChar_WF hwa.1
    refine ⟨_, la.nextChar, rfl, hwf, by rw [nextChar_input, hia], ?_, ?_⟩
    · intro hlt; rw [hpos, hia]; omega
    · intro he
      refine ⟨rfl, ?_⟩
      have hl : l = la := by
        have hf : skipWhiteSpacesLoop U (l.input.length + 1) l = some l := by
          rw [skipWhiteSpacesLoop]
          have : l.isEOL = true := by simp [Lexer.isEOL, he]
          simp [this]
        rw [hf] at h1
        exact Option.some.inj h1
      subst hl
      have hrd := hw.1.2
      have hple := hw.1.1
      have hc := WF_ch_end hw he
      have hrp : l.readPosition = l.position := by omega
      unfold Lexer.nextChar
      rw [if_pos (by omega)]
      obtain ⟨inp, p, rp, c⟩ := l
      simp only at hrp hc ⊢
      rw [hrp, hc]


/-! ## The lexer as a cursor in its input -/


theorem getD_append_length (pre : List Char) (c : Char) (suf : List Char) :
    (pre ++ c :: suf).getD pre.length NUL = c := by
  rw [List.getD_eq_getElem?_getD, List.getElem?_append_right (le_refl _)]
  simp

theorem getElem_append_length (pre : List Char) (c : Char) (suf : List Char)
    (h : pre.length < (pre ++ c :: suf).length) : (pre ++ c :: suf)[pre.length] = c := by
  rw [List.getElem_append_right (le_refl _)]
  simp

theorem getElem_append_succ (pre : List Char) (c d : Char) (suf : List Char)
    (h : pre.length + 1 < (pre ++ c :: d :: suf).length) :
    (pre ++ c :: d :: suf)[pre.length + 1] = d := by
  rw [List.getElem_append_right (by omega)]
  simp

theorem lexerAt_WF (pre suf : List Char) : (lexerAt pre suf).WF := by
  refine ⟨⟨?_, rfl⟩, ?_⟩
  · simp [lexerAt]
  · cases suf with
    | nil => simp [lexerAt, List.getD_eq_default]
    | cons c cs =>
      show c = _
      exact (getD_append_length pre c cs).symm

theorem WF_eq_lexerAt {l : Lexer} (hw : l.WF) :
    l = lexerAt (l.input.take l.position) (l.input.drop l.position) := by
  obtain ⟨⟨h1, h2⟩, h3⟩ := hw
  obtain ⟨inp, p, rp, c⟩ := l
  simp only at h1 h2 h3
  simp only [lexerAt, List.take_append_drop, Lexer.mk.injEq, true_and, List.length_take]
  refine ⟨by omega, by rw [h2]; congr 1; omega, ?_⟩
  rw [h3]
  have hsplit : inp.take p ++ inp.drop p = inp := List.take_append_drop p inp
  cases hd : inp.drop p with
  | nil =>
    have : inp.length ≤ p := List.drop_eq_nil_iff.1 hd
    rw [List.getD_eq_default _ _ this]; rfl
  | cons x xs =>
    have hlt : p < inp.length := by
      by_contra hn
      rw [List.drop_eq_nil_iff.2 (by omega)] at hd
      exact absurd hd (by simp)
    rw [hd] at hsplit
    have hlen : (inp.take p).length = p := by rw [List.length_take]; omega
    have := getD_append_length (inp.take p) x xs
    rw [hsplit, hlen] at this
    rw [this]; rfl

theorem NewLexer_eq (input : List Char) : NewLexer input = lexerAt [] input := by
  cases input with
  | nil => rfl
  | cons c cs =>
    unfold NewLexer Lexer.nextChar lexerAt
    simp

theorem lexerAt_input (pre suf : List Char) : (lexerAt pre suf).input = pre ++ suf := rfl

theorem lexerAt_position (pre suf : List Char) : (lexerAt pre suf).position = pre.length := rfl

theorem ch_cons (pre : List Char) (c : Char) (suf : List Char) :
    (lexerAt pre (c :: suf)).ch = c := rfl

theorem ch_nil (pre : List Char) : (lexerAt pre []).ch = NUL := rfl

theorem nextChar_cons (pre : List Char) (c : Char) (suf : List Char) :
    (lexerAt pre (c :: suf)).nextChar = lexerAt (pre ++ [c]) suf := by
  cases suf with
  | nil =>
    unfold Lexer.nextChar lexerAt
    simp
  | cons d ds =>
    unfold Lexer.nextChar lexerAt
    simp [getElem_append_succ]
    omega

theorem nextChar_nil (pre : List Char) : (lexerAt pre []).nextChar = lexerAt pre [] := by
  unfold Lexer.nextChar lexerAt
  simp

theorem undoChar_snoc (pre : List Char) (c : Char) (suf : List Char) :
    (lexerAt (pre ++ [c]) suf).undoChar = some (lexerAt pre (c :: suf)) := by
  unfold Lexer.undoChar lexerAt
  simp [getElem_append_length]

theorem slice_mid (l : Lexer) (pre mid suf : List Char) (h : l.input = pre ++ mid ++ suf) :
    l.slice pre.length (pre ++ mid).length = some mid := by
  unfold Lexer.slice
  rw [h]
  simp

theorem isEOL_cons (pre : List Char) (c : Char) (suf : List Char) :
    (lexerAt pre (c :: suf)).isEOL = false := by
  simp [Lexer.isEOL, lexerAt]

theorem isEOL_nil (pre : List Char) : (lexerAt pre []).isEOL = true := by
  simp [Lexer.isEOL, lexerAt]

theorem peekChar_position_cons (pre : List Char) (c : Char) (suf : List Char) :
    (lexerAt pre (c :: suf)).peekChar (lexerAt pre (c :: suf)).position = c := by
  unfold Lexer.peekChar lexerAt
  simp [getElem_append_length]

theorem peekChar_read_cons (pre : List Char) (c : Char) (suf : List Char) :
    (lexerAt pre (c :: suf)).peekChar (lexerAt pre (c :: suf)).readPosition
      = suf.headD NUL := by
  cases suf with
  | nil =>
    unfold Lexer.peekChar lexerAt
    simp
  | cons d ds =>
    unfold Lexer.peekChar lexerAt
    simp [getElem_append_succ]


/-! ## The scanners of the lexer on a cursor -/

theorem skipLoop_at (U : UnicodeTables) (rest : List Char)
    (hrest : isWhiteSpace U (rest.headD NUL) = false) :
    ∀ (ws : List Char) (fuel : Nat) (pre : List Char), ws.length < fuel →
      (∀ c ∈ ws, isWhiteSpace U c = true) →
      skipWhiteSpacesLoop U fuel (lexerAt pre (ws ++ rest)) = some (lexerAt (pre ++ ws) rest) := by
  intro ws
  induction ws with
  | nil =>
    intro fuel pre hf _
    obtain ⟨f, rfl⟩ : ∃ f, fuel = f + 1 := ⟨fuel - 1, by simp at hf; omega⟩
    unfold skipWhiteSpacesLoop
    cases rest with
    | nil => simp [isEOL_nil]
    | cons c cs =>
      simp only [List.headD_cons] at hrest
      simp [isEOL_cons, peekChar_position_cons, hrest]
  | cons w ws ih =>
    intro fuel pre hf hws
    obtain ⟨f, rfl⟩ : ∃ f, fuel = f + 1 := ⟨fuel - 1, by simp at hf; omega⟩
    unfold skipWhiteSpacesLoop
    have hw : isWhiteSpace U w = true := hws w (List.mem_cons_self _ _)
    simp only [List.cons_append, isEOL_cons, peekChar_position_cons, hw, Bool.not_false,
      Bool.and_self, if_true, nextChar_cons]
    rw [ih f (pre ++ [w]) (by simp at hf; omega) (fun c hc => hws c (List.mem_cons_of_mem _ hc))]
    simp

theorem skipWhiteSpaces_at (U : UnicodeTables) (pre ws rest : List Char)
    (hws : ∀ c ∈ ws, isWhiteSpace U c = true)
    (hrest : isWhiteSpace U (rest.headD NUL) = false) :
    (lexerAt pre (ws ++ rest)).skipWhiteSpaces U = some (lexerAt (pre ++ ws) rest) := by
  unfold Lexer.skipWhiteSpaces
  exact skipLoop_at U rest hrest ws _ pre (by simp [lexerAt]; omega) hws

theorem isWhiteSpace_delim (U : UnicodeTables) (c : Char)
    (h : c = '(' ∨ c = ')' ∨ c = ',') : isWhiteSpace U c = false := by
  rcases h with h | h | h <;> (subst h; rfl)

theorem NextToken_delim (U : UnicodeTables) (pre ws : List Char) (c : Char) (rest : List Char)
    (hws : ∀ c ∈ ws, isWhiteSpace U c = true) (hc : c = '(' ∨ c = ')' ∨ c = ',') :
    (lexerAt pre (ws ++ c :: rest)).NextToken U
      = some (delimiterToken c, lexerAt (pre ++ ws ++ [c]) rest) := by
  unfold Lexer.NextToken
  rw [skipWhiteSpaces_at U pre ws (c :: rest) hws (isWhiteSpace_delim U c hc)]
  rcases hc with h | h | h <;> (subst h; simp [ch_cons, nextChar_cons, delimiterToken])

theorem NextToken_end (U : UnicodeTables) (pre ws : List Char)
    (hws : ∀ c ∈ ws, isWhiteSpace U c = true) :
    (lexerAt pre ws).NextToken U = some (newToken .EOL NUL, lexerAt (pre ++ ws) []) := by
  have h := skipWhiteSpaces_at U pre ws [] hws (isWhiteSpace_NUL U)
  rw [List.append_nil] at h
  unfold Lexer.NextToken
  rw [h]
  simp [ch_nil, nextChar_nil, NUL]


theorem lexN_delims (U : UnicodeTables) :
    ∀ (s pre ws : List Char), (∀ c ∈ ws, isWhiteSpace U c = true) →
      (∀ c ∈ s, c = '(' ∨ c = ')' ∨ c = ',' ∨ isWhiteSpace U c = true) →
      lexN U ((stripWhiteSpace U s).length + 1) (lexerAt pre (ws ++ s))
        = some ((stripWhiteSpace U s).map delimiterToken ++ [newToken .EOL NUL]) := by
  intro s
  induction s with
  | nil =>
    intro pre ws hws _
    simp only [stripWhiteSpace, List.filter_nil, List.length_nil, List.append_nil, List.map_nil,
      List.nil_append, zero_add]
    unfold lexN
    rw [NextToken_end U pre ws hws]
    rfl
  | cons c cs ih =>
    intro pre ws hws hs
    have hcs : ∀ c ∈ cs, c = '(' ∨ c = ')' ∨ c = ',' ∨ isWhiteSpace U c = true :=
      fun x hx => hs x (List.mem_cons_of_mem _ hx)
    by_cases hw : isWhiteSpace U c = true
    · have e : stripWhiteSpace U (c :: cs) = stripWhiteSpace U cs := by
        simp [stripWhiteSpace, hw]
      have e2 : ws ++ c :: cs = (ws ++ [c]) ++ cs := by simp
      rw [e, e2]
      apply ih pre (ws ++ [c]) _ hcs
      intro x hx
      rcases List.mem_append.1 hx with h | h
      · exact hws x h
      · rw [List.mem_singleton.1 h]; exact hw
    · have hd : c = '(' ∨ c = ')' ∨ c = ',' := by
        rcases hs c (List.mem_cons_self _ _) with h | h | h | h
        · exact Or.inl h
        · exact Or.inr (Or.inl h)
        · exact Or.inr (Or.inr h)
        · exact absurd h hw
      have e : stripWhiteSpace U (c :: cs) = c :: stripWhiteSpace U cs := by
        simp [stripWhiteSpace, hw]
      rw [e]
      simp only [List.length_cons, List.map_cons, List.cons_append]
      unfold lexN
      rw [NextToken_delim U pre ws c cs hws hd]
      have := ih (pre ++ ws ++ [c]) [] (by simp) hcs
      rw [List.nil_append] at this
      simp only [this]

theorem count_of_getLast (done : List Char) (h : done.getLast? = some '.') :
    1 ≤ done.count '.' := by
  have : '.' ∈ done := List.mem_of_mem_getLast? h
  exact List.count_pos_iff.2 this

theorem throughPeriod_append (cs : List Char) :
    ∀ done : List Char, done.count '.' = 0 → throughPeriod (done ++ '.' :: cs) = done ++ ['.'] := by
  intro done
  induction done with
  | nil => intro _; simp [throughPeriod]
  | cons d ds ih =>
    intro h
    have hd : d ≠ '.' := by
      intro e; subst e; simp at h
    have hds : ds.count '.' = 0 := by
      rw [List.count_cons_of_ne (Ne.symm hd)] at h; exact h
    simp [throughPeriod, hd, ih hds]

theorem throughSecondPeriod_append (cs : List Char) :
    ∀ done : List Char, done.count '.' = 1 →
      throughSecondPeriod (done ++ '.' :: cs) = done ++ ['.'] := by
  intro done
  induction done with
  | nil => intro h; simp at h
  | cons d ds ih =>
    intro h
    by_cases hd : d = '.'
    · subst hd
      have hds : ds.count '.' = 0 := by simpa using h
      simp [throughSecondPeriod, throughPeriod_append cs ds hds]
    · have hds : ds.count '.' = 1 := by
        rw [List.count_cons_of_ne (Ne.symm hd)] at h; exact h
      simp [throughSecondPeriod, hd, ih hds]

theorem numberReference_two (done cs : List Char) (h : done.count '.' = 1) :
    numberReference (done ++ '.' :: cs) = { Typ := .ILLEGAL, Literal := done ++ ['.'] } := by
  unfold numberReference
  have hc : (done ++ '.' :: cs).count '.' = 2 + cs.count '.' := by
    simp [List.count_append, h]; omega
  rw [if_neg (by omega), if_neg (by omega), throughSecondPeriod_append cs done h]

theorem numberReference_le_one (done : List Char) (h : done.count '.' ≤ 1) :
    numberReference done
      = { Typ := if decide (done.getLast? = some '.') = true then .ILLEGAL
                 else if done.count '.' = 1 then .NUMBER else .INT,
          Literal := done } := by
  unfold numberReference
  by_cases h0 : done.count '.' = 0
  · have hl : ¬ done.getLast? = some '.' := fun e => by
      have := count_of_getLast done e; omega
    simp [h0, hl]
  · have h1 : done.count '.' = 1 := by omega
    by_cases hl : done.getLast? = some '.'
    · simp [h1, hl]
    · simp [h1, hl]


theorem numberLoop_at (U : UnicodeTables) (pre rest : List Char)
    (hrest : isValidNumberRune U (rest.headD NUL) = false) :
    ∀ (todo done : List Char) (fuel : Nat), todo.length < fuel → done.count '.' ≤ 1 →
      (∀ c ∈ todo, isValidNumberRune U c = true) →
      ∃ s extra rem, nextTokenNumberLoop U fuel (numberScanAt pre done (todo ++ rest)) = some s
        ∧ todo = extra ++ rem ∧ s.l = lexerAt (pre ++ (done ++ extra)) (rem ++ rest)
        ∧ numberReference (done ++ todo)
            = { Typ := if s.requireNextDigit = true then .ILLEGAL else s.tt,
                Literal := done ++ extra } := by
  intro todo
  induction todo with
  | nil =>
    intro done fuel hf hc _
    obtain ⟨f, rfl⟩ : ∃ f, fuel = f + 1 := ⟨fuel - 1, by simp at hf; omega⟩
    refine ⟨numberScanAt pre done rest, [], [], ?_, rfl, by simp [numberScanAt], ?_⟩
    · unfold nextTokenNumberLoop
      have hch : (numberScanAt pre done ([] ++ rest)).l.ch = rest.headD NUL := by
        cases rest <;> rfl
      rw [hch, hrest]
      simp
    · simp only [List.append_nil]
      rw [numberReference_le_one done hc]
      simp only [numberScanAt]
  | cons c cs ih =>
    intro done fuel hf hc hall
    obtain ⟨f, rfl⟩ : ∃ f, fuel = f + 1 := ⟨fuel - 1, by simp at hf; omega⟩
    have hf1 : cs.length < f := by simp at hf; omega
    have hcv : isValidNumberRune U c = true := hall c (List.mem_cons_self _ _)
    have hcs : ∀ x ∈ cs, isValidNumberRune U x = true :=
      fun x hx => hall x (List.mem_cons_of_mem _ hx)
    have hch : (numberScanAt pre done (c :: cs ++ rest)).l.ch = c := rfl
    have hnext : (numberScanAt pre done (c :: cs ++ rest)).l.nextChar
        = lexerAt (pre ++ (done ++ [c])) (cs ++ rest) := by
      show (lexerAt (pre ++ done) (c :: (cs ++ rest))).nextChar = _
      rw [nextChar_cons, List.append_assoc]
    have hassoc : done ++ c :: cs = (done ++ [c]) ++ cs := by simp
    unfold nextTokenNumberLoop
    rw [hch, hcv, if_pos rfl]
    by_cases hp : c = '.'
    · subst hp
      rw [if_pos rfl]
      by_cases h1 : done.count '.' = 1
      · have hm : ((numberScanAt pre done ('.' :: cs ++ rest)).matchedPeriod
            || (numberScanAt pre done ('.' :: cs ++ rest)).requireNextDigit) = true := by
          simp [numberScanAt, h1]
        rw [if_pos hm, hnext]
        refine ⟨_, ['.'], cs, rfl, rfl, rfl, ?_⟩
        rw [numberReference_two done cs h1]
        simp
      · have h0 : done.count '.' = 0 := by omega
        have hl : ¬ done.getLast? = some '.' := fun e => by
          have := count_of_getLast done e; omega
        have hm : ¬ ((numberScanAt pre done ('.' :: cs ++ rest)).matchedPeriod
            || (numberScanAt pre done ('.' :: cs ++ rest)).requireNextDigit) = true := by
          simp [numberScanAt, h1, hl]
        rw [if_neg hm, hnext]
        have hc1 : (done ++ ['.']).count '.' = 1 := by simp [List.count_append, h0]
        have est :
            ({ l := lexerAt (pre ++ (done ++ ['.'])) (cs ++ rest), matchedPeriod := true,
               requireNextDigit := true, tt := .NUMBER } : NumberScan)
            = numberScanAt pre (done ++ ['.']) (cs ++ rest) := by
          simp [numberScanAt, hc1]
        rw [est]
        obtain ⟨s, extra, rem, hs, hsplit, hl1, href⟩ :=
          ih (done ++ ['.']) f hf1 (by omega) hcs
        refine ⟨s, '.' :: extra, rem, hs, by rw [hsplit]; rfl, ?_, ?_⟩
        · rw [hl1]; simp
        · rw [hassoc, href]; simp
    · rw [if_neg hp, hnext]
      have hc1 : (done ++ [c]).count '.' = done.count '.' := by
        simp [List.count_append, List.count_singleton, hp]
      have est :
          ({ numberScanAt pre done (c :: cs ++ rest) with
             l := lexerAt (pre ++ (done ++ [c])) (cs ++ rest), requireNextDigit := false }
              : NumberScan)
            = numberScanAt pre (done ++ [c]) (cs ++ rest) := by
        simp [numberScanAt, hc1, hp]
      rw [est]
      obtain ⟨s, extra, rem, hs, hsplit, hl1, href⟩ :=
        ih (done ++ [c]) f hf1 (by omega) hcs
      refine ⟨s, c :: extra, rem, hs, by rw [hsplit]; rfl, ?_, ?_⟩
      · rw [hl1]; simp
      · rw [hassoc, href]; simp


theorem numberRune_not_special (U : UnicodeTables) (c : Char)
    (h : isValidNumberRune U c = true) : c ≠ '(' ∧ c ≠ ')' ∧ c ≠ ',' ∧ c ≠ NUL := by
  have h1 : isValidNumberRune U '(' = false := rfl
  have h2 : isValidNumberRune U ')' = false := rfl
  have h3 : isValidNumberRune U ',' = false := rfl
  have h4 : isValidNumberRune U NUL = false := rfl
  refine ⟨?_, ?_, ?_, ?_⟩ <;> (intro e; subst e; simp [h1, h2, h3, h4] at h)

theorem nextTokenNumber_at (U : UnicodeTables) (pre : List Char) (c : Char) (cs rest : List Char)
    (hall : ∀ x ∈ c :: cs, isValidNumberRune U x = true)
    (hrest : isValidNumberRune U (rest.headD NUL) = false) :
    ∃ extra rem l1, cs = extra ++ rem
      ∧ (numberReference (c :: cs)).Literal = c :: extra
      ∧ (lexerAt pre (c :: cs ++ rest)).nextTokenNumber U = some (numberReference (c :: cs), l1)
      ∧ l1.nextChar = lexerAt (pre ++ c :: extra) (rem ++ rest) := by
  have hcs : ∀ x ∈ cs, isValidNumberRune U x = true :=
    fun x hx => hall x (List.mem_cons_of_mem _ hx)
  have hc1 : ([c] : List Char).count '.' ≤ 1 := by
    by_cases h : c = '.'
    · subst h; simp
    · simp [List.count_singleton, h]
  obtain ⟨s, extra, rem, hs, hsplit, hl, href⟩ :=
    numberLoop_at U pre rest hrest cs [c] ((lexerAt pre (c :: cs ++ rest)).input.length + 1)
      (by simp [lexerAt]; omega) hc1 hcs
  have hlit : ∃ init x, c :: extra = init ++ [x] := by
    rcases List.eq_nil_or_concat (c :: extra) with h | ⟨init, x, h⟩
    · exact absurd h (by simp)
    · exact ⟨init, x, by rw [h, List.concat_eq_append]⟩
  obtain ⟨init, x, hix⟩ := hlit
  have hl2 : s.l = lexerAt ((pre ++ init) ++ [x]) (rem ++ rest) := by
    rw [hl, List.singleton_append, hix, List.append_assoc]
  refine ⟨extra, rem, lexerAt (pre ++ init) (x :: (rem ++ rest)), hsplit, ?_, ?_, ?_⟩
  · have := congrArg Token.Literal href
    simpa using this
  · have hslice : (lexerAt (pre ++ init) (x :: (rem ++ rest))).slice pre.length
        (pre ++ (c :: extra)).length = some (c :: extra) := by
      apply slice_mid _ pre (c :: extra) (rem ++ rest)
      rw [hix]; simp [lexerAt]
    have hpos : s.l.position = (pre ++ (c :: extra)).length := by rw [hl]; rfl
    simp only [List.cons_append] at hs
    have hnext := nextChar_cons pre c (cs ++ rest)
    unfold Lexer.nextTokenNumber
    simp only [ch_cons, List.cons_append]
    by_cases h : c = '.'
    · subst h
      have hinit : numberScanAt pre ['.'] (cs ++ rest)
          = { l := lexerAt (pre ++ ['.']) (cs ++ rest), matchedPeriod := true,
              requireNextDigit := true, tt := .NUMBER } := by
        simp [numberScanAt]
      rw [hinit] at hs
      have hundo : s.l.undoChar = some (lexerAt (pre ++ init) (x :: (rem ++ rest))) := by
        rw [hl2, undoChar_snoc]
      simp only [if_true, hnext, hs, hundo, hpos, lexerAt_position, hslice]
      exact congrArg (fun t => some (t, lexerAt (pre ++ init) (x :: (rem ++ rest)))) href.symm
    · have hinit : numberScanAt pre [c] (cs ++ rest)
          = { l := lexerAt (pre ++ [c]) (cs ++ rest), matchedPeriod := false,
              requireNextDigit := false, tt := .INT } := by
        simp [numberScanAt, List.count_singleton, h]
      rw [hinit] at hs
      have hundo : s.l.undoChar = some (lexerAt (pre ++ init) (x :: (rem ++ rest))) := by
        rw [hl2, undoChar_snoc]
      simp only [if_neg h, hnext, hs, hundo, hpos, lexerAt_position, hslice]
      exact congrArg (fun t => some (t, lexerAt (pre ++ init) (x :: (rem ++ rest)))) href.symm
  · rw [nextChar_cons, hix, List.append_assoc]


theorem NextToken_number (U : UnicodeTables) (pre ws : List Char) (c : Char)
    (cs rest : List Char) (hws : ∀ x ∈ ws, isWhiteSpace U x = true)
    (hc0 : isWhiteSpace U c = false)
    (hall : ∀ x ∈ c :: cs, isValidNumberRune U x = true)
    (hrest : isValidNumberRune U (rest.headD NUL) = false) :
    (lexerAt pre (ws ++ (c :: cs ++ rest))).NextToken U
      = some (numberReference (c :: cs),
          lexerAt (pre ++ ws ++ (numberReference (c :: cs)).Literal)
            ((c :: cs).drop (numberReference (c :: cs)).Literal.length ++ rest)) := by
  obtain ⟨extra, rem, l1, hsplit, hlit, htok, hnext⟩ :=
    nextTokenNumber_at U (pre ++ ws) c cs rest hall hrest
  obtain ⟨n1, n2, n3, n4⟩ := numberRune_not_special U c (hall c (List.mem_cons_self _ _))
  have hv : isValidNumberRune U c = true := hall c (List.mem_cons_self _ _)
  have hdrop : (c :: cs).drop (c :: extra).length = rem := by
    rw [hsplit, ← List.cons_append, List.drop_left]
  unfold Lexer.NextToken
  rw [skipWhiteSpaces_at U pre ws (c :: cs ++ rest) hws hc0]
  have hch : (lexerAt (pre ++ ws) (c :: cs ++ rest)).ch = c := rfl
  simp only [hch, if_neg n1, if_neg n2, if_neg n3, if_neg n4, hv, if_true, htok, hnext, hdrop,
    hlit]


theorem nextChar_ch (l : Lexer) (x : Char) : ({ l with ch := x } : Lexer).nextChar = l.nextChar := by
  unfold Lexer.nextChar
  simp

theorem closingQuote_quote (cs : List Char) : closingQuote ('"' :: cs) = some 0 := by
  unfold closingQuote
  simp

theorem closingQuote_esc (d : Char) (ds : List Char) (hd : d = '\\' ∨ d = '"' ∨ d = '*') :
    closingQuote ('\\' :: d :: ds) = (closingQuote ds).map (· + 2) := by
  conv_lhs => unfold closingQuote
  simp [hd]

theorem closingQuote_bs (d : Char) (ds : List Char) (hd : ¬ (d = '\\' ∨ d = '"' ∨ d = '*')) :
    closingQuote ('\\' :: d :: ds) = (closingQuote (d :: ds)).map (· + 1) := by
  conv_lhs => unfold closingQuote
  simp [hd]

theorem closingQuote_bs_nil : closingQuote ['\\'] = none := by
  unfold closingQuote
  simp

theorem closingQuote_other (c : Char) (cs : List Char) (h1 : c ≠ '\\') (h2 : c ≠ '"') :
    closingQuote (c :: cs) = (closingQuote cs).map (· + 1) := by
  conv_lhs => unfold closingQuote
  simp [h1, h2]

theorem decode_nil : decode [] = [] := by
  unfold decode
  rfl

theorem decode_esc (d : Char) (ds : List Char) (hd : d = '\\' ∨ d = '"' ∨ d = '*') :
    decode ('\\' :: d :: ds) = d :: decode ds := by
  conv_lhs => unfold decode
  simp [hd]

theorem decode_bs (d : Char) (ds : List Char) (hd : ¬ (d = '\\' ∨ d = '"' ∨ d = '*')) :
    decode ('\\' :: d :: ds) = '\\' :: decode (d :: ds) := by
  conv_lhs => unfold decode
  simp [hd]

theorem decode_bs_nil : decode ['\\'] = ['\\'] := by
  unfold decode
  simp

theorem decode_star (cs : List Char) : decode ('*' :: cs) = wildcardMarker :: decode cs := by
  conv_lhs => unfold decode
  simp

theorem decode_other (c : Char) (cs : List Char) (h1 : c ≠ '\\') (h2 : c ≠ '*') :
    decode (c :: cs) = c :: decode cs := by
  conv_lhs => unfold decode
  simp [h1, h2]


theorem stringEscape_esc (pre : List Char) (d : Char) (suf : List Char)
    (hd : d = '\\' ∨ d = '"' ∨ d = '*') :
    stringEscape (lexerAt pre ('\\' :: d :: suf)) = lexerAt (pre ++ ['\\']) (d :: suf) := by
  unfold stringEscape
  rw [ch_cons, peekChar_read_cons, if_pos rfl, nextChar_cons]
  rcases hd with h | h | h <;> (subst h; simp)

theorem stringEscape_bs (pre suf : List Char)
    (hd : ¬ (suf.headD NUL = '\\' ∨ suf.headD NUL = '"' ∨ suf.headD NUL = '*')) :
    stringEscape (lexerAt pre ('\\' :: suf)) = lexerAt pre ('\\' :: suf) := by
  unfold stringEscape
  rw [ch_cons, peekChar_read_cons, if_pos rfl]
  generalize suf.headD NUL = t at hd
  push_neg at hd
  simp [hd.1, hd.2.1, hd.2.2]

theorem stringEscape_star (pre suf : List Char) :
    stringEscape (lexerAt pre ('*' :: suf))
      = { lexerAt pre ('*' :: suf) with ch := wildcardMarker } := by
  unfold stringEscape
  rw [ch_cons, if_neg (by decide), if_pos rfl]

theorem stringEscape_other (pre : List Char) (c : Char) (suf : List Char)
    (h1 : c ≠ '\\') (h2 : c ≠ '*') :
    stringEscape (lexerAt pre (c :: suf)) = lexerAt pre (c :: suf) := by
  unfold stringEscape
  rw [ch_cons, if_neg h1, if_neg h2]

theorem map_add_eq (o : Option Nat) (b : Bool) (j k : Nat)
    (h : o.map (· + j) = if b = true then some (k + j) else none) :
    o = if b = true then some k else none := by
  cases o with
  | none => cases b <;> simp at h ⊢
  | some v =>
    cases b
    · simp at h
    · simp at h ⊢; exact h

theorem stringLoop_nil (U : UnicodeTables) (tail : List Char) (found : Bool)
    (hq : found = true → ∃ rest, tail = '"' :: rest)
    (hn : found = false → isValidStringRune U (tail.headD NUL) = false)
    (pre s : List Char) (fuel : Nat) (hf : 0 < fuel) :
    nextTokenStringLoop U fuel (lexerAt pre tail) s = some (lexerAt pre tail, s, found) := by
  have vq : isValidStringRune U '"' = true := rfl
  obtain ⟨f, rfl⟩ : ∃ f, fuel = f + 1 := ⟨fuel - 1, by omega⟩
  unfold nextTokenStringLoop
  cases found with
  | true =>
    obtain ⟨rest, rfl⟩ := hq rfl
    simp [ch_cons]
  | false =>
    have h1 := hn rfl
    have hch : (lexerAt pre tail).ch = tail.headD NUL := rfl
    have h2 : tail.headD NUL ≠ '"' := fun e => by rw [e, vq] at h1; cases h1
    rw [hch]
    generalize tail.headD NUL = t at h1 h2
    simp [h1, h2]

theorem stringLoop_at (U : UnicodeTables) (tail : List Char) (found : Bool)
    (hq : found = true → ∃ rest, tail = '"' :: rest)
    (hn : found = false → isValidStringRune U (tail.headD NUL) = false) :
    ∀ (n : Nat) (body pre s : List Char) (fuel : Nat), body.length ≤ n → body.length < fuel →
      (∀ c ∈ body, isValidStringRune U c = true) →
      closingQuote (body ++ tail) = (if found = true then some body.length else none) →
      nextTokenStringLoop U fuel (lexerAt pre (body ++ tail)) s
        = some (lexerAt (pre ++ body) tail, s ++ decode body, found) := by
  have vq : isValidStringRune U '"' = true := rfl
  have vb : isValidStringRune U '\\' = true := rfl
  have vs : isValidStringRune U '*' = true := rfl
  have hnil := stringLoop_nil U tail found hq hn
  intro n
  induction n with
  | zero =>
    intro body pre s fuel hlen hf _ _
    have hb : body = [] := List.length_eq_zero.1 (by omega)
    subst hb
    simpa [decode_nil] using hnil pre s fuel hf
  | succ n ih =>
    intro body pre s fuel hlen hf hall hcq
    cases body with
    | nil => simpa [decode_nil] using hnil pre s fuel hf
    | cons c cs =>
      obtain ⟨f, rfl⟩ : ∃ f, fuel = f + 1 := ⟨fuel - 1, by simp at hf; omega⟩
      have hcv : isValidStringRune U c = true := hall c (List.mem_cons_self _ _)
      have hcs : ∀ x ∈ cs, isValidStringRune U x = true :=
        fun x hx => hall x (List.mem_cons_of_mem _ hx)
      have hcq0 : c ≠ '"' := by
        intro e
        subst e
        rw [List.cons_append, closingQuote_quote] at hcq
        cases found <;> simp at hcq
      simp only [List.length_cons] at hlen hf hcq
      have hlen1 : cs.length ≤ n := by omega
      have hf1 : cs.length < f := by omega
      unfold nextTokenStringLoop
      simp only [List.cons_append, ch_cons, hcv, Bool.true_or, if_true, if_neg hcq0]
      rw [List.cons_append] at hcq
      by_cases hb : c = '\\'
      · subst hb
        cases cs with
        | nil =>
          rw [List.nil_append] at hcq ⊢
          have hfound : found = false := by
            cases found with
            | false => rfl
            | true =>
              obtain ⟨rest, rfl⟩ := hq rfl
              rw [closingQuote_esc '"' rest (Or.inr (Or.inl rfl))] at hcq
              cases h : closingQuote rest <;> simp [h] at hcq
          subst hfound
          have h1 := hn rfl
          have hpk : ¬ (tail.headD NUL = '\\' ∨ tail.headD NUL = '"' ∨ tail.headD NUL = '*') := by
            intro e
            rcases e with e | e | e <;> (rw [e] at h1; simp [vb, vq, vs] at h1)
          rw [stringEscape_bs pre tail hpk, nextChar_cons, ch_cons,
            hnil (pre ++ ['\\']) (s ++ ['\\']) f (by simp at hf; omega), decode_bs_nil]
        | cons d ds =>
          have hdv : isValidStringRune U d = true := hcs d (List.mem_cons_self _ _)
          simp only [List.length_cons] at hlen1 hf1
          by_cases hd : d = '\\' ∨ d = '"' ∨ d = '*'
          · have hcq1 : closingQuote (ds ++ tail)
                = if found = true then some ds.length else none := by
              apply map_add_eq _ _ 2
              rw [List.cons_append, closingQuote_esc d _ hd] at hcq
              simpa using hcq
            have := ih ds (pre ++ ['\\'] ++ [d]) (s ++ [d]) f (by omega) (by omega)
              (fun x hx => hcs x (List.mem_cons_of_mem _ hx)) hcq1
            rw [List.cons_append, stringEscape_esc pre d _ hd, nextChar_cons, ch_cons, this,
              decode_esc d ds hd]
            simp
          · have hcq1 : closingQuote (d :: ds ++ tail)
                = if found = true then some (d :: ds).length else none := by
              apply map_add_eq _ _ 1
              rw [List.cons_append, closingQuote_bs d _ hd] at hcq
              simpa using hcq
            have := ih (d :: ds) (pre ++ ['\\']) (s ++ ['\\']) f
              (by simp; omega) (by simp; omega) hcs hcq1
            have hd2 : ¬ ((d :: ds ++ tail).headD NUL = '\\' ∨ (d :: ds ++ tail).headD NUL = '"'
                ∨ (d :: ds ++ tail).headD NUL = '*') := hd
            rw [stringEscape_bs pre _ hd2, nextChar_cons, ch_cons, this, decode_bs d ds hd]
            simp
      · have hcq1 : closingQuote (cs ++ tail)
            = if found = true then some cs.length else none := by
          apply map_add_eq _ _ 1
          rw [closingQuote_other c _ hb hcq0] at hcq
          simpa using hcq
        by_cases hs : c = '*'
        · subst hs
          have := ih cs (pre ++ ['*']) (s ++ [wildcardMarker]) f hlen1 hf1 hcs hcq1
          rw [stringEscape_star, nextChar_ch, nextChar_cons, this, decode_star]
          simp
        · have := ih cs (pre ++ [c]) (s ++ [c]) f hlen1 hf1 hcs hcq1
          rw [stringEscape_other pre c _ hb hs, nextChar_cons, ch_cons, this,
            decode_other c cs hb hs]
          simp

theorem NextToken_quote (U : UnicodeTables) (pre ws suf : List Char)
    (hws : ∀ x ∈ ws, isWhiteSpace U x = true) (tok : Token) (l2 : Lexer)
    (hs : (lexerAt (pre ++ ws) ('"' :: suf)).nextTokenString U = some (tok, l2)) :
    (lexerAt pre (ws ++ '"' :: suf)).NextToken U = some (tok, l2.nextChar) := by
  have h0 : isWhiteSpace U '"' = false := rfl
  have h1 : isValidNumberRune U '"' = false := rfl
  have h2 : isValidFirstIdentifierRune U '"' = false := rfl
  unfold Lexer.NextToken
  rw [skipWhiteSpaces_at U pre ws ('"' :: suf) hws h0]
  simp only [ch_cons, h1, h2]
  rw [if_neg (by decide), if_neg (by decide), if_neg (by decide), if_neg (by decide)]
  simp only [Bool.false_eq_true, if_false, if_true, hs]

theorem NextToken_string (U : UnicodeTables) (pre ws body rest : List Char)
    (hws : ∀ x ∈ ws, isWhiteSpace U x = true)
    (hall : ∀ c ∈ body, isValidStringRune U c = true)
    (hcq : closingQuote (body ++ '"' :: rest) = some body.length) :
    (lexerAt pre (ws ++ '"' :: (body ++ '"' :: rest))).NextToken U
      = some ({ Typ := .STRING, Literal := decode body },
          lexerAt (pre ++ ws ++ '"' :: (body ++ ['"'])) rest) := by
  have key : (lexerAt (pre ++ ws) ('"' :: (body ++ '"' :: rest))).nextTokenString U
      = some ({ Typ := .STRING, Literal := decode body },
          lexerAt (pre ++ ws ++ '"' :: body) ('"' :: rest)) := by
    unfold Lexer.nextTokenString
    rw [peekChar_read_cons]
    cases body with
    | nil =>
      simp [nextChar_cons, decode_nil, NUL]
    | cons c cs =>
      have hcv : isValidStringRune U c = true := hall c (List.mem_cons_self _ _)
      have hc1 : c ≠ NUL := fun e => by
        rw [e, isValidStringRune_NUL] at hcv; cases hcv
      have hc2 : c ≠ '"' := fun e => by
        subst e
        rw [List.cons_append, closingQuote_quote] at hcq
        simp at hcq
      have hloop := stringLoop_at U ('"' :: rest) true (fun _ => ⟨rest, rfl⟩)
        (fun h => by cases h) (c :: cs).length (c :: cs) (pre ++ ws ++ ['"']) []
        ((lexerAt (pre ++ ws) ('"' :: (c :: cs ++ '"' :: rest))).input.length + 1)
        (le_refl _) (by simp [lexerAt]; omega) hall (by simpa using hcq)
      simp only [List.cons_append, List.headD_cons, if_neg hc1, if_neg hc2, nextChar_cons]
        at hloop ⊢
      rw [hloop]
      simp
  rw [NextToken_quote U pre ws _ hws _ _ key, nextChar_cons]
  simp

theorem NextToken_unterminated (U : UnicodeTables) (pre ws body tail : List Char)
    (hws : ∀ x ∈ ws, isWhiteSpace U x = true)
    (hall : ∀ c ∈ body, isValidStringRune U c = true)
    (htail : isValidStringRune U (tail.headD NUL) = false)
    (hcq : closingQuote (body ++ tail) = none) :
    ∃ l1, (lexerAt pre (ws ++ '"' :: (body ++ tail))).NextToken U
        = some ({ Typ := .ILLEGAL, Literal := decode body }, l1)
      ∧ (tail = [] → l1 = lexerAt (pre ++ ws ++ '"' :: body) []) := by
  have key : ∃ l2, (lexerAt (pre ++ ws) ('"' :: (body ++ tail))).nextTokenString U
        = some ({ Typ := .ILLEGAL, Literal := decode body }, l2)
      ∧ (tail = [] → l2.nextChar = lexerAt (pre ++ ws ++ '"' :: body) []) := by
    unfold Lexer.nextTokenString
    rw [peekChar_read_cons]
    by_cases hnul : (body ++ tail).headD NUL = NUL
    · have hb : body = [] := by
        cases body with
        | nil => rfl
        | cons c cs =>
          have hcv : isValidStringRune U c = true := hall c (List.mem_cons_self _ _)
          simp only [List.cons_append, List.headD_cons] at hnul
          rw [hnul, isValidStringRune_NUL] at hcv
          cases hcv
      subst hb
      rw [if_pos hnul]
      refine ⟨_, by simp only [decode_nil]; rfl, ?_⟩
      intro ht
      subst ht
      simp [nextChar_cons]
    · have hne : (body ++ tail).headD NUL ≠ '"' := by
        cases body with
        | nil =>
          intro e
          have vq : isValidStringRune U '"' = true := rfl
          rw [List.nil_append] at e
          rw [e, vq] at htail
          cases htail
        | cons c cs =>
          intro e
          simp only [List.cons_append, List.headD_cons] at e
          subst e
          rw [List.cons_append, closingQuote_quote] at hcq
          cases hcq
      have hloop := stringLoop_at U tail false (fun h => by cases h) (fun _ => htail)
        body.length body (pre ++ ws ++ ['"']) []
        ((lexerAt (pre ++ ws) ('"' :: (body ++ tail))).input.length + 1)
        (le_refl _) (by simp [lexerAt]; omega) hall (by simpa using hcq)
      rw [if_neg hnul, if_neg hne, nextChar_cons, hloop]
      refine ⟨lexerAt (pre ++ ws ++ ['"'] ++ body) tail, by simp, ?_⟩
      intro ht
      subst ht
      simp [nextChar_nil]
  obtain ⟨l2, h1, h2⟩ := key
  exact ⟨l2.nextChar, NextToken_quote U pre ws _ hws _ _ h1, h2⟩


/-! ## Running the parser on tokens lexed beforehand -/

theorem nextToken_sim {σ τ : Type} {R : σ → τ → Prop} {nx : TokenSource σ} {ny : TokenSource τ}
    (hs : Simulates R nx ny) {p : Parser σ} {q : Parser τ} (hpq : ParserRel R p q)
    {tok : Token} {q1 : Parser τ} (h : q.nextToken ny = some (tok, q1)) :
    ∃ p1, p.nextToken nx = some (tok, p1) ∧ ParserRel R p1 q1 := by
  unfold Parser.nextToken at h
  split at h
  · exact absurd h (by simp)
  · rename_i t b1 hb
    obtain ⟨a1, ha, hr⟩ := hs _ _ hpq.l _ _ hb
    simp only [Option.some.injEq, Prod.mk.injEq] at h
    obtain ⟨h1, h2⟩ := h
    subst h1 h2
    refine ⟨{ l := a1, curToken := p.peekToken, peekToken := t }, ?_, ⟨hr, hpq.peek, rfl⟩⟩
    simp [Parser.nextToken, ha, hpq.cur]

theorem parse_sim {σ τ : Type} {R : σ → τ → Prop} {nx : TokenSource σ} {ny : TokenSource τ}
    (U : UnicodeTables) (hs : Simulates R nx ny) (fuel : Nat) :
    (∀ (p : Parser σ) (q : Parser τ) (name : Token) (r : Node) (q1 : Parser τ),
      ParserRel R p q → parseFunction U ny fuel q name = some (r, q1) →
      ∃ p1, parseFunction U nx fuel p name = some (r, p1) ∧ ParserRel R p1 q1) ∧
    (∀ (p : Parser σ) (q : Parser τ) (params : List Node) (r : Params) (q1 : Parser τ),
      ParserRel R p q → parseFunctionParametersLoop U ny fuel q params = some (r, q1) →
      ∃ p1, parseFunctionParametersLoop U nx fuel p params = some (r, p1)
        ∧ ParserRel R p1 q1) := by
  induction fuel with
  | zero =>
    constructor
    · intro p q name r q1 _ h
      simp [parseFunction] at h
    · intro p q params r q1 _ h
      simp [parseFunctionParametersLoop] at h
  | succ fuel ih =>
    obtain ⟨ihF, ihL⟩ := ih
    constructor
    · intro p q name r q1 hpq h
      rw [parseFunction] at h ⊢
      rw [hpq.cur]
      split at h
      · simp only [Option.some.injEq, Prod.mk.injEq] at h
        obtain ⟨h1, h2⟩ := h
        subst h1 h2
        rename_i hc
        exact ⟨p, by simp [hc], hpq⟩
      · rename_i hc
        simp only [hc, if_false]
        split at h
        · exact absurd h (by simp)
        · rename_i x qa hqa
          obtain ⟨pa, hpa, hra⟩ := nextToken_sim hs hpq hqa
          simp only [hpa, hra.cur]
          split at h
          · simp only [Option.some.injEq, Prod.mk.injEq] at h
            obtain ⟨h1, h2⟩ := h
            subst h1 h2
            rename_i hd
            exact ⟨pa, by simp [hd], hra⟩
          · rename_i hd
            simp only [hd, if_false]
            split at h
            · exact absurd h (by simp)
            · rename_i m qb hqb
              obtain ⟨pb, hpb, hrb⟩ := ihL _ _ _ _ _ hra hqb
              simp only [Option.some.injEq, Prod.mk.injEq] at h
              obtain ⟨h1, h2⟩ := h
              subst h1 h2
              exact ⟨pb, by simp [hpb], hrb⟩
            · rename_i params qb hqb
              obtain ⟨pb, hpb, hrb⟩ := ihL _ _ _ _ _ hra hqb
              simp only [hpb, hrb.cur]
              split at h
              · simp only [Option.some.injEq, Prod.mk.injEq] at h
                obtain ⟨h1, h2⟩ := h
                subst h1 h2
                rename_i he
                exact ⟨pb, by simp [he], hrb⟩
              · rename_i he
                simp only [he, if_false]
                split at h
                · exact absurd h (by simp)
                · rename_i y qc hqc
                  obtain ⟨pc, hpc, hrc⟩ := nextToken_sim hs hrb hqc
                  simp only [Option.some.injEq, Prod.mk.injEq] at h
                  obtain ⟨h1, h2⟩ := h
                  subst h1 h2
                  exact ⟨pc, by simp [hpc], hrc⟩
    · intro p q params r q1 hpq h
      rw [parseFunctionParametersLoop] at h ⊢
      split at h
      · exact absurd h (by simp)
      · rename_i current qa hqa
        obtain ⟨pa, hpa, hra⟩ := nextToken_sim hs hpq hqa
        simp only [hpa, hra.cur, hra.peek]
        split at h
        · split at h
          · exact absurd h (by simp)
          · rename_i m qb hqb
            obtain ⟨pb, hpb, hrb⟩ := ihF _ _ _ _ _ hra hqb
            simp only [Option.some.injEq, Prod.mk.injEq] at h
            obtain ⟨h1, h2⟩ := h
            subst h1 h2
            exact ⟨pb, by simp [hpb], hrb⟩
          · rename_i n qb hn hqb
            obtain ⟨pb, hpb, hrb⟩ := ihF _ _ _ _ _ hra hqb
            simp only [hpb, hrb.cur]
            have key : ∀ (qc : Parser τ) (pc : Parser σ), ParserRel R pc qc →
                (if qc.curToken.Typ = TokenType.RPAREN then some (Params.list (params ++ [n]), qc)
                  else parseFunctionParametersLoop U ny fuel qc (params ++ [n])) = some (r, q1) →
                ∃ p1, (if qc.curToken.Typ = TokenType.RPAREN
                    then some (Params.list (params ++ [n]), pc)
                    else parseFunctionParametersLoop U nx fuel pc (params ++ [n])) = some (r, p1)
                  ∧ ParserRel R p1 q1 := by
              intro qc pc hrc hh
              by_cases hrp : qc.curToken.Typ = TokenType.RPAREN
              · simp only [hrp, if_true, Option.some.injEq, Prod.mk.injEq] at hh ⊢
                obtain ⟨h1, h2⟩ := hh
                subst h1 h2
                exact ⟨pc, ⟨rfl, rfl⟩, hrc⟩
              · simp only [hrp, if_false] at hh ⊢
                exact ihL _ _ _ _ _ hrc hh
            by_cases hcm : qb.curToken.Typ = TokenType.COMMA
            · simp only [hcm, if_true] at h ⊢
              cases hqc : Parser.nextToken ny qb with
              | none => simp [hqc] at h
              | some v =>
                obtain ⟨t, qc⟩ := v
                obtain ⟨pc, hpc, hrc⟩ := nextToken_sim hs hrb hqc
                simp only [hqc, hpc, Option.map_some', hrc.cur] at h ⊢
                exact key qc pc hrc h
            · simp only [hcm, if_false] at h ⊢
              simp only [hrb.cur]
              exact key qb pb hrb h
        · split at h
          · exact absurd h (by simp)
          · rename_i x qb hqb
            obtain ⟨pb, hpb, hrb⟩ := nextToken_sim hs hra hqb
            simp only [hpb, hrb.cur]
            by_cases hrp : qb.curToken.Typ = TokenType.RPAREN
            · simp only [hrp, if_true, Option.some.injEq, Prod.mk.injEq] at h ⊢
              obtain ⟨h1, h2⟩ := h
              subst h1 h2
              exact ⟨pb, ⟨rfl, rfl⟩, hrb⟩
            · simp only [hrp, if_false] at h ⊢
              exact ihL _ _ _ _ _ hrb h
        · simp only [Option.some.injEq, Prod.mk.injEq] at h
          obtain ⟨h1, h2⟩ := h
          subst h1 h2
          exact ⟨pa, rfl, hra⟩
        · simp only [Option.some.injEq, Prod.mk.injEq] at h
          obtain ⟨h1, h2⟩ := h
          subst h1 h2
          exact ⟨pa, rfl, hra⟩

theorem ParseFilterFuel_sim {σ τ : Type} {R : σ → τ → Prop} {nx : TokenSource σ}
    {ny : TokenSource τ} (U : UnicodeTables) (hs : Simulates R nx ny) (fuel : Nat)
    {p : Parser σ} {q : Parser τ} (hpq : ParserRel R p q) {r : Node}
    (h : ParseFilterFuel U ny fuel q = some r) : ParseFilterFuel U nx fuel p = some r := by
  unfold ParseFilterFuel at h ⊢
  rw [hpq.cur]
  split at h
  · rename_i hc
    simp only [hc, if_true] at h ⊢
    split at h
    · exact absurd h (by simp)
    · rename_i x qa hqa
      obtain ⟨pa, hpa, hra⟩ := nextToken_sim hs hpq hqa
      simp only [hpa]
      split at h
      · exact absurd h (by simp)
      · rename_i m qb hqb
        obtain ⟨pb, hpb, hrb⟩ := (parse_sim U hs fuel).1 _ _ _ _ _ hra hqb
        simp only [hpb]
        exact h
      · rename_i f qb hf hqb
        obtain ⟨pb, hpb, hrb⟩ := (parse_sim U hs fuel).1 _ _ _ _ _ hra hqb
        simp only [hpb, hrb.cur]
        exact h
  · rename_i hc
    simp only [hc, if_false] at h ⊢
    exact h

theorem NewParser_sim {σ τ : Type} {R : σ → τ → Prop} {nx : TokenSource σ}
    {ny : TokenSource τ} (hs : Simulates R nx ny) {a : σ} {b : τ} (hab : R a b)
    {q : Parser τ} (h : NewParser ny b = some q) :
    ∃ p, NewParser nx a = some p ∧ ParserRel R p q := by
  unfold NewParser at h
  split at h
  · exact absurd h (by simp)
  · rename_i t0 b1 hb1
    obtain ⟨a1, ha1, hr1⟩ := hs _ _ hab _ _ hb1
    split at h
    · exact absurd h (by simp)
    · rename_i t1 b2 hb2
      obtain ⟨a2, ha2, hr2⟩ := hs _ _ hr1 _ _ hb2
      simp only [Option.some.injEq] at h
      subst h
      exact ⟨{ l := a2, curToken := t0, peekToken := t1 }, by simp [NewParser, ha1, ha2],
        ⟨hr2, rfl, rfl⟩⟩

theorem lexer_simulates_list (U : UnicodeTables) :
    Simulates (Lexes U) (Lexer.NextToken U) listNext := by
  intro l toks h tok rest hn
  cases toks with
  | nil => simp [listNext] at hn
  | cons t ts =>
    simp only [listNext, Option.some.injEq, Prod.mk.injEq] at hn
    obtain ⟨h1, h2⟩ := hn
    subst h1 h2
    unfold Lexes at h
    simp only [List.length_cons, lexN] at h
    split at h
    · exact absurd h (by simp)
    · rename_i t1 l1 hl1
      split at h
      · exact absurd h (by simp)
      · rename_i ts1 hts1
        simp only [Option.some.injEq, List.cons.injEq] at h
        obtain ⟨h1, h2⟩ := h
        subst h1 h2
        exact ⟨l1, hl1, hts1⟩

theorem NewLexer_input (input : List Char) : (NewLexer input).input = input := by
  unfold NewLexer
  rw [nextChar_input]

theorem NewParser_input {U : UnicodeTables} {l : Lexer} {p : Parser Lexer}
    (h : NewParser (Lexer.NextToken U) l = some p) : p.l.input = l.input := by
  unfold NewParser at h
  split at h
  · exact absurd h (by simp)
  · rename_i t0 l1 h1
    split at h
    · exact absurd h (by simp)
    · rename_i t1 l2 h2
      simp only [Option.some.injEq] at h
      subst h
      simp only
      rw [NextToken_input h2, NextToken_input h1]

/-- What the parser returns on tokens that are the ones the lexer produces for `input`, it
returns on `input`. -/
theorem parseText_of_tokens (U : UnicodeTables) (input : List Char) (toks : List Token)
    (r : Node) (hl : lexN U toks.length (NewLexer input) = some toks)
    (hp : parseTokens U (input.length + 1) toks = some r) : parseText U input = some r := by
  unfold parseTokens at hp
  split at hp
  · exact absurd hp (by simp)
  · rename_i q hq
    obtain ⟨p, hp1, hrel⟩ := NewParser_sim (lexer_simulates_list U) (a := NewLexer input) hl hq
    unfold parseText
    simp only [hp1, ParseFilter]
    rw [NewParser_input hp1, NewLexer_input]
    exact ParseFilterFuel_sim U (lexer_simulates_list U) _ hrel hp

/-! ## The parser on a token stream: it returns, and where it can accept an ILLEGAL token -/

theorem nextToken_at {σ : Type} {next : TokenSource σ} {st : Nat → σ} {tok : Nat → Token}
    (ht : IsTrace next st tok) (k : Nat) :
    (parserAt st tok k).nextToken next = some (tok k, parserAt st tok (k + 1)) := by
  unfold Parser.nextToken parserAt
  simp only [ht (k + 2)]

theorem allowed_of_typ {tok : Nat → Token} {i : Nat} (h : (tok i).Typ ≠ .ILLEGAL) :
    Allowed tok i := fun hi => absurd hi h

theorem allowed_paramStart {tok : Nat → Token} {k : Nat} (hp : ParamStart tok k)
    (hn : (tok (k + 1)).Typ = .LPAREN ∨ (tok (k + 1)).Typ = .COMMA
      ∨ (tok (k + 1)).Typ = .RPAREN) : Allowed tok k := by
  intro hi
  rcases hp with hp | hp
  · rw [hi] at hp; exact absurd hp (by decide)
  · exact ⟨hp.1, hp.2, hn⟩

theorem allowedOn_step {tok : Nat → Token} {k k1 : Nat} (h0 : Allowed tok k)
    (h1 : AllowedOn tok (k + 1) k1) : AllowedOn tok k k1 := by
  intro i hi hlt
  by_cases he : i = k
  · rw [he]; exact h0
  · exact h1 i (by omega) hlt

theorem allowedOn_append {tok : Nat → Token} {k k1 k2 : Nat} (h0 : AllowedOn tok k k1)
    (h1 : AllowedOn tok k1 k2) : AllowedOn tok k k2 := by
  intro i hi hlt
  by_cases he : i < k1
  · exact h0 i hi he
  · exact h1 i (by omega) hlt

theorem allowedOn_empty (tok : Nat → Token) (k : Nat) : AllowedOn tok k k := by
  intro i hi hlt
  omega

theorem lt_of_not_EOL {tok : Nat → Token} {N : Nat} (hN : ∀ k, N ≤ k → (tok k).Typ = .EOL)
    {j : Nat} (h : (tok j).Typ ≠ .EOL) : j < N := by
  by_contra hn
  exact h (hN j (by omega))

theorem parse_trace {σ : Type} (U : UnicodeTables) {next : TokenSource σ} {st : Nat → σ}
    {tok : Nat → Token} (ht : IsTrace next st tok) (N : Nat)
    (hN : ∀ k, N ≤ k → (tok k).Typ = .EOL) (fuel : Nat) :
    (∀ (k : Nat) (name : Token), 1 ≤ fuel → N + 1 ≤ fuel + k →
      ∃ r k1, parseFunction U next fuel (parserAt st tok k) name = some (r, parserAt st tok k1)
        ∧ k ≤ k1 ∧ PostFunction tok k r k1) ∧
    (∀ (k : Nat) (params : List Node), 1 ≤ fuel → N + 1 ≤ fuel + k → ParamStart tok k →
      ∃ r k1, parseFunctionParametersLoop U next fuel (parserAt st tok k) params
          = some (r, parserAt st tok k1)
        ∧ k + 1 ≤ k1 ∧ PostParams tok k r k1) := by
  induction fuel with
  | zero =>
    exact ⟨fun _ _ h _ => absurd h (by omega), fun _ _ h _ _ => absurd h (by omega)⟩
  | succ fuel ih =>
    obtain ⟨ihF, ihL⟩ := ih
    constructor
    · intro k name _ hf
      rw [parseFunction]
      have hcur : ∀ j, (parserAt st tok j).curToken = tok j := fun _ => rfl
      rw [hcur]
      by_cases h1 : (tok k).Typ = .LPAREN
      · rw [if_neg (by simpa using h1), nextToken_at ht]
        simp only [hcur]
        by_cases h2 : (tok (k + 1)).Typ = .IDENT
        · rw [if_neg (by simpa using h2)]
          have hlt : k + 1 < N := lt_of_not_EOL hN (by rw [h2]; decide)
          obtain ⟨r, k2, hL, hk2, hpost⟩ := ihL (k + 1) [] (by omega) (by omega) (Or.inl h2)
          rcases hpost with ⟨ps, hr, hall⟩ | ⟨m, hr, hne⟩
          · subst hr
            simp only [hL, hcur]
            by_cases h3 : (tok k2).Typ = .RPAREN
            · rw [if_neg (by simpa using h3), nextToken_at ht]
              refine ⟨_, k2 + 1, rfl, by omega, Or.inl ⟨_, rfl, by omega, ?_, ?_⟩⟩
              · simpa using h3
              · apply allowedOn_step (allowed_of_typ (by rw [h1]; decide))
                apply allowedOn_append (hall h3)
                apply allowedOn_step (allowed_of_typ (by rw [h3]; decide))
                exact allowedOn_empty _ _
            · rw [if_pos (by simpa using h3)]
              exact ⟨_, k2, rfl, by omega, Or.inr ⟨_, rfl, fun h => absurd h h3⟩⟩
          · subst hr
            simp only [hL]
            exact ⟨_, k2, rfl, by omega, Or.inr ⟨_, rfl, fun h => absurd h hne⟩⟩
        · rw [if_pos (by simpa using h2)]
          refine ⟨_, k + 1, rfl, by omega, Or.inr ⟨_, rfl, fun _ => ?_⟩⟩
          exact allowedOn_step (allowed_of_typ (by rw [h1]; decide)) (allowedOn_empty _ _)
      · rw [if_pos (by simpa using h1)]
        exact ⟨_, k, rfl, le_refl _, Or.inr ⟨_, rfl, fun _ => allowedOn_empty _ _⟩⟩
    · intro k params _ hf hstart
      rw [parseFunctionParametersLoop, nextToken_at ht]
      have hcur : ∀ j, (parserAt st tok j).curToken = tok j := fun _ => rfl
      simp only [hcur]
      -- the loop goes on from token `k3`, where a parameter begins
      have hgo : ∀ (k3 : Nat) (ps : List Node), k + 2 ≤ k3 → 2 ≤ fuel →
          ((tok (k3 - 1)).Typ = .COMMA ∨ (tok (k3 - 1)).Typ = .RPAREN) →
          AllowedOn tok k k3 →
          ∃ r k1, (if (tok k3).Typ = .RPAREN then some (Params.list ps, parserAt st tok k3)
              else parseFunctionParametersLoop U next fuel (parserAt st tok k3) ps)
              = some (r, parserAt st tok k1)
            ∧ k + 1 ≤ k1 ∧ PostParams tok k r k1 := by
        intro k3 ps hk3 hfu hprev hall
        by_cases h3 : (tok k3).Typ = .RPAREN
        · rw [if_pos h3]
          exact ⟨_, k3, rfl, by omega, Or.inl ⟨_, rfl, fun _ => hall⟩⟩
        · rw [if_neg h3]
          obtain ⟨r, k4, hL, hk4, hpost⟩ := ihL k3 ps (by omega) (by omega)
            (Or.inr ⟨by omega, hprev⟩)
          refine ⟨r, k4, hL, by omega, ?_⟩
          rcases hpost with ⟨qs, hr, hq⟩ | ⟨m, hr, hne⟩
          · exact Or.inl ⟨qs, hr, fun h => allowedOn_append hall (hq h)⟩
          · exact Or.inr ⟨m, hr, hne⟩
      cases hty : (tok (k + 1)).Typ with
      | LPAREN =>
        simp only
        have hlt : k + 1 < N := lt_of_not_EOL hN (by rw [hty]; decide)
        have hk0 : Allowed tok k := allowed_paramStart hstart (Or.inl hty)
        obtain ⟨r, k2, hF, hk2, hpost⟩ := ihF (k + 1) (tok k) (by omega) (by omega)
        rcases hpost with ⟨f, hr, hge, hrp, hall⟩ | ⟨m, hr, hall⟩
        · subst hr
          simp only [hF, hcur]
          by_cases hc : (tok k2).Typ = .COMMA
          · rw [if_pos hc, nextToken_at ht]
            simp only [Option.map_some', hcur]
            apply hgo (k2 + 1) _ (by omega) (by omega) (Or.inl (by simpa using hc))
            apply allowedOn_step hk0
            apply allowedOn_append hall
            exact allowedOn_step (allowed_of_typ (by rw [hc]; decide)) (allowedOn_empty _ _)
          · rw [if_neg hc]
            simp only [hcur]
            exact hgo k2 _ (by omega) (by omega) (Or.inr hrp) (allowedOn_step hk0 hall)
        · subst hr
          simp only [hF]
          exact ⟨_, k2, rfl, by omega, Or.inl ⟨_, rfl, fun h => allowedOn_step hk0 (hall h)⟩⟩
      | COMMA =>
        simp only
        have hlt : k + 1 < N := lt_of_not_EOL hN (by rw [hty]; decide)
        have hk0 : Allowed tok k := allowed_paramStart hstart (Or.inr (Or.inl hty))
        rw [nextToken_at ht]
        simp only [hcur]
        apply hgo (k + 2) _ (by omega) (by omega) (Or.inl (by simpa using hty))
        apply allowedOn_step hk0
        exact allowedOn_step (allowed_of_typ (by rw [hty]; decide)) (allowedOn_empty _ _)
      | RPAREN =>
        simp only
        have hk0 : Allowed tok k := allowed_paramStart hstart (Or.inr (Or.inr hty))
        exact ⟨_, k + 1, rfl, by omega,
          Or.inl ⟨_, rfl, fun _ => allowedOn_step hk0 (allowedOn_empty _ _)⟩⟩
      | ILLEGAL =>
        exact ⟨_, k + 1, rfl, by omega, Or.inr ⟨_, rfl, by rw [hty]; decide⟩⟩
      | EOL =>
        exact ⟨_, k + 1, rfl, by omega, Or.inr ⟨_, rfl, by rw [hty]; decide⟩⟩
      | IDENT =>
        exact ⟨_, k + 1, rfl, by omega, Or.inr ⟨_, rfl, by rw [hty]; decide⟩⟩
      | STRING =>
        exact ⟨_, k + 1, rfl, by omega, Or.inr ⟨_, rfl, by rw [hty]; decide⟩⟩
      | INT =>
        exact ⟨_, k + 1, rfl, by omega, Or.inr ⟨_, rfl, by rw [hty]; decide⟩⟩
      | NUMBER =>
        exact ⟨_, k + 1, rfl, by omega, Or.inr ⟨_, rfl, by rw [hty]; decide⟩⟩

theorem parseFilter_trace {σ : Type} (U : UnicodeTables) {next : TokenSource σ} {st : Nat → σ}
    {tok : Nat → Token} (ht : IsTrace next st tok) (N : Nat)
    (hN : ∀ k, N ≤ k → (tok k).Typ = .EOL) (fuel : Nat) (h1 : 1 ≤ fuel) (h2 : N ≤ fuel) :
    ∃ r, ParseFilterFuel U next fuel (parserAt st tok 0) = some r
      ∧ ((∃ m, r = .ParseError m)
        ∨ (∃ f k1, r = .Filter f ∧ (tok k1).Typ = .EOL ∧ AllowedOn tok 0 k1)) := by
  unfold ParseFilterFuel
  have hcur : ∀ j, (parserAt st tok j).curToken = tok j := fun _ => rfl
  rw [hcur]
  by_cases h0 : (tok 0).Typ = .IDENT
  · rw [if_pos h0, nextToken_at ht]
    simp only
    obtain ⟨r, k1, hF, hk1, hpost⟩ := (parse_trace U ht N hN fuel).1 1 (tok 0) h1 (by omega)
    rcases hpost with ⟨f, hr, hge, hrp, hall⟩ | ⟨m, hr, hall⟩
    · subst hr
      simp only [hF, hcur]
      by_cases he : (tok k1).Typ = .EOL
      · rw [if_neg (by simpa using he)]
        refine ⟨_, rfl, Or.inr ⟨f, k1, rfl, he, ?_⟩⟩
        exact allowedOn_step (allowed_of_typ (by rw [h0]; decide)) hall
      · rw [if_pos (by simpa using he)]
        exact ⟨_, rfl, Or.inl ⟨_, rfl⟩⟩
    · subst hr
      simp only [hF]
      exact ⟨_, rfl, Or.inl ⟨_, rfl⟩⟩
  · rw [if_neg h0]
    exact ⟨_, rfl, Or.inl ⟨_, rfl⟩⟩

/-! ## The token stream of the lexer -/

theorem NewLexer_WF (input : List Char) :
    (NewLexer input).WF ∧ (NewLexer input).position = 0 := by
  unfold NewLexer Lexer.nextChar
  simp only
  by_cases h : 0 ≥ input.length
  · rw [if_pos h]
    refine ⟨⟨⟨by simp, ?_⟩, ?_⟩, rfl⟩
    · simp only; omega
    · simp only
      rw [List.getD_eq_default]
      omega
  · rw [if_neg h]
    refine ⟨⟨⟨by simp, ?_⟩, ?_⟩, rfl⟩
    · simp only; omega
    · simp only

theorem lexState_WF (U : UnicodeTables) {l : Lexer} (hw : l.WF) (k : Nat) :
    (lexState U l k).WF ∧ (lexState U l k).input = l.input
      ∧ min (l.position + k) l.input.length ≤ (lexState U l k).position := by
  induction k with
  | zero =>
    refine ⟨hw, rfl, ?_⟩
    simp only [lexState]
    omega
  | succ k ih =>
    obtain ⟨h1, h2, h3⟩ := ih
    obtain ⟨tok, l1, hn, hw1, hi1, hp1, hstay⟩ := NextToken_WF U h1
    simp only [lexState, hn]
    refine ⟨hw1, by rw [hi1, h2], ?_⟩
    rw [h2] at hp1 hstay
    have := hw1.1.1
    rw [hi1, h2] at this
    by_cases hlt : (lexState U l k).position < l.input.length
    · have := hp1 hlt
      omega
    · have hs := (hstay (by omega)).2
      rw [hs]
      omega

theorem lexer_trace (U : UnicodeTables) {l : Lexer} (hw : l.WF) :
    IsTrace (Lexer.NextToken U) (lexState U l) (lexTok U l) := by
  intro k
  obtain ⟨tok, l1, hn, -⟩ := NextToken_WF U (lexState_WF U hw k).1
  simp only [lexState, lexTok, hn]

theorem lexTok_EOL (U : UnicodeTables) {l : Lexer} (hw : l.WF) (k : Nat)
    (hk : l.input.length ≤ l.position + k) : lexTok U l k = newToken .EOL NUL := by
  obtain ⟨h1, h2, h3⟩ := lexState_WF U hw k
  obtain ⟨tok, l1, hn, -, -, -, hend⟩ := NextToken_WF U h1
  simp only [lexTok, hn]
  exact (hend (by rw [h2]; omega)).1

theorem NewParser_at (U : UnicodeTables) {l : Lexer} (hw : l.WF) :
    NewParser (Lexer.NextToken U) l = some (parserAt (lexState U l) (lexTok U l) 0) := by
  have h0 := lexer_trace U hw 0
  have h1 := lexer_trace U hw 1
  have e0 : lexState U l 0 = l := rfl
  rw [e0] at h0
  unfold NewParser
  simp only [h0, h1]
  rfl

/-- `ParseFilter` returns on every input: a ParseError, or a Filter after which the current
token is an EOL token and before which every ILLEGAL token stands where the parser lets one
pass. -/
theorem parseText_returns (U : UnicodeTables) (input : List Char) :
    ∃ r, parseText U input = some r
      ∧ ((∃ m, r = .ParseError m)
        ∨ (∃ f k1, r = .Filter f ∧ (lexTok U (NewLexer input) k1).Typ = .EOL
            ∧ AllowedOn (lexTok U (NewLexer input)) 0 k1)) := by
  obtain ⟨hw, hp⟩ := NewLexer_WF input
  unfold parseText
  rw [NewParser_at U hw]
  simp only [ParseFilter]
  have hin : (parserAt (lexState U (NewLexer input)) (lexTok U (NewLexer input)) 0).l.input
      = input := by
    unfold parserAt
    simp only
    rw [(lexState_WF U hw 2).2.1, NewLexer_input]
  rw [hin]
  apply parseFilter_trace U (lexer_trace U hw) input.length _ _ (by omega) (by omega)
  intro k hk
  rw [lexTok_EOL U hw k (by rw [NewLexer_input, hp]; omega)]
  rfl


/-! ## The first parameter of a parsed function -/

theorem firstValuesIdentAll_append (ps : List Node) (n : Node) :
    Node.firstValuesIdentAll (ps ++ [n])
      = (Node.firstValuesIdentAll ps && n.firstValuesIdent) := by
  induction ps with
  | nil => simp [Node.firstValuesIdentAll]
  | cons p ps ih => simp [Node.firstValuesIdentAll, ih, Bool.and_assoc]

theorem headIdent_append {ps : List Node} {n : Node} (h : headIdent ps = true)
    (hn : ps = [] → headIdent [n] = true) : headIdent (ps ++ [n]) = true := by
  cases ps with
  | nil => exact hn rfl
  | cons p ps =>
    cases p <;> exact h

theorem nextToken_current {σ : Type} {next : TokenSource σ} {p p1 : Parser σ} {current : Token}
    (h : p.nextToken next = some (current, p1)) : current = p.curToken := by
  unfold Parser.nextToken at h
  split at h
  · exact absurd h (by simp)
  · simp only [Option.some.injEq, Prod.mk.injEq] at h
    exact h.1.symm

theorem parse_firstValuesIdent {σ : Type} (U : UnicodeTables) (next : TokenSource σ)
    (fuel : Nat) :
    (∀ (p p1 : Parser σ) (name : Token) (r : Node),
      parseFunction U next fuel p name = some (r, p1) → r.firstValuesIdent = true) ∧
    (∀ (p p1 : Parser σ) (params ps : List Node),
      parseFunctionParametersLoop U next fuel p params = some (.list ps, p1) →
      (params = [] → p.curToken.Typ = .IDENT) → headIdent params = true →
      Node.firstValuesIdentAll params = true →
      headIdent ps = true ∧ Node.firstValuesIdentAll ps = true) := by
  induction fuel with
  | zero =>
    constructor
    · intro p p1 name r h
      simp [parseFunction] at h
    · intro p p1 params ps h
      simp [parseFunctionParametersLoop] at h
  | succ fuel ih =>
    obtain ⟨ihF, ihL⟩ := ih
    constructor
    · intro p p1 name r h
      rw [parseFunction] at h
      split at h
      · simp only [Option.some.injEq, Prod.mk.injEq] at h
        rw [← h.1]; rfl
      · split at h
        · exact absurd h (by simp)
        · rename_i x pa hpa
          split at h
          · simp only [Option.some.injEq, Prod.mk.injEq] at h
            rw [← h.1]; rfl
          · rename_i hid
            split at h
            · exact absurd h (by simp)
            · simp only [Option.some.injEq, Prod.mk.injEq] at h
              rw [← h.1]; rfl
            · rename_i ps pb hpb
              split at h
              · simp only [Option.some.injEq, Prod.mk.injEq] at h
                rw [← h.1]; rfl
              · split at h
                · exact absurd h (by simp)
                · simp only [Option.some.injEq, Prod.mk.injEq] at h
                  rw [← h.1]
                  have := ihL _ _ _ _ hpb (fun _ => by simpa using hid) rfl rfl
                  simp [Node.firstValuesIdent, Function.firstValuesIdent, this.1, this.2]
    · intro p p1 params ps h hfirst hhead hall
      rw [parseFunctionParametersLoop] at h
      split at h
      · exact absurd h (by simp)
      · rename_i current pa hpa
        have hcur := nextToken_current hpa
        -- the slice after a node was appended
        have hadd : ∀ (n : Node), n.firstValuesIdent = true →
            (params = [] → headIdent [n] = true) →
            headIdent (params ++ [n]) = true
              ∧ Node.firstValuesIdentAll (params ++ [n]) = true := by
          intro n hn hh
          exact ⟨headIdent_append hhead hh, by rw [firstValuesIdentAll_append, hall, hn]; rfl⟩
        have hval : headIdent (params ++ [.Value current]) = true
            ∧ Node.firstValuesIdentAll (params ++ [.Value current]) = true := by
          apply hadd (.Value current) rfl
          intro he
          simp only [headIdent, decide_eq_true_eq]
          rw [hcur]
          exact hfirst he
        have hnext : ∀ (q : Parser σ) (qs : List Node), qs ≠ [] → headIdent qs = true →
            Node.firstValuesIdentAll qs = true →
            (if q.curToken.Typ = TokenType.RPAREN then some (Params.list qs, q)
              else parseFunctionParametersLoop U next fuel q qs) = some (Params.list ps, p1) →
            headIdent ps = true ∧ Node.firstValuesIdentAll ps = true := by
          intro q qs hne h1 h2 hh
          split at hh
          · simp only [Option.some.injEq, Prod.mk.injEq, Params.list.injEq] at hh
            rw [← hh.1]
            exact ⟨h1, h2⟩
          · exact ihL _ _ _ _ hh (fun he => absurd he hne) h1 h2
        split at h
        · split at h
          · exact absurd h (by simp)
          · rename_i m pb hpb
            simp only [Option.some.injEq, Prod.mk.injEq, Params.list.injEq] at h
            rw [← h.1]
            exact hadd (.ParseError m) rfl (fun _ => rfl)
          · rename_i n pb hn hpb
            have hnok := ihF _ _ _ _ hpb
            have hnf : params = [] → headIdent [n] = true := by
              intro _
              cases n with
              | Value v =>
                -- parseFunction returns no Value
                rw [parseFunction.eq_def] at hpb
                cases fuel with
                | zero => simp at hpb
                | succ f =>
                  simp only at hpb
                  split at hpb
                  · simp at hpb
                  · split at hpb
                    · simp at hpb
                    · split at hpb
                      · simp at hpb
                      · split at hpb
                        · simp at hpb
                        · simp at hpb
                        · split at hpb
                          · simp at hpb
                          · split at hpb
                            · simp at hpb
                            · simp at hpb
              | Function f => rfl
              | Filter f => rfl
              | ParseError m => rfl
            have hq := hadd n hnok hnf
            simp only at h
            split at h
            · exact absurd h (by simp)
            · rename_i pc hpc
              exact hnext pc _ (by simp) hq.1 hq.2 h
        · split at h
          · exact absurd h (by simp)
          · rename_i x pb hpb
            exact hnext pb _ (by simp) hval.1 hval.2 h
        · simp only [Option.some.injEq, Prod.mk.injEq, Params.list.injEq] at h
          rw [← h.1]
          exact hval
        · exact absurd h (by simp)

theorem parseText_firstValuesIdent (U : UnicodeTables) (input : List Char) (f : Function)
    (h : parseText U input = some (.Filter f)) : f.firstValuesIdent = true := by
  unfold parseText at h
  split at h
  · exact absurd h (by simp)
  · rename_i p hp
    unfold ParseFilter ParseFilterFuel at h
    split at h
    · simp only at h
      split at h
      · exact absurd h (by simp)
      · rename_i x pa hpa
        split at h
        · exact absurd h (by simp)
        · simp at h
        · rename_i r pb hr hpb
          have hok := (parse_firstValuesIdent U _ _).1 _ _ _ _ hpb
          split at h
          · simp at h
          · split at h
            · rename_i fast
              simp only [Option.some.injEq, Node.Filter.injEq] at h
              rw [← h]
              exact hok
            · rename_i hnf
              simp only [Option.some.injEq] at h
              rw [h] at hok
              exact hok
    · simp at h

theorem lexState_shift (U : UnicodeTables) (l : Lexer) (k : Nat) :
    lexState U l (k + 1) = lexState U (lexState U l 1) k := by
  induction k with
  | zero => rfl
  | succ k ih =>
    show (match (lexState U l (k + 1)).NextToken U with
      | some (_, l1) => l1
      | none => lexState U l (k + 1)) = _
    rw [ih]
    rfl

/-- The tokens `lexTok` numbers are the ones `NextToken` returns call after call. -/
theorem lexN_eq_lexTok (U : UnicodeTables) (n : Nat) :
    ∀ (l : Lexer), l.WF → lexN U n l = some ((List.range n).map (lexTok U l)) := by
  induction n with
  | zero => intro l _; rfl
  | succ n ih =>
    intro l hw
    have h0 := lexer_trace U hw 0
    have e0 : lexState U l 0 = l := rfl
    rw [e0] at h0
    have hw1 : (lexState U l 1).WF := (lexState_WF U hw 1).1
    rw [lexN, h0]
    simp only [ih _ hw1, List.range_succ_eq_map, List.map_cons, List.map_map]
    congr 2
    apply List.map_congr_left
    intro j _
    simp only [Function.comp, lexTok, Nat.succ_eq_add_one, lexState_shift U l j]


/-! ## Induction over trees -/

mutual
theorem Function.induct {P : Function → Prop}
    (step : ∀ name params, (∀ f, Node.Function f ∈ params → P f) → P (.mk name params)) :
    (F : Function) → P F
  | .mk name params => step name params (Function.induct_list step params)
theorem Function.induct_list {P : Function → Prop}
    (step : ∀ name params, (∀ f, Node.Function f ∈ params → P f) → P (.mk name params)) :
    (params : List Node) → ∀ f, Node.Function f ∈ params → P f
  | [], _, h => absurd h (by simp)
  | .Function g :: rest, f, h => by
    rcases List.mem_cons.1 h with h1 | h1
    · have : f = g := by injection h1
      rw [this]
      exact Function.induct step g
    · exact Function.induct_list step rest f h1
  | .Value _ :: rest, f, h => by
    rcases List.mem_cons.1 h with h1 | h1
    · exact absurd h1 (by simp)
    · exact Function.induct_list step rest f h1
  | .Filter _ :: rest, f, h => by
    rcases List.mem_cons.1 h with h1 | h1
    · exact absurd h1 (by simp)
    · exact Function.induct_list step rest f h1
  | .ParseError _ :: rest, f, h => by
    rcases List.mem_cons.1 h with h1 | h1
    · exact absurd h1 (by simp)
    · exact Function.induct_list step rest f h1
end

/-! ## The syntax checker -/

theorem functionType_unary {s : List Char} (h : functionType s = .logicalUnary) :
    s = "NOT".toList := by
  unfold functionType at h
  split at h
  · assumption
  · split at h
    · exact absurd h (by simp)
    · split at h <;> exact absurd h (by simp)

theorem functionType_binary {s : List Char} (h : functionType s = .logicalBinary) :
    s = "AND".toList ∨ s = "OR".toList := by
  unfold functionType at h
  split at h
  · exact absurd h (by simp)
  · split at h
    · rename_i h1
      simp only [Bool.or_eq_true, decide_eq_true_eq] at h1
      tauto
    · split at h <;> exact absurd h (by simp)

theorem functionType_operator {s : List Char} (h : functionType s = .operator) :
    s ∈ operatorNames := by
  unfold functionType at h
  split at h
  · exact absurd h (by simp)
  · split at h
    · exact absurd h (by simp)
    · split at h
      · rename_i h1
        simp only [Bool.or_eq_true, decide_eq_true_eq] at h1
        simp only [operatorNames, List.mem_cons, List.mem_singleton]
        tauto
      · exact absurd h (by simp)

theorem toUpper_NOT (U : UnicodeTables) : stringsToUpper U "NOT".toList = "NOT".toList := by
  rfl

theorem toUpper_binary (U : UnicodeTables) {s : List Char}
    (h : s = "AND".toList ∨ s = "OR".toList) : stringsToUpper U s = s := by
  rcases h with h | h <;> subst h <;> rfl

theorem toUpper_operator (U : UnicodeTables) {s : List Char} (h : s ∈ operatorNames) :
    stringsToUpper U s = s := by
  simp only [operatorNames, List.mem_cons, List.mem_singleton, List.mem_nil_iff, or_false] at h
  rcases h with h | h | h | h | h | h | h | h <;> subst h <;> rfl

theorem verifyOperator_checked (U : UnicodeTables) (name : Token) (params : List Node)
    (G : Function) (hn : functionType name.Literal = .operator)
    (h : verifyOperator U name params = (G, none)) :
    CheckedAST U G ∧ G.hasParseError = false := by
  unfold verifyOperator at h
  simp only at h
  split at h
  · rename_i n0 n1
    split at h
    · rename_i pv1
      split at h
      · simp at h
      · rename_i hty
        split at h
        · rename_i pv2
          split at h
          · simp at h
          · rename_i h2
            split at h
            · simp at h
            · rename_i h3
              simp only [Prod.mk.injEq, and_true] at h
              subst h
              refine ⟨?_, by simp [Function.hasParseError, Node.anyParseError, Node.hasParseError]⟩
              simp only [CheckedAST]
              refine ⟨functionType_operator hn, toUpper_operator U (functionType_operator hn),
                ?_, ⟨_, rfl⟩, h2, ?_⟩
              · simpa using hty
              · intro hc
                by_contra hs
                apply h3
                simp only [Bool.and_eq_true, Bool.or_eq_true, decide_eq_true_eq]
                exact ⟨hc, by simpa using hs⟩
        · simp at h
    · simp at h
  · simp at h

theorem verifyFunction_checked (U : UnicodeTables) (F : Function) :
    ∀ G, verifyFunction U F = (G, none) → CheckedAST U G ∧ G.hasParseError = false := by
  induction F using Function.induct with
  | step name0 params ih =>
    intro G h
    unfold verifyFunction at h
    simp only at h
    split at h
    · rename_i hft
      split at h
      · rename_i n0
        split at h
        · rename_i p0
          simp only [Prod.mk.injEq] at h
          obtain ⟨h1, h2⟩ := h
          subst h1
          have := ih p0 (by simp) _ (Prod.ext rfl h2)
          refine ⟨?_, by simpa [Function.hasParseError, Node.anyParseError, Node.hasParseError]
            using this.2⟩
          simp only [CheckedAST]
          exact ⟨functionType_unary hft, by rw [functionType_unary hft]; exact toUpper_NOT U,
            this.1⟩
        · simp at h
      · simp at h
    · rename_i hft
      split at h
      · rename_i n0 n1
        split at h
        · rename_i p1
          split at h
          · rename_i p2
            split at h
            · rename_i he
              simp only [Prod.mk.injEq] at h
              obtain ⟨h1, h2⟩ := h
              subst h1
              have a1 := ih p1 (by simp) _ (Prod.ext rfl he)
              have a2 := ih p2 (by simp) _ (Prod.ext rfl h2)
              refine ⟨?_, by simp [Function.hasParseError, Node.anyParseError,
                Node.hasParseError, a1.2, a2.2]⟩
              simp only [CheckedAST]
              exact ⟨functionType_binary hft, toUpper_binary U (functionType_binary hft),
                a1.1, a2.1⟩
            · simp at h
          · simp at h
        · simp at h
      · simp at h
    · rename_i hft
      exact verifyOperator_checked U _ _ _ hft h
    · simp at h

theorem unicodeToUpper_of_asciiUpper (U : UnicodeTables) (c : Char)
    (h : 0x41 ≤ (asciiUpper c).toNat ∧ (asciiUpper c).toNat ≤ 0x5A) :
    unicodeToUpper U c = asciiUpper c := by
  unfold asciiUpper at h ⊢
  unfold unicodeToUpper
  by_cases hc : 0x61 ≤ c.toNat ∧ c.toNat ≤ 0x7A
  · have h7 : c.toNat ≤ 0x7F := by omega
    simp [hc, h7]
  · simp only [hc, if_false] at h ⊢
    have h7 : c.toNat ≤ 0x7F := by omega
    simp only [h7, if_true]
    have : ¬ ((0x61 ≤ c.toNat && c.toNat ≤ 0x7A) = true) := by
      simpa using hc
    rw [if_neg this]

theorem map_upper_of_map_asciiUpper (U : UnicodeTables) :
    ∀ (s t : List Char), s.map asciiUpper = t →
      (∀ d ∈ t, 0x41 ≤ d.toNat ∧ d.toNat ≤ 0x5A) → s.map (unicodeToUpper U) = t := by
  intro s
  induction s with
  | nil => intro t h _; simpa using h
  | cons c cs ih =>
    intro t h ht
    cases t with
    | nil => simp at h
    | cons d ds =>
      simp only [List.map_cons, List.cons.injEq] at h ⊢
      obtain ⟨h1, h2⟩ := h
      refine ⟨?_, ih ds h2 (fun x hx => ht x (List.mem_cons_of_mem _ hx))⟩
      rw [unicodeToUpper_of_asciiUpper U c (by rw [h1]; exact ht d (List.mem_cons_self _ _))]
      exact h1

theorem catalogNames_upper : ∀ N ∈ catalogNames,
    N.map asciiUpper = N ∧ ∀ d ∈ N, 0x41 ≤ d.toNat ∧ d.toNat ≤ 0x5A := by
  decide

theorem toUpper_of_eqIgnoreAsciiCase (U : UnicodeTables) {s N : List Char}
    (hN : N ∈ catalogNames) (h : eqIgnoreAsciiCase s N) : stringsToUpper U s = N := by
  obtain ⟨h1, h2⟩ := catalogNames_upper N hN
  unfold eqIgnoreAsciiCase at h
  rw [h1] at h
  exact map_upper_of_map_asciiUpper U s N h h2

theorem functionType_of_operatorName : ∀ op ∈ operatorNames, functionType op = .operator := by
  decide

theorem verifyFunction_accepts (U : UnicodeTables) (F : Function) :
    CatalogAllows F → (verifyFunction U F).2 = none := by
  induction F using Function.induct with
  | step name0 params ih =>
    intro h
    match params, h, ih with
    | [.Function c], h, ih =>
      simp only [CatalogAllows] at h
      have hu := toUpper_of_eqIgnoreAsciiCase U (by decide) h.1
      unfold verifyFunction
      simp only [hu]
      have : functionType "NOT".toList = .logicalUnary := by decide
      simp only [this]
      exact ih c (by simp) h.2
    | [.Function lhs, .Function rhs], h, ih =>
      simp only [CatalogAllows] at h
      obtain ⟨hn, hl, hr⟩ := h
      have hft : functionType (stringsToUpper U name0.Literal) = .logicalBinary := by
        rcases hn with hn | hn
        · rw [toUpper_of_eqIgnoreAsciiCase U (by decide) hn]; decide
        · rw [toUpper_of_eqIgnoreAsciiCase U (by decide) hn]; decide
      unfold verifyFunction
      simp only [hft]
      have h1 := ih lhs (by simp) hl
      have h2 := ih rhs (by simp) hr
      simp only [h1, h2]
    | [.Value field, .Value value], h, _ =>
      simp only [CatalogAllows] at h
      obtain ⟨⟨op, hop, hn⟩, hf, hv, hs⟩ := h
      have hu := toUpper_of_eqIgnoreAsciiCase U (List.mem_cons_of_mem _ (List.mem_cons_of_mem _
        (List.mem_cons_of_mem _ hop))) hn
      unfold verifyFunction
      simp only [hu, functionType_of_operatorName op hop, verifyOperator]
      have hstr : ¬ (((op = "CONTAINS".toList || op = "IN".toList)
          && decide (value.Typ ≠ .STRING)) = true) := by
        intro hc
        simp only [Bool.and_eq_true, Bool.or_eq_true, decide_eq_true_eq] at hc
        apply hc.2
        apply hs
        rcases hc.1 with hc | hc
        · left; rw [← hc]; exact hn
        · right; rw [← hc]; exact hn
      rw [if_neg (by simpa using hf), if_neg hv, if_neg hstr]
    | [], h, _ => simp [CatalogAllows] at h
    | [.Value _], h, _ => simp [CatalogAllows] at h
    | [.Filter _], h, _ => simp [CatalogAllows] at h
    | [.ParseError _], h, _ => simp [CatalogAllows] at h
    | [.Value _, .Function _], h, _ => simp [CatalogAllows] at h
    | [.Value _, .Filter _], h, _ => simp [CatalogAllows] at h
    | [.Value _, .ParseError _], h, _ => simp [CatalogAllows] at h
    | [.Function _, .Value _], h, _ => simp [CatalogAllows] at h
    | [.Function _, .Filter _], h, _ => simp [CatalogAllows] at h
    | [.Function _, .ParseError _], h, _ => simp [CatalogAllows] at h
    | .Filter _ :: _ :: _, h, _ => simp [CatalogAllows] at h
    | .ParseError _ :: _ :: _, h, _ => simp [CatalogAllows] at h
    | _ :: _ :: _ :: _, h, _ => simp [CatalogAllows] at h

theorem verifyFunction_left_error (U : UnicodeTables) (name : Token) (p1 p2 : Function)
    (e : SyntaxError)
    (hn : functionType (stringsToUpper U name.Literal) = .logicalBinary)
    (h : (verifyFunction U p1).2 = some e) :
    verifyFunction U (.mk name [.Function p1, .Function p2])
      = (.mk { name with Literal := stringsToUpper U name.Literal }
          [.Function (verifyFunction U p1).1, .Function p2], some e) := by
  conv_lhs => unfold verifyFunction
  simp only [hn, h]

/-! ## The transpiler -/

theorem tableEmission_unary (m : TMapIdentityToField) (name : Token) (c : Function) :
    tableEmission m (.mk name [.Function c])
      = if name.Literal = "NOT".toList then "NOT(".toList ++ tableEmission m c ++ ")".toList
        else [] := by
  rw [tableEmission]

theorem tableEmission_binary (m : TMapIdentityToField) (name : Token) (lhs rhs : Function) :
    tableEmission m (.mk name [.Function lhs, .Function rhs])
      = if name.Literal = "AND".toList then
          "(".toList ++ tableEmission m lhs ++ ") AND (".toList ++ tableEmission m rhs
            ++ ")".toList
        else if name.Literal = "OR".toList then
          "(".toList ++ tableEmission m lhs ++ ") OR (".toList ++ tableEmission m rhs
            ++ ")".toList
        else [] := by
  rw [tableEmission]

theorem tableEmission_operator (m : TMapIdentityToField) (name field value : Token) :
    tableEmission m (.mk name [.Value field, .Value value])
      = match operatorSign name.Literal with
        | some sign => m field.Literal ++ " ".toList ++ sign ++ " ".toList ++ value.Literal
        | none => [] := by
  rw [tableEmission]

theorem mysqlBinaryOperator_plain (U : UnicodeTables) (m : TMapIdentityToField)
    (op : List Char) (field value : Token) (hm : m field.Literal ≠ [])
    (hv : value.Typ ≠ .STRING) :
    mysqlBinaryOperator U m op field value
      = .str (m field.Literal ++ " ".toList ++ op ++ " ".toList ++ value.Literal) := by
  unfold mysqlBinaryOperator mysqlEscapeValue
  simp only
  rw [if_neg hm, if_neg hv, if_pos hv]

theorem transpile_operator (U : UnicodeTables) (m : TMapIdentityToField) (ty : TokenType)
    (field value : Token) (hm : m field.Literal ≠ []) (hv : value.Typ ≠ .STRING) :
    ∀ op ∈ ["EQ".toList, "NEQ".toList, "GT".toList, "GTE".toList, "LT".toList, "LTE".toList],
      mysqlFunctionToStatement U m (.mk ⟨ty, op⟩ [.Value field, .Value value])
        = .str (tableEmission m (.mk ⟨ty, op⟩ [.Value field, .Value value])) := by
  intro op hop
  simp only [List.mem_cons, List.mem_singleton, List.mem_nil_iff, or_false] at hop
  rw [tableEmission_operator]
  rcases hop with h | h | h | h | h | h
  · subst h
    exact mysqlBinaryOperator_plain U m "=".toList field value hm hv
  · subst h
    exact mysqlBinaryOperator_plain U m "!=".toList field value hm hv
  · subst h
    exact mysqlBinaryOperator_plain U m ">".toList field value hm hv
  · subst h
    exact mysqlBinaryOperator_plain U m ">=".toList field value hm hv
  · subst h
    exact mysqlBinaryOperator_plain U m "<".toList field value hm hv
  · subst h
    exact mysqlBinaryOperator_plain U m "<=".toList field value hm hv

theorem transpile_NOT (U : UnicodeTables) (m : TMapIdentityToField) (ty : TokenType)
    (c : Function) :
    mysqlFunctionToStatement U m (.mk ⟨ty, "NOT".toList⟩ [.Function c])
      = mysqlLogicalNOTResult (mysqlFunctionToStatement U m c) := by
  rfl

theorem transpile_AND (U : UnicodeTables) (m : TMapIdentityToField) (ty : TokenType)
    (lhs rhs : Function) :
    mysqlFunctionToStatement U m (.mk ⟨ty, "AND".toList⟩ [.Function lhs, .Function rhs])
      = mysqlBinaryLogicalResult "AND".toList (mysqlFunctionToStatement U m lhs)
          (mysqlFunctionToStatement U m rhs) := by
  rfl

theorem transpile_OR (U : UnicodeTables) (m : TMapIdentityToField) (ty : TokenType)
    (lhs rhs : Function) :
    mysqlFunctionToStatement U m (.mk ⟨ty, "OR".toList⟩ [.Function lhs, .Function rhs])
      = mysqlBinaryLogicalResult "OR".toList (mysqlFunctionToStatement U m lhs)
          (mysqlFunctionToStatement U m rhs) := by
  rfl

theorem transpile_table (U : UnicodeTables) (m : TMapIdentityToField) (G : Function) :
    CheckedAST U G → G.hasStringValue = false → FieldsMapped m G →
      mysqlFunctionToStatement U m G = .str (tableEmission m G) := by
  induction G using Function.induct with
  | step name params ih =>
    obtain ⟨ty, lit⟩ := name
    intro hc hs hm
    match params, hc, hs, hm, ih with
    | [.Function c], hc1, hs1, hm1, ih1 =>
      simp only [CheckedAST] at hc1
      simp only [Function.hasStringValue, Node.anyStringValue, Node.hasStringValue,
        Bool.or_false] at hs1
      simp only [FieldsMapped] at hm1
      have hrec := ih1 c (by simp) hc1.2.2 hs1 hm1
      obtain ⟨hn, -, -⟩ := hc1
      subst hn
      rw [transpile_NOT, hrec, tableEmission_unary]
      simp [mysqlLogicalNOTResult]
    | [.Function lhs, .Function rhs], hc1, hs1, hm1, ih1 =>
      simp only [CheckedAST] at hc1
      simp only [Function.hasStringValue, Node.anyStringValue, Node.hasStringValue,
        Bool.or_false, Bool.or_eq_false_iff] at hs1
      simp only [FieldsMapped] at hm1
      have h1 := ih1 lhs (by simp) hc1.2.2.1 hs1.1 hm1.1
      have h2 := ih1 rhs (by simp) hc1.2.2.2 hs1.2 hm1.2
      obtain ⟨hn, -, -, -⟩ := hc1
      rcases hn with hn | hn
      · subst hn
        rw [transpile_AND, h1, h2, tableEmission_binary]
        simp [mysqlBinaryLogicalResult]
      · subst hn
        rw [transpile_OR, h1, h2, tableEmission_binary]
        simp [mysqlBinaryLogicalResult]
    | [.Value field, .Value value], hc1, hs1, hm1, _ =>
      simp only [CheckedAST] at hc1
      simp only [Function.hasStringValue, Node.anyStringValue, Node.hasStringValue,
        Bool.or_false, Bool.or_eq_false_iff, decide_eq_false_iff_not] at hs1
      simp only [FieldsMapped] at hm1
      obtain ⟨hop, -, -, -, -, hstr⟩ := hc1
      have hval : value.Typ ≠ .STRING := hs1.2
      apply transpile_operator U m ty field value hm1 hval
      simp only [operatorNames, List.mem_cons, List.mem_singleton, List.mem_nil_iff,
        or_false] at hop ⊢
      rcases hop with h | h | h | h | h | h | h | h <;>
        first
          | exact absurd (hstr (Or.inl h)) hval
          | exact absurd (hstr (Or.inr h)) hval
          | (rw [h]; decide)
    | [], hc1, _, _, _ => simp [CheckedAST] at hc1
    | [.Value _], hc1, _, _, _ => simp [CheckedAST] at hc1
    | [.Filter _], hc1, _, _, _ => simp [CheckedAST] at hc1
    | [.ParseError _], hc1, _, _, _ => simp [CheckedAST] at hc1
    | [.Value _, .Function _], hc1, _, _, _ => simp [CheckedAST] at hc1
    | [.Value _, .Filter _], hc1, _, _, _ => simp [CheckedAST] at hc1
    | [.Value _, .ParseError _], hc1, _, _, _ => simp [CheckedAST] at hc1
    | [.Function _, .Value _], hc1, _, _, _ => simp [CheckedAST] at hc1
    | [.Function _, .Filter _], hc1, _, _, _ => simp [CheckedAST] at hc1
    | [.Function _, .ParseError _], hc1, _, _, _ => simp [CheckedAST] at hc1
    | .Filter _ :: _ :: _, hc1, _, _, _ => simp [CheckedAST] at hc1
    | .ParseError _ :: _ :: _, hc1, _, _, _ => simp [CheckedAST] at hc1
    | _ :: _ :: _ :: _, hc1, _, _, _ => simp [CheckedAST] at hc1

/-! ## Lemmas for the escaping, the error paths and the kinds of token -/

theorem lex_wildcard (U : UnicodeTables) :
    lexN U 8 (NewLexer "neq(alias,\"*org*\")".toList)
      = some [⟨.IDENT, "neq".toList⟩, ⟨.LPAREN, "(".toList⟩, ⟨.IDENT, "alias".toList⟩,
          ⟨.COMMA, ",".toList⟩,
          ⟨.STRING, [wildcardMarker, 'o', 'r', 'g', wildcardMarker]⟩, ⟨.RPAREN, ")".toList⟩,
          ⟨.EOL, [NUL]⟩, ⟨.EOL, [NUL]⟩] := by
  rfl

theorem parse_wildcard (U : UnicodeTables) :
    parseText U "neq(alias,\"*org*\")".toList
      = some (.Filter (.mk ⟨.IDENT, "neq".toList⟩
          [.Value ⟨.IDENT, "alias".toList⟩,
            .Value ⟨.STRING, [wildcardMarker, 'o', 'r', 'g', wildcardMarker]⟩])) :=
  parseText_of_tokens U _
    [⟨.IDENT, "neq".toList⟩, ⟨.LPAREN, "(".toList⟩, ⟨.IDENT, "alias".toList⟩,
      ⟨.COMMA, ",".toList⟩,
      ⟨.STRING, [wildcardMarker, 'o', 'r', 'g', wildcardMarker]⟩, ⟨.RPAREN, ")".toList⟩,
      ⟨.EOL, [NUL]⟩, ⟨.EOL, [NUL]⟩] _
    (lex_wildcard U) rfl

theorem lex_embedded_quote (U : UnicodeTables) :
    lexN U 8 (NewLexer "contains(alias,\"a\\\"b\")".toList)
      = some [⟨.IDENT, "contains".toList⟩, ⟨.LPAREN, "(".toList⟩, ⟨.IDENT, "alias".toList⟩,
          ⟨.COMMA, ",".toList⟩, ⟨.STRING, "a\"b".toList⟩, ⟨.RPAREN, ")".toList⟩,
          ⟨.EOL, [NUL]⟩, ⟨.EOL, [NUL]⟩] := by
  rfl

theorem parse_embedded_quote (U : UnicodeTables) :
    parseText U "contains(alias,\"a\\\"b\")".toList
      = some (.Filter (.mk ⟨.IDENT, "contains".toList⟩
          [.Value ⟨.IDENT, "alias".toList⟩, .Value ⟨.STRING, "a\"b".toList⟩])) :=
  parseText_of_tokens U _
    [⟨.IDENT, "contains".toList⟩, ⟨.LPAREN, "(".toList⟩, ⟨.IDENT, "alias".toList⟩,
      ⟨.COMMA, ",".toList⟩, ⟨.STRING, "a\"b".toList⟩, ⟨.RPAREN, ")".toList⟩,
      ⟨.EOL, [NUL]⟩, ⟨.EOL, [NUL]⟩] _
    (lex_embedded_quote U) rfl

theorem lex_rejected_field (U : UnicodeTables) :
    lexN U 18 (NewLexer "and(eq(secret,1),eq(a,1))".toList)
      = some [⟨.IDENT, "and".toList⟩, ⟨.LPAREN, "(".toList⟩, ⟨.IDENT, "eq".toList⟩,
          ⟨.LPAREN, "(".toList⟩, ⟨.IDENT, "secret".toList⟩, ⟨.COMMA, ",".toList⟩,
          ⟨.INT, "1".toList⟩, ⟨.RPAREN, ")".toList⟩, ⟨.COMMA, ",".toList⟩,
          ⟨.IDENT, "eq".toList⟩, ⟨.LPAREN, "(".toList⟩, ⟨.IDENT, "a".toList⟩,
          ⟨.COMMA, ",".toList⟩, ⟨.INT, "1".toList⟩, ⟨.RPAREN, ")".toList⟩,
          ⟨.RPAREN, ")".toList⟩, ⟨.EOL, [NUL]⟩, ⟨.EOL, [NUL]⟩] := by
  rfl

theorem parse_rejected_field (U : UnicodeTables) :
    parseText U "and(eq(secret,1),eq(a,1))".toList
      = some (.Filter (.mk ⟨.IDENT, "and".toList⟩
          [.Function (.mk ⟨.IDENT, "eq".toList⟩
              [.Value ⟨.IDENT, "secret".toList⟩, .Value ⟨.INT, "1".toList⟩]),
            .Function (.mk ⟨.IDENT, "eq".toList⟩
              [.Value ⟨.IDENT, "a".toList⟩, .Value ⟨.INT, "1".toList⟩])])) :=
  parseText_of_tokens U _
    [⟨.IDENT, "and".toList⟩, ⟨.LPAREN, "(".toList⟩, ⟨.IDENT, "eq".toList⟩,
      ⟨.LPAREN, "(".toList⟩, ⟨.IDENT, "secret".toList⟩, ⟨.COMMA, ",".toList⟩,
      ⟨.INT, "1".toList⟩, ⟨.RPAREN, ")".toList⟩, ⟨.COMMA, ",".toList⟩,
      ⟨.IDENT, "eq".toList⟩, ⟨.LPAREN, "(".toList⟩, ⟨.IDENT, "a".toList⟩,
      ⟨.COMMA, ",".toList⟩, ⟨.INT, "1".toList⟩, ⟨.RPAREN, ")".toList⟩,
      ⟨.RPAREN, ")".toList⟩, ⟨.EOL, [NUL]⟩, ⟨.EOL, [NUL]⟩] _
    (lex_rejected_field U) rfl

theorem mysqlBinaryOperator_invalid (U : UnicodeTables) (m : TMapIdentityToField)
    (op : List Char) (f v : Token) (hm : m f.Literal = []) :
    mysqlBinaryOperator U m op f v = invalidField f.Literal := by
  unfold mysqlBinaryOperator
  simp only [hm, if_true]

theorem mysqlOperatorQuoted_invalid (U : UnicodeTables) (m : TMapIdentityToField)
    (kw : List Char) (name f v : Token) (rest : List Node) (hm : m f.Literal = []) :
    mysqlOperatorQuoted U m kw (.mk name (.Value f :: .Value v :: rest))
      = invalidField f.Literal := by
  unfold mysqlOperatorQuoted
  simp only [Function.Parameters, hm, if_true]

theorem Reset_eq (l : Lexer) : l.Reset = NewLexer l.input := by
  unfold Lexer.Reset NewLexer Lexer.nextChar
  simp only

theorem numberLoop_tt (U : UnicodeTables) (fuel : Nat) :
    ∀ (s s1 : NumberScan), nextTokenNumberLoop U fuel s = some s1 → s.tt ≠ .EOL →
      s1.tt ≠ .EOL := by
  induction fuel with
  | zero => intro s s1 h; simp [nextTokenNumberLoop] at h
  | succ fuel ih =>
    intro s s1 h ht
    rw [nextTokenNumberLoop] at h
    split at h
    · split at h
      · split at h
        · simp only [Option.some.injEq] at h
          rw [← h]
          simp
        · exact ih _ _ h (by simp)
      · exact ih _ _ h ht
    · simp only [Option.some.injEq] at h
      rw [← h]
      exact ht

theorem nextTokenNumber_typ {U : UnicodeTables} {l l1 : Lexer} {tok : Token}
    (h : l.nextTokenNumber U = some (tok, l1)) : tok.Typ ≠ .EOL := by
  unfold Lexer.nextTokenNumber at h
  simp only at h
  split at h
  · exact absurd h (by simp)
  · rename_i s hs
    have ht : s.tt ≠ .EOL := by
      apply numberLoop_tt U _ _ _ hs
      split <;> simp
    split at h
    · exact absurd h (by simp)
    · split at h
      · exact absurd h (by simp)
      · simp only [Option.some.injEq, Prod.mk.injEq] at h
        rw [← h.1]
        simp only
        split
        · simp
        · exact ht

theorem nextTokenIdentifier_typ {U : UnicodeTables} {l l1 : Lexer} {tok : Token}
    (h : l.nextTokenIdentifier U = some (tok, l1)) : tok.Typ ≠ .EOL := by
  unfold Lexer.nextTokenIdentifier at h
  simp only at h
  split at h
  · exact absurd h (by simp)
  · split at h
    · exact absurd h (by simp)
    · split at h
      · exact absurd h (by simp)
      · simp only [Option.some.injEq, Prod.mk.injEq] at h
        rw [← h.1]
        simp

theorem nextTokenString_typ {U : UnicodeTables} {l l1 : Lexer} {tok : Token}
    (h : l.nextTokenString U = some (tok, l1)) : tok.Typ ≠ .EOL := by
  unfold Lexer.nextTokenString at h
  simp only at h
  split at h
  · simp only [Option.some.injEq, Prod.mk.injEq] at h
    rw [← h.1]
    simp
  · split at h
    · simp only [Option.some.injEq, Prod.mk.injEq] at h
      rw [← h.1]
      simp
    · split at h
      · exact absurd h (by simp)
      · split at h <;>
          (simp only [Option.some.injEq, Prod.mk.injEq] at h
           rw [← h.1]
           simp)

theorem NextToken_EOL {U : UnicodeTables} {l l1 : Lexer} {tok : Token}
    (h : l.NextToken U = some (tok, l1)) (ht : tok.Typ = .EOL) :
    ∃ l0, l.skipWhiteSpaces U = some l0 ∧ l0.ch = NUL ∧ l1 = l0.nextChar
      ∧ tok = newToken .EOL NUL := by
  unfold Lexer.NextToken at h
  split at h
  · exact absurd h (by simp)
  · rename_i l0 hl0
    refine ⟨l0, hl0, ?_⟩
    simp only at h
    by_cases c1 : l0.ch = '('
    · simp only [c1, if_true, Option.some.injEq, Prod.mk.injEq] at h
      rw [← h.1] at ht
      exact absurd ht (by simp [newToken])
    by_cases c2 : l0.ch = ')'
    · simp only [c2, if_neg (show ¬ (')' = '(') by decide), if_true, Option.some.injEq,
        Prod.mk.injEq] at h
      rw [← h.1] at ht
      exact absurd ht (by simp [newToken])
    by_cases c3 : l0.ch = ','
    · simp only [c3, if_neg (show ¬ (',' = '(') by decide),
        if_neg (show ¬ (',' = ')') by decide), if_true, Option.some.injEq, Prod.mk.injEq] at h
      rw [← h.1] at ht
      exact absurd ht (by simp [newToken])
    by_cases c4 : l0.ch = NUL
    · simp only [if_neg c1, if_neg c2, if_neg c3, if_pos c4, Option.some.injEq,
        Prod.mk.injEq] at h
      exact ⟨c4, h.2.symm, by rw [← h.1, c4]⟩
    exfalso
    simp only [if_neg c1, if_neg c2, if_neg c3, if_neg c4] at h
    by_cases c5 : isValidNumberRune U l0.ch = true
    · simp only [c5, if_true] at h
      cases hn : l0.nextTokenNumber U with
      | none => simp [hn] at h
      | some r =>
        obtain ⟨t, l2⟩ := r
        simp only [hn, Option.some.injEq, Prod.mk.injEq] at h
        exact nextTokenNumber_typ hn (by rw [h.1]; exact ht)
    have c5 : isValidNumberRune U l0.ch = false := by simpa using c5
    by_cases c6 : isValidFirstIdentifierRune U l0.ch = true
    · simp only [c5, c6, if_true, if_false, Bool.false_eq_true] at h
      cases hn : l0.nextTokenIdentifier U with
      | none => simp [hn] at h
      | some r =>
        obtain ⟨t, l2⟩ := r
        simp only [hn, Option.some.injEq, Prod.mk.injEq] at h
        exact nextTokenIdentifier_typ hn (by rw [h.1]; exact ht)
    have c6 : isValidFirstIdentifierRune U l0.ch = false := by simpa using c6
    by_cases c7 : l0.ch = '"'
    · simp only [c5, c6, if_false, if_pos c7, Bool.false_eq_true] at h
      cases hn : l0.nextTokenString U with
      | none => simp [hn] at h
      | some r =>
        obtain ⟨t, l2⟩ := r
        simp only [hn, Option.some.injEq, Prod.mk.injEq] at h
        exact nextTokenString_typ hn (by rw [h.1]; exact ht)
    · simp only [c5, c6, if_false, if_neg c7, Bool.false_eq_true, Option.some.injEq,
        Prod.mk.injEq] at h
      rw [← h.1] at ht
      exact absurd ht (by simp [newToken])

theorem WF_NUL_end {l : Lexer} (hw : l.WF) (hn : NUL ∉ l.input) (hc : l.ch = NUL) :
    l.input.length ≤ l.position := by
  by_contra hlt
  have hlt : l.position < l.input.length := by omega
  apply hn
  have h := hw.2
  rw [List.getD_eq_getElem _ _ hlt] at h
  rw [← hc, h]
  exact List.getElem_mem _

theorem NextToken_EOL_end {U : UnicodeTables} {l l1 : Lexer} {tok : Token} (hw : l.WF)
    (hn : NUL ∉ l.input) (h : l.NextToken U = some (tok, l1)) (ht : tok.Typ = .EOL) :
    tok = newToken .EOL NUL ∧ l1.input.length ≤ l1.position := by
  obtain ⟨l0, h0, hc, h1, htok⟩ := NextToken_EOL h ht
  refine ⟨htok, ?_⟩
  unfold Lexer.skipWhiteSpaces at h0
  obtain ⟨la, ha, hwa, -⟩ := skipWhiteSpacesLoop_WF U (l.input.length + 1) l hw (by omega)
  rw [h0] at ha
  cases ha
  have hin : l0.input = l.input := skipWhiteSpacesLoop_input U _ _ _ h0
  have hend := WF_NUL_end hwa (by rw [hin]; exact hn) hc
  have hnc := (nextChar_WF hwa.1).2
  rw [h1, nextChar_input, hnc]
  omega

theorem dropWhile_head (p : Char → Bool) :
    ∀ (l : List Char) (d : Char) (ds : List Char), l.dropWhile p = d :: ds → p d = false := by
  intro l
  induction l with
  | nil => intro d ds h; simp at h
  | cons c cs ih =>
    intro d ds h
    rw [List.dropWhile_cons] at h
    split at h
    · exact ih d ds h
    · rename_i hc
      simp only [List.cons.injEq] at h
      rw [← h.1]
      simpa using hc

/-! ## Lemmas for identifiers, the parser, the checker frame and the escaping -/

theorem identLoop_at (U : UnicodeTables) (rest : List Char)
    (hrest : isValidNextIdentifierRune U (rest.headD NUL) = false) :
    ∀ (run : List Char) (fuel : Nat) (pre : List Char), run.length < fuel →
      (∀ c ∈ run, isValidNextIdentifierRune U c = true) →
      nextTokenIdentifierLoop U fuel (lexerAt pre (run ++ rest))
        = some (lexerAt (pre ++ run) rest) := by
  intro run
  induction run with
  | nil =>
    intro fuel pre hf _
    obtain ⟨f, rfl⟩ : ∃ f, fuel = f + 1 := ⟨fuel - 1, by simp at hf; omega⟩
    unfold nextTokenIdentifierLoop
    have hch : (lexerAt pre ([] ++ rest)).ch = rest.headD NUL := by
      cases rest <;> rfl
    rw [hch, hrest]
    simp
  | cons w ws ih =>
    intro fuel pre hf hall
    obtain ⟨f, rfl⟩ : ∃ f, fuel = f + 1 := ⟨fuel - 1, by simp at hf; omega⟩
    unfold nextTokenIdentifierLoop
    have hw : isValidNextIdentifierRune U w = true := hall w (List.mem_cons_self _ _)
    simp only [List.cons_append, ch_cons, hw, if_true, nextChar_cons]
    rw [ih f (pre ++ [w]) (by simp at hf; omega) (fun c hc => hall c (List.mem_cons_of_mem _ hc))]
    simp

theorem nextTokenIdentifier_at (U : UnicodeTables) (pre : List Char) (c : Char)
    (run rest : List Char) (hall : ∀ x ∈ run, isValidNextIdentifierRune U x = true)
    (hrest : isValidNextIdentifierRune U (rest.headD NUL) = false) :
    ∃ l1, (lexerAt pre (c :: run ++ rest)).nextTokenIdentifier U
        = some ({ Typ := .IDENT, Literal := c :: run }, l1)
      ∧ l1.nextChar = lexerAt (pre ++ c :: run) rest := by
  obtain ⟨init, x, hix⟩ : ∃ init x, c :: run = init ++ [x] := by
    rcases List.eq_nil_or_concat (c :: run) with h | ⟨init, x, h⟩
    · exact absurd h (by simp)
    · exact ⟨init, x, by rw [h, List.concat_eq_append]⟩
  have hloop := identLoop_at U rest hrest run ((lexerAt pre (c :: run ++ rest)).input.length + 1)
    (pre ++ [c]) (by simp [lexerAt]; omega) hall
  have hl : lexerAt (pre ++ [c] ++ run) rest = lexerAt ((pre ++ init) ++ [x]) rest := by
    rw [List.append_assoc, List.singleton_append, hix, List.append_assoc]
  rw [hl] at hloop
  have hslice : (lexerAt (pre ++ init) (x :: rest)).slice pre.length
      (pre ++ (c :: run)).length = some (c :: run) := by
    apply slice_mid _ pre (c :: run) rest
    rw [hix]; simp [lexerAt]
  have hpos : (lexerAt ((pre ++ init) ++ [x]) rest).position = (pre ++ (c :: run)).length := by
    rw [lexerAt_position, hix, List.append_assoc]
  refine ⟨lexerAt (pre ++ init) (x :: rest), ?_, ?_⟩
  · unfold Lexer.nextTokenIdentifier
    simp only [List.cons_append, nextChar_cons] at hloop ⊢
    simp only [hloop, undoChar_snoc, hpos, lexerAt_position, hslice]
  · rw [nextChar_cons, hix, List.append_assoc]

theorem letter_not_special (U : UnicodeTables) (c : Char)
    (h : isValidFirstIdentifierRune U c = true) : c ≠ '(' ∧ c ≠ ')' ∧ c ≠ ',' ∧ c ≠ NUL := by
  have h1 : isValidFirstIdentifierRune U '(' = false := rfl
  have h2 : isValidFirstIdentifierRune U ')' = false := rfl
  have h3 : isValidFirstIdentifierRune U ',' = false := rfl
  have h4 : isValidFirstIdentifierRune U NUL = false := rfl
  refine ⟨?_, ?_, ?_, ?_⟩ <;> (intro e; subst e; simp [h1, h2, h3, h4] at h)

theorem NextToken_identifier (U : UnicodeTables) (pre ws : List Char) (c : Char)
    (run rest : List Char) (hws : ∀ x ∈ ws, isWhiteSpace U x = true)
    (hc0 : isWhiteSpace U c = false) (hcn : isValidNumberRune U c = false)
    (hc : isValidFirstIdentifierRune U c = true)
    (hall : ∀ x ∈ run, isValidNextIdentifierRune U x = true)
    (hrest : isValidNextIdentifierRune U (rest.headD NUL) = false) :
    (lexerAt pre (ws ++ (c :: run ++ rest))).NextToken U
      = some ({ Typ := .IDENT, Literal := c :: run },
          lexerAt (pre ++ ws ++ c :: run) rest) := by
  obtain ⟨l1, htok, hnext⟩ := nextTokenIdentifier_at U (pre ++ ws) c run rest hall hrest
  obtain ⟨n1, n2, n3, n4⟩ := letter_not_special U c hc
  unfold Lexer.NextToken
  rw [skipWhiteSpaces_at U pre ws (c :: run ++ rest) hws hc0]
  have hch : (lexerAt (pre ++ ws) (c :: run ++ rest)).ch = c := rfl
  simp only [hch, if_neg n1, if_neg n2, if_neg n3, if_neg n4, hcn, hc, if_true, htok, hnext,
    Bool.false_eq_true, if_false]

theorem paramsNonEmptyAll_append (ps : List Node) (n : Node) :
    Node.paramsNonEmptyAll (ps ++ [n])
      = (Node.paramsNonEmptyAll ps && n.paramsNonEmpty) := by
  induction ps with
  | nil => simp [Node.paramsNonEmptyAll]
  | cons p ps ih => simp [Node.paramsNonEmptyAll, ih, Bool.and_assoc]

theorem parse_paramsNonEmpty {σ : Type} (U : UnicodeTables) (next : TokenSource σ)
    (fuel : Nat) :
    (∀ (p p1 : Parser σ) (name : Token) (r : Node),
      parseFunction U next fuel p name = some (r, p1) → r.paramsNonEmpty = true) ∧
    (∀ (p p1 : Parser σ) (params ps : List Node),
      parseFunctionParametersLoop U next fuel p params = some (.list ps, p1) →
      Node.paramsNonEmptyAll params = true →
      ps ≠ [] ∧ Node.paramsNonEmptyAll ps = true) := by
  induction fuel with
  | zero =>
    constructor
    · intro p p1 name r h
      simp [parseFunction] at h
    · intro p p1 params ps h
      simp [parseFunctionParametersLoop] at h
  | succ fuel ih =>
    obtain ⟨ihF, ihL⟩ := ih
    constructor
    · intro p p1 name r h
      rw [parseFunction] at h
      split at h
      · simp only [Option.some.injEq, Prod.mk.injEq] at h
        rw [← h.1]; rfl
      · split at h
        · exact absurd h (by simp)
        · split at h
          · simp only [Option.some.injEq, Prod.mk.injEq] at h
            rw [← h.1]; rfl
          · split at h
            · exact absurd h (by simp)
            · simp only [Option.some.injEq, Prod.mk.injEq] at h
              rw [← h.1]; rfl
            · rename_i ps pb hpb
              split at h
              · simp only [Option.some.injEq, Prod.mk.injEq] at h
                rw [← h.1]; rfl
              · split at h
                · exact absurd h (by simp)
                · simp only [Option.some.injEq, Prod.mk.injEq] at h
                  rw [← h.1]
                  obtain ⟨hne, hall⟩ := ihL _ _ _ _ hpb rfl
                  cases ps with
                  | nil => exact absurd rfl hne
                  | cons q qs =>
                    simpa [Node.paramsNonEmpty, Function.paramsNonEmpty] using hall
    · intro p p1 params ps h hall
      rw [parseFunctionParametersLoop] at h
      split at h
      · exact absurd h (by simp)
      · rename_i current pa hpa
        have hadd : ∀ (n : Node), n.paramsNonEmpty = true →
            Node.paramsNonEmptyAll (params ++ [n]) = true := by
          intro n hn
          rw [paramsNonEmptyAll_append, hall, hn]; rfl
        have hnext : ∀ (q : Parser σ) (qs : List Node), qs ≠ [] →
            Node.paramsNonEmptyAll qs = true →
            (if q.curToken.Typ = TokenType.RPAREN then some (Params.list qs, q)
              else parseFunctionParametersLoop U next fuel q qs) = some (Params.list ps, p1) →
            ps ≠ [] ∧ Node.paramsNonEmptyAll ps = true := by
          intro q qs hne h2 hh
          split at hh
          · simp only [Option.some.injEq, Prod.mk.injEq, Params.list.injEq] at hh
            rw [← hh.1]
            exact ⟨hne, h2⟩
          · exact ihL _ _ _ _ hh h2
        split at h
        · split at h
          · exact absurd h (by simp)
          · rename_i m pb hpb
            simp only [Option.some.injEq, Prod.mk.injEq, Params.list.injEq] at h
            rw [← h.1]
            exact ⟨by simp, hadd (.ParseError m) rfl⟩
          · rename_i n pb hn hpb
            have hnok := ihF _ _ _ _ hpb
            simp only at h
            split at h
            · exact absurd h (by simp)
            · rename_i pc hpc
              exact hnext pc _ (by simp) (hadd n hnok) h
        · split at h
          · exact absurd h (by simp)
          · rename_i x pb hpb
            exact hnext pb _ (by simp) (hadd (.Value current) rfl) h
        · simp only [Option.some.injEq, Prod.mk.injEq, Params.list.injEq] at h
          rw [← h.1]
          exact ⟨by simp, hadd (.Value current) rfl⟩
        · exact absurd h (by simp)

theorem parse_nested_example :
    parseText noTables "and(gt(type,1),neq(alias,\"org\"))".toList
      = some (.Filter (.mk ⟨.IDENT, "and".toList⟩
          [.Function (.mk ⟨.IDENT, "gt".toList⟩
              [.Value ⟨.IDENT, "type".toList⟩, .Value ⟨.INT, "1".toList⟩]),
            .Function (.mk ⟨.IDENT, "neq".toList⟩
              [.Value ⟨.IDENT, "alias".toList⟩, .Value ⟨.STRING, "org".toList⟩])])) :=
  parseText_of_tokens noTables _
    [⟨.IDENT, "and".toList⟩, ⟨.LPAREN, "(".toList⟩, ⟨.IDENT, "gt".toList⟩,
      ⟨.LPAREN, "(".toList⟩, ⟨.IDENT, "type".toList⟩, ⟨.COMMA, ",".toList⟩,
      ⟨.INT, "1".toList⟩, ⟨.RPAREN, ")".toList⟩, ⟨.COMMA, ",".toList⟩,
      ⟨.IDENT, "neq".toList⟩, ⟨.LPAREN, "(".toList⟩, ⟨.IDENT, "alias".toList⟩,
      ⟨.COMMA, ",".toList⟩, ⟨.STRING, "org".toList⟩, ⟨.RPAREN, ")".toList⟩,
      ⟨.RPAREN, ")".toList⟩, ⟨.EOL, [NUL]⟩, ⟨.EOL, [NUL]⟩] _
    (by decide) (by decide)

theorem lex_unexpected_int (U : UnicodeTables) :
    lexN U 7 (NewLexer "eq(a 1)".toList)
      = some [⟨.IDENT, "eq".toList⟩, ⟨.LPAREN, "(".toList⟩, ⟨.IDENT, "a".toList⟩,
          ⟨.INT, "1".toList⟩, ⟨.RPAREN, ")".toList⟩, ⟨.EOL, [NUL]⟩, ⟨.EOL, [NUL]⟩] := by
  rfl

theorem lex_quote_in_string (U : UnicodeTables) :
    lexN U 8 (NewLexer "eq(a,\"x\\\"y\")".toList)
      = some [⟨.IDENT, "eq".toList⟩, ⟨.LPAREN, "(".toList⟩, ⟨.IDENT, "a".toList⟩,
          ⟨.COMMA, ",".toList⟩, ⟨.STRING, "x\"y".toList⟩, ⟨.RPAREN, ")".toList⟩,
          ⟨.EOL, [NUL]⟩, ⟨.EOL, [NUL]⟩] := by
  rfl

theorem parse_quote_in_string (U : UnicodeTables) :
    parseText U "eq(a,\"x\\\"y\")".toList
      = some (.Filter (.mk ⟨.IDENT, "eq".toList⟩
          [.Value ⟨.IDENT, "a".toList⟩, .Value ⟨.STRING, "x\"y".toList⟩])) :=
  parseText_of_tokens U _
    [⟨.IDENT, "eq".toList⟩, ⟨.LPAREN, "(".toList⟩, ⟨.IDENT, "a".toList⟩,
      ⟨.COMMA, ",".toList⟩, ⟨.STRING, "x\"y".toList⟩, ⟨.RPAREN, ")".toList⟩,
      ⟨.EOL, [NUL]⟩, ⟨.EOL, [NUL]⟩] _
    (lex_quote_in_string U) rfl

theorem lex_rendering (U : UnicodeTables) :
    lexN U 9 (NewLexer "EQ ( a, \"x\"y\" )".toList)
      = some [⟨.IDENT, "EQ".toList⟩, ⟨.LPAREN, "(".toList⟩, ⟨.IDENT, "a".toList⟩,
          ⟨.COMMA, ",".toList⟩, ⟨.STRING, "x".toList⟩, ⟨.IDENT, "y".toList⟩,
          ⟨.ILLEGAL, " )".toList⟩, ⟨.EOL, [NUL]⟩, ⟨.EOL, [NUL]⟩] := by
  rfl

theorem parse_rendering (U : UnicodeTables) :
    parseText U "EQ ( a, \"x\"y\" )".toList
      = some (.ParseError "FUNCTION PARAMS: unexpected token type [\"ILLEGAL\"]\n".toList) :=
  parseText_of_tokens U _
    [⟨.IDENT, "EQ".toList⟩, ⟨.LPAREN, "(".toList⟩, ⟨.IDENT, "a".toList⟩,
      ⟨.COMMA, ",".toList⟩, ⟨.STRING, "x".toList⟩, ⟨.IDENT, "y".toList⟩,
      ⟨.ILLEGAL, " )".toList⟩, ⟨.EOL, [NUL]⟩, ⟨.EOL, [NUL]⟩] _
    (lex_rendering U) rfl

theorem lexTok_EOL_from (U : UnicodeTables) (input : List Char) (k : Nat)
    (hk : input.length ≤ k) : (lexTok U (NewLexer input) k).Typ = .EOL := by
  rw [lexTok_EOL U (NewLexer_WF input).1 k (by rw [NewLexer_input, (NewLexer_WF input).2]; omega)]
  rfl

theorem mysqlBinaryOperator_cases (U : UnicodeTables) (m : TMapIdentityToField)
    (op : List Char) (f v : Token) :
    (∃ s, mysqlBinaryOperator U m op f v = .str s)
      ∨ mysqlBinaryOperator U m op f v = invalidField f.Literal := by
  unfold mysqlBinaryOperator
  simp only
  split
  · exact Or.inr rfl
  · split
    · exact Or.inl ⟨_, rfl⟩
    · exact Or.inl ⟨_, rfl⟩

theorem mysqlOperatorQuoted_cases (U : UnicodeTables) (m : TMapIdentityToField)
    (kw : List Char) (name f v : Token) (rest : List Node) :
    (∃ s, mysqlOperatorQuoted U m kw (.mk name (.Value f :: .Value v :: rest)) = .str s)
      ∨ mysqlOperatorQuoted U m kw (.mk name (.Value f :: .Value v :: rest))
        = invalidField f.Literal := by
  unfold mysqlOperatorQuoted
  simp only [Function.Parameters]
  split
  · exact Or.inr rfl
  · exact Or.inl ⟨_, rfl⟩

theorem transpile_checked (U : UnicodeTables) (m : TMapIdentityToField) (G : Function) :
    CheckedAST U G →
      (∃ s, mysqlFunctionToStatement U m G = .str s)
        ∨ (∃ lit, mysqlFunctionToStatement U m G = invalidField lit) := by
  induction G using Function.induct with
  | step name params ih =>
    obtain ⟨ty, lit⟩ := name
    intro hc
    match params, hc, ih with
    | [.Function c], hc1, ih1 =>
      simp only [CheckedAST] at hc1
      have hrec := ih1 c (by simp) hc1.2.2
      obtain ⟨hn, -, -⟩ := hc1
      subst hn
      rw [transpile_NOT]
      rcases hrec with ⟨s, hs⟩ | ⟨l, hl⟩
      · rw [hs]; exact Or.inl ⟨_, rfl⟩
      · rw [hl]; exact Or.inr ⟨l, rfl⟩
    | [.Function lhs, .Function rhs], hc1, ih1 =>
      simp only [CheckedAST] at hc1
      have h1 := ih1 lhs (by simp) hc1.2.2.1
      have h2 := ih1 rhs (by simp) hc1.2.2.2
      obtain ⟨hn, -, -, -⟩ := hc1
      have key : ∀ op, ∃ s, mysqlBinaryLogicalResult op (mysqlFunctionToStatement U m lhs)
          (mysqlFunctionToStatement U m rhs) = .str s := by
        intro op
        rcases h1 with ⟨s1, hs1⟩ | ⟨l1, hl1⟩ <;> rcases h2 with ⟨s2, hs2⟩ | ⟨l2, hl2⟩
        · rw [hs1, hs2]; exact ⟨_, rfl⟩
        · rw [hs1, hl2]; exact ⟨_, rfl⟩
        · rw [hl1, hs2]; exact ⟨_, rfl⟩
        · rw [hl1, hl2]; exact ⟨_, rfl⟩
      rcases hn with hn | hn
      · subst hn
        rw [transpile_AND]
        exact Or.inl (key _)
      · subst hn
        rw [transpile_OR]
        exact Or.inl (key _)
    | [.Value field, .Value value], hc1, _ =>
      simp only [CheckedAST] at hc1
      obtain ⟨hop, -⟩ := hc1
      simp only [operatorNames, List.mem_cons, List.mem_singleton, List.mem_nil_iff,
        or_false] at hop
      have hb : ∀ op, (∃ s, mysqlBinaryOperator U m op field value = .str s)
          ∨ (∃ l, mysqlBinaryOperator U m op field value = invalidField l) := by
        intro op
        rcases mysqlBinaryOperator_cases U m op field value with h | h
        · exact Or.inl h
        · exact Or.inr ⟨_, h⟩
      have hq : ∀ kw nm, (∃ s, mysqlOperatorQuoted U m kw
            (.mk nm (.Value field :: .Value value :: [])) = .str s)
          ∨ (∃ l, mysqlOperatorQuoted U m kw
            (.mk nm (.Value field :: .Value value :: [])) = invalidField l) := by
        intro kw nm
        rcases mysqlOperatorQuoted_cases U m kw nm field value [] with h | h
        · exact Or.inl h
        · exact Or.inr ⟨_, h⟩
      rcases hop with h | h | h | h | h | h | h | h <;> subst h
      · exact hb "=".toList
      · exact hb "!=".toList
      · exact hb ">".toList
      · exact hb ">=".toList
      · exact hb "<".toList
      · exact hb "<=".toList
      · exact hq "LIKE".toList ⟨ty, "CONTAINS".toList⟩
      · exact hq "IN".toList ⟨ty, "IN".toList⟩
    | [], hc1, _ => simp [CheckedAST] at hc1
    | [.Value _], hc1, _ => simp [CheckedAST] at hc1
    | [.Filter _], hc1, _ => simp [CheckedAST] at hc1
    | [.ParseError _], hc1, _ => simp [CheckedAST] at hc1
    | [.Value _, .Function _], hc1, _ => simp [CheckedAST] at hc1
    | [.Value _, .Filter _], hc1, _ => simp [CheckedAST] at hc1
    | [.Value _, .ParseError _], hc1, _ => simp [CheckedAST] at hc1
    | [.Function _, .Value _], hc1, _ => simp [CheckedAST] at hc1
    | [.Function _, .Filter _], hc1, _ => simp [CheckedAST] at hc1
    | [.Function _, .ParseError _], hc1, _ => simp [CheckedAST] at hc1
    | .Filter _ :: _ :: _, hc1, _ => simp [CheckedAST] at hc1
    | .ParseError _ :: _ :: _, hc1, _ => simp [CheckedAST] at hc1
    | _ :: _ :: _ :: _, hc1, _ => simp [CheckedAST] at hc1

mutual
theorem Function.sameUpToCase_self (U : UnicodeTables) :
    (F : Function) → F.sameUpToCase U F = true
  | .mk n ps => by
    simp [Function.sameUpToCase, Node.sameUpToCaseAll_refl U _ ps]
theorem Node.sameUpToCase_refl (U : UnicodeTables) (first : Bool) :
    (n : Node) → n.sameUpToCase U first n = true
  | .Value v => by simp [Node.sameUpToCase]
  | .Function f => by simp [Node.sameUpToCase, Function.sameUpToCase_self U f]
  | .Filter f => by simp [Node.sameUpToCase, Function.sameUpToCase_self U f]
  | .ParseError m => by simp [Node.sameUpToCase]
theorem Node.sameUpToCaseAll_refl (U : UnicodeTables) (first : Bool) :
    (ps : List Node) → Node.sameUpToCaseAll U first ps ps = true
  | [] => by simp [Node.sameUpToCaseAll]
  | n :: ns => by
    simp [Node.sameUpToCaseAll, Node.sameUpToCase_refl U first n,
      Node.sameUpToCaseAll_refl U false ns]
end

theorem verifyOperator_frame (U : UnicodeTables) (name0 : Token) (params : List Node)
    (hop : functionType (stringsToUpper U name0.Literal) = .operator) :
    Function.sameUpToCase U (.mk name0 params)
      (verifyOperator U { name0 with Literal := stringsToUpper U name0.Literal } params).1
        = true := by
  have hrefl : Function.sameUpToCase U (.mk name0 params)
      (.mk { name0 with Literal := stringsToUpper U name0.Literal } params) = true := by
    simp [Function.sameUpToCase, Node.sameUpToCaseAll_refl]
  unfold verifyOperator
  simp only
  split
  · rename_i n0 n1
    split
    · rename_i pv1
      split
      · exact hrefl
      · have hlow : Function.sameUpToCase U (.mk name0 [.Value pv1, n1])
            (.mk { name0 with Literal := stringsToUpper U name0.Literal }
              [.Value { pv1 with Literal := stringsToLower U pv1.Literal }, n1]) = true := by
          simp [Function.sameUpToCase, Node.sameUpToCaseAll, Node.sameUpToCase, hop,
            Node.sameUpToCase_refl]
        split
        · split
          · exact hlow
          · split
            · exact hlow
            · exact hlow
        · exact hlow
    · exact hrefl
  · exact hrefl

theorem verifyFunction_frame (U : UnicodeTables) (F : Function) :
    Function.sameUpToCase U F (verifyFunction U F).1 = true := by
  induction F using Function.induct with
  | step name0 params ih =>
    have hrefl : Function.sameUpToCase U (.mk name0 params)
        (.mk { name0 with Literal := stringsToUpper U name0.Literal } params) = true := by
      simp [Function.sameUpToCase, Node.sameUpToCaseAll_refl]
    unfold verifyFunction
    simp only
    split
    · split
      · rename_i n0
        split
        · rename_i p0
          have h0 := ih p0 (by simp)
          simp [Function.sameUpToCase, Node.sameUpToCaseAll, Node.sameUpToCase, h0]
        · exact hrefl
      · exact hrefl
    · split
      · rename_i n0 n1
        split
        · rename_i p1
          split
          · rename_i p2
            have h1 := ih p1 (by simp)
            have h2 := ih p2 (by simp)
            split
            · simp [Function.sameUpToCase, Node.sameUpToCaseAll, Node.sameUpToCase, h1, h2]
            · simp [Function.sameUpToCase, Node.sameUpToCaseAll, Node.sameUpToCase, h1,
                Function.sameUpToCase_self]
          · exact hrefl
        · exact hrefl
      · exact hrefl
    · rename_i hop
      exact verifyOperator_frame U name0 params hop
    · exact hrefl

theorem backslashRun_append (a b : List Char) :
    backslashRun (a ++ b)
      = if backslashRun b = b.length then b.length + backslashRun a else backslashRun b := by
  unfold backslashRun
  rw [List.reverse_append, List.takeWhile_append, List.length_reverse]
  split
  · simp
  · rfl

theorem escapeShape_quote_odd {s : List Char} (h : EscapeShape s) :
    ∀ (pre : List Char) (q : Char) (post : List Char), s = pre ++ q :: post →
      (q = '"' ∨ q = '\'') → backslashRun pre % 2 = 1 := by
  induction h with
  | nil =>
    intro pre q post e _
    cases pre <;> simp at e
  | plain c cs h1 h2 h3 _ ih =>
    intro pre q post e hq
    cases pre with
    | nil =>
      simp only [List.nil_append, List.cons.injEq] at e
      rcases hq with hq | hq
      · exact absurd (e.1.trans hq) h2
      · exact absurd (e.1.trans hq) h3
    | cons d pre1 =>
      simp only [List.cons_append, List.cons.injEq] at e
      have hodd := ih pre1 q post e.2 hq
      have hrun : backslashRun (d :: pre1) = backslashRun pre1 := by
        have := backslashRun_append [d] pre1
        rw [List.singleton_append] at this
        rw [this]
        split
        · rename_i hall
          have hd : backslashRun [d] = 0 := by
            unfold backslashRun
            simp [← e.1, h1]
          rw [hd, hall]
          rfl
        · rfl
      rw [hrun]
      exact hodd
  | pair x cs _ ih =>
    intro pre q post e hq
    have hqb : q ≠ '\\' := by
      rcases hq with hq | hq <;> (rw [hq]; decide)
    cases pre with
    | nil =>
      simp only [List.nil_append, List.cons.injEq] at e
      exact absurd e.1.symm hqb
    | cons d pre1 =>
      simp only [List.cons_append, List.cons.injEq] at e
      obtain ⟨hd, e2⟩ := e
      subst hd
      cases pre1 with
      | nil => rfl
      | cons d2 pre2 =>
        simp only [List.cons_append, List.cons.injEq] at e2
        have hodd := ih pre2 q post e2.2 hq
        have := backslashRun_append ['\\', d2] pre2
        simp only [List.cons_append, List.nil_append] at this
        rw [this]
        split
        · rename_i hall
          have h2 : backslashRun ['\\', d2] % 2 = 0 := by
            unfold backslashRun
            by_cases hx : d2 = '\\'
            · subst hx; rfl
            · simp [List.takeWhile, hx]
          rw [hall] at hodd
          omega
        · exact hodd

theorem escapeShape_append {a b : List Char} (ha : EscapeShape a) (hb : EscapeShape b) :
    EscapeShape (a ++ b) := by
  induction ha with
  | nil => exact hb
  | plain c cs h1 h2 h3 _ ih => exact EscapeShape.plain c _ h1 h2 h3 ih
  | pair x cs _ ih => exact EscapeShape.pair x _ ih

theorem replaceAll_single (x : Char) (new : List Char) :
    ∀ s : List Char,
      stringsReplaceAll s [x] new = s.flatMap (fun c => if c = x then new else [c]) := by
  intro s
  unfold stringsReplaceAll
  induction s with
  | nil => rfl
  | cons c cs ih =>
    rw [stringsReplaceAllAux]
    by_cases h : c = x
    · subst h
      simp [List.isPrefixOf, ih]
    · have h2 : ¬ x = c := fun e => h e.symm
      simp [List.isPrefixOf, ih, h, h2]

theorem escapeShape_four (s : List Char) :
    EscapeShape
      ((((s.flatMap (fun c => if c = '\\' then ['\\', '\\'] else [c])).flatMap
            (fun c => if c = '"' then ['\\', '"'] else [c])).flatMap
          (fun c => if c = '\'' then ['\\', '\''] else [c])).flatMap
        (fun c => if c = '%' then ['\\', '%'] else [c])) := by
  induction s with
  | nil => exact EscapeShape.nil
  | cons c cs ih =>
    simp only [List.flatMap_cons, List.flatMap_append]
    apply escapeShape_append _ ih
    by_cases h1 : c = '\\'
    · subst h1
      simp
      exact EscapeShape.pair _ _ EscapeShape.nil
    by_cases h2 : c = '"'
    · subst h2
      simp
      exact EscapeShape.pair _ _ EscapeShape.nil
    by_cases h3 : c = '\''
    · subst h3
      simp
      exact EscapeShape.pair _ _ EscapeShape.nil
    by_cases h4 : c = '%'
    · subst h4
      simp
      exact EscapeShape.pair _ _ EscapeShape.nil
    · simp [h1, h2, h3, h4]
      exact EscapeShape.plain c [] h1 h2 h3 EscapeShape.nil

theorem replaceAllAux_skip (old new : List Char) :
    ∀ (s : List Char) (n : Nat),
      stringsReplaceAllAux old new n s = stringsReplaceAllAux old new 0 (s.drop n) := by
  intro s
  induction s with
  | nil =>
    intro n
    cases n <;> simp [stringsReplaceAllAux]
  | cons c cs ih =>
    intro n
    cases n with
    | zero => rfl
    | succ k =>
      rw [stringsReplaceAllAux, ih k]
      rfl

theorem marker_prefix (s : List Char) (h : markerAsWritten.isPrefixOf s = true) :
    ∃ t, s = Char.ofNat 0xEF :: Char.ofNat 0xBF :: Char.ofNat 0xBD :: t := by
  match s, h with
  | a :: b :: c :: t, h =>
    simp only [markerAsWritten, List.isPrefixOf, Bool.and_eq_true, beq_iff_eq, Bool.and_true]
      at h
    exact ⟨t, by rw [← h.1, ← h.2.1, ← h.2.2]⟩
  | [], h => simp [markerAsWritten, List.isPrefixOf] at h
  | [_], h => simp [markerAsWritten, List.isPrefixOf] at h
  | [_, _], h => simp [markerAsWritten, List.isPrefixOf] at h

theorem escapeShape_tail {c : Char} {cs : List Char} (h : EscapeShape (c :: cs))
    (hc : c ≠ '\\') : EscapeShape cs := by
  cases h with
  | plain _ _ _ _ _ h1 => exact h1
  | pair x cs1 h1 => exact absurd rfl hc

theorem replaceMarker_step (s : List Char) :
    stringsReplaceAllAux markerAsWritten ['%'] 0 s
      = match s with
        | [] => []
        | c :: cs =>
          if markerAsWritten.isPrefixOf (c :: cs) then
            '%' :: stringsReplaceAllAux markerAsWritten ['%'] 0 (cs.drop 2)
          else c :: stringsReplaceAllAux markerAsWritten ['%'] 0 cs := by
  cases s with
  | nil => rfl
  | cons c cs =>
    rw [stringsReplaceAllAux]
    simp only
    split
    · rw [replaceAllAux_skip]
      rfl
    · rfl

theorem escapeShape_replaceMarker :
    ∀ (n : Nat) (s : List Char), s.length ≤ n → EscapeShape s →
      EscapeShape (stringsReplaceAllAux markerAsWritten ['%'] 0 s) := by
  have hm1 : Char.ofNat 0xBF ≠ '\\' := by decide
  have hm2 : Char.ofNat 0xBD ≠ '\\' := by decide
  have hpct : ∀ t, EscapeShape t → EscapeShape ('%' :: t) :=
    fun t ht => EscapeShape.plain '%' t (by decide) (by decide) (by decide) ht
  intro n
  induction n using Nat.strong_induction_on with
  | _ n ih =>
    intro s hlen hs
    -- what is left after a match was replaced
    have hrest : ∀ (c : Char) (cs : List Char), cs.length < n →
        markerAsWritten.isPrefixOf (c :: cs) = true → EscapeShape cs →
        EscapeShape (stringsReplaceAllAux markerAsWritten ['%'] 0 (cs.drop 2)) := by
      intro c cs hl hp hcs
      obtain ⟨t, ht⟩ := marker_prefix _ hp
      simp only [List.cons.injEq] at ht
      obtain ⟨-, rfl⟩ := ht
      have h3 : EscapeShape t := escapeShape_tail (escapeShape_tail hcs hm1) hm2
      exact ih t.length (by simp at hl; omega) t (le_refl _) h3
    cases hs with
    | nil => exact EscapeShape.nil
    | plain c cs h1 h2 h3 hcs =>
      simp only [List.length_cons] at hlen
      rw [replaceMarker_step]
      simp only
      split
      · rename_i hp
        exact hpct _ (hrest c cs (by omega) hp hcs)
      · exact EscapeShape.plain c _ h1 h2 h3 (ih cs.length (by omega) cs (le_refl _) hcs)
    | pair x cs hcs =>
      simp only [List.length_cons] at hlen
      rw [replaceMarker_step]
      simp only
      have hnp : markerAsWritten.isPrefixOf ('\\' :: x :: cs) = false := by
        simp [markerAsWritten, List.isPrefixOf]
      rw [hnp]
      simp only [Bool.false_eq_true, if_false]
      rw [replaceMarker_step]
      simp only
      split
      · rename_i hp
        exact EscapeShape.pair _ _ (hrest x cs (by omega) hp hcs)
      · exact EscapeShape.pair _ _ (ih cs.length (by omega) cs (le_refl _) hcs)

theorem mysqlEscapeValue_shape (v : Token) (hv : v.Typ = .STRING) :
    EscapeShape (mysqlEscapeValue v) := by
  unfold mysqlEscapeValue
  rw [if_neg (by simp [hv])]
  simp only [replaceAll_single]
  unfold stringsReplaceAll
  exact escapeShape_replaceMarker _ _ (le_refl _) (escapeShape_four v.Literal)

theorem reachable_WF {U : UnicodeTables} {input : List Char} {l : Lexer}
    (h : Reachable U input l) : l.WF ∧ l.input = input := by
  induction h with
  | new => exact ⟨(NewLexer_WF input).1, NewLexer_input input⟩
  | next l l1 tok _ hn ih =>
    obtain ⟨tok1, l2, h2, hw, hin, -⟩ := NextToken_WF U ih.1
    rw [hn] at h2
    simp only [Option.some.injEq, Prod.mk.injEq] at h2
    rw [h2.2]
    exact ⟨hw, by rw [hin, ih.2]⟩
  | reset l _ ih =>
    rw [Reset_eq, ih.2]
    exact ⟨(NewLexer_WF input).1, NewLexer_input input⟩

/-! ## What the parser checks about the kind of a token -/

/-- Where the parser does refuse an ILLEGAL token.  `lexTok U (NewLexer input) j` is the token
the call number `j` of `NextToken` returns.  If an ILLEGAL token occurs before the first EOL
token and does not stand in the position `IllegalPasses` (at the start of a parameter after the
first of its list, that is right after a COMMA or an RPAREN, and directly followed by LPAREN,
COMMA or RPAREN), then `ParseFilter` returns a ParseError. -/
theorem illegal_token_rejected (U : UnicodeTables) (input : List Char) (i : Nat)
    (hbefore : ∀ j, j ≤ i → (lexTok U (NewLexer input) j).Typ ≠ .EOL)
    (hill : (lexTok U (NewLexer input) i).Typ = .ILLEGAL)
    (hpos : ¬ IllegalPasses (lexTok U (NewLexer input)) i) :
    ∃ m, parseText U input = some (.ParseError m) := by
  obtain ⟨r, hr, hcase⟩ := parseText_returns U input
  rcases hcase with ⟨m, hm⟩ | ⟨f, k1, -, heol, hall⟩
  · exact ⟨m, by rw [hr, hm]⟩
  · have hlt : i < k1 := by
      by_contra hn
      exact hbefore k1 (by omega) heol
    exact absurd (hall i (Nat.zero_le _) hlt hill) hpos

/-- An instance: in `a($)` the ILLEGAL token `$` is token number 2, right after the LPAREN, and
`ParseFilter` returns a ParseError. -/
theorem illegal_token_rejected_example :
    (lexTok noTables (NewLexer "a($)".toList) 2) = ⟨.ILLEGAL, "$".toList⟩
    ∧ ∃ m, parseText noTables "a($)".toList = some (.ParseError m) :=
  ⟨by decide, illegal_token_rejected noTables "a($)".toList 2
    (by
      intro j hj
      have : j = 0 ∨ j = 1 ∨ j = 2 := by omega
      rcases this with h | h | h <;> subst h <;> decide)
    (by decide)
    (by
      intro h
      have := h.2.1
      revert this
      decide)⟩

theorem parse_comma_as_value :
    parseText noTables "a(b,,)".toList
      = some (.Filter (.mk ⟨.IDENT, "a".toList⟩
          [.Value ⟨.IDENT, "b".toList⟩, .Value ⟨.COMMA, ",".toList⟩])) :=
  parseText_of_tokens noTables _
    [⟨.IDENT, "a".toList⟩, ⟨.LPAREN, "(".toList⟩, ⟨.IDENT, "b".toList⟩, ⟨.COMMA, ",".toList⟩,
      ⟨.COMMA, ",".toList⟩, ⟨.RPAREN, ")".toList⟩, ⟨.EOL, [NUL]⟩, ⟨.EOL, [NUL]⟩] _
    (by decide) (by decide)

/-- The kind the parser does check.  For every input on which `ParseFilter` returns a Filter,
the first parameter of every Function node of the tree holds, when it is a Value node, a token
of kind IDENT. -/
theorem first_value_is_ident (U : UnicodeTables) (input : List Char) (f : Function)
    (h : parseText U input = some (.Filter f)) : f.firstValuesIdent = true :=
  parseText_firstValuesIdent U input f h

/-- An instance: the Filter parsed from `a(b,,)`. -/
theorem first_value_is_ident_example :
    parseText noTables "a(b,,)".toList
      = some (.Filter (.mk ⟨.IDENT, "a".toList⟩
          [.Value ⟨.IDENT, "b".toList⟩, .Value ⟨.COMMA, ",".toList⟩]))
    ∧ Function.firstValuesIdent (.mk ⟨.IDENT, "a".toList⟩
          [.Value ⟨.IDENT, "b".toList⟩, .Value ⟨.COMMA, ",".toList⟩]) = true :=
  ⟨parse_comma_as_value, first_value_is_ident noTables _ _ parse_comma_as_value⟩

/-! ## The pipeline on concrete filter texts

The texts below are ASCII, so no table of `UnicodeTables` is consulted; they are run with
`noTables`. -/

theorem lex_illegal_operand :
    lexN noTables 8 (NewLexer "eq(a,\"1 OR 1=1\n)".toList)
      = some [⟨.IDENT, "eq".toList⟩, ⟨.LPAREN, "(".toList⟩, ⟨.IDENT, "a".toList⟩,
          ⟨.COMMA, ",".toList⟩, ⟨.ILLEGAL, "1 OR 1=1".toList⟩, ⟨.RPAREN, ")".toList⟩,
          ⟨.EOL, [NUL]⟩, ⟨.EOL, [NUL]⟩] := by
  decide

theorem parse_illegal_operand :
    parseText noTables "eq(a,\"1 OR 1=1\n)".toList
      = some (.Filter (.mk ⟨.IDENT, "eq".toList⟩
          [.Value ⟨.IDENT, "a".toList⟩, .Value ⟨.ILLEGAL, "1 OR 1=1".toList⟩])) :=
  parseText_of_tokens noTables _
    [⟨.IDENT, "eq".toList⟩, ⟨.LPAREN, "(".toList⟩, ⟨.IDENT, "a".toList⟩, ⟨.COMMA, ",".toList⟩,
      ⟨.ILLEGAL, "1 OR 1=1".toList⟩, ⟨.RPAREN, ")".toList⟩, ⟨.EOL, [NUL]⟩, ⟨.EOL, [NUL]⟩] _
    lex_illegal_operand (by decide)

/-- C1 (defect in the code).  The filter text `eq(a,"1 OR 1=1` followed by a line feed and `)`
holds an unterminated string, which the lexer returns as an ILLEGAL token with the literal
`1 OR 1=1`.  The parser stores it as the second parameter, the checker only refuses IDENT there,
and the transpiler emits the literal unquoted: the pipeline returns the condition
`a = 1 OR 1=1`, whose right-hand operand is neither a quoted string nor a number. -/
theorem C1_illegal_operand_reaches_sql :
    compile noTables "eq(a,\"1 OR 1=1\n)".toList = some (.str "a = 1 OR 1=1".toList) := by
  rw [compile, parse_illegal_operand]
  decide

/-- C2 (defect in the code).  The tokens of `a(b,$)` before the first EOL token contain the
ILLEGAL token `$`, and `ParseFilter` returns a Filter that holds it as a Value: the loop of
`parseFunctionParameters` stores the token that starts a later parameter without looking at its
kind, where `ParseFilter` (root) and `parseFunction` (first parameter) require a definite
kind. -/
theorem C2_illegal_token_accepted :
    lexN noTables 8 (NewLexer "a(b,$)".toList)
      = some [⟨.IDENT, "a".toList⟩, ⟨.LPAREN, "(".toList⟩, ⟨.IDENT, "b".toList⟩,
          ⟨.COMMA, ",".toList⟩, ⟨.ILLEGAL, "$".toList⟩, ⟨.RPAREN, ")".toList⟩,
          ⟨.EOL, [NUL]⟩, ⟨.EOL, [NUL]⟩]
    ∧ parseText noTables "a(b,$)".toList
      = some (.Filter (.mk ⟨.IDENT, "a".toList⟩
          [.Value ⟨.IDENT, "b".toList⟩, .Value ⟨.ILLEGAL, "$".toList⟩])) :=
  ⟨by decide, parseText_of_tokens noTables _
    [⟨.IDENT, "a".toList⟩, ⟨.LPAREN, "(".toList⟩, ⟨.IDENT, "b".toList⟩, ⟨.COMMA, ",".toList⟩,
      ⟨.ILLEGAL, "$".toList⟩, ⟨.RPAREN, ")".toList⟩, ⟨.EOL, [NUL]⟩, ⟨.EOL, [NUL]⟩] _
    (by decide) (by decide)⟩

/-- C3 (defect in the code).  On `a(b()` the nested call `parseFunction` for `b` fails with
`FUNCTION: expecting function IDENTIFIER`; `parseFunctionParameters` appends that ParseError to
the parameter slice instead of returning it, the enclosing `parseFunction` finds the `)` it
expects, and `ParseFilter` returns a Filter whose tree holds the ParseError node. -/
theorem C3_nested_error_inside_filter :
    parseText noTables "a(b()".toList
      = some (.Filter (.mk ⟨.IDENT, "a".toList⟩
          [.ParseError "FUNCTION: expecting function IDENTIFIER".toList])) :=
  parseText_of_tokens noTables _
    [⟨.IDENT, "a".toList⟩, ⟨.LPAREN, "(".toList⟩, ⟨.IDENT, "b".toList⟩, ⟨.LPAREN, "(".toList⟩,
      ⟨.RPAREN, ")".toList⟩, ⟨.EOL, [NUL]⟩, ⟨.EOL, [NUL]⟩] _ (by decide) (by decide)

/-- C4 (defect in the code).  On `a(b,,)` `ParseFilter` returns a Filter whose second parameter
is a Value holding the COMMA token, so not every Value holds a STRING, INT, NUMBER or IDENT
token: the COMMA and RPAREN cases of `parseFunctionParameters` store the token before the
delimiter as a Value without looking at its kind. -/
theorem C4_comma_stored_as_value :
    parseText noTables "a(b,,)".toList
      = some (.Filter (.mk ⟨.IDENT, "a".toList⟩
          [.Value ⟨.IDENT, "b".toList⟩, .Value ⟨.COMMA, ",".toList⟩]))
    ∧ Function.valuesAreLiterals (.mk ⟨.IDENT, "a".toList⟩
          [.Value ⟨.IDENT, "b".toList⟩, .Value ⟨.COMMA, ",".toList⟩]) = false :=
  ⟨parse_comma_as_value, by decide⟩

/-- C5 (defect in the code).  On `a(b,1(c))` the second parameter is a Function node whose
name token is the INT token `1`: the loop of `parseFunctionParameters` passes the token before
a `(` to `parseFunction` as the name without looking at its kind, where `ParseFilter` (root) and
`parseFunction` (first parameter) require IDENT. -/
theorem C5_function_named_by_int :
    parseText noTables "a(b,1(c))".toList
      = some (.Filter (.mk ⟨.IDENT, "a".toList⟩
          [.Value ⟨.IDENT, "b".toList⟩,
            .Function (.mk ⟨.INT, "1".toList⟩ [.Value ⟨.IDENT, "c".toList⟩])])) :=
  parseText_of_tokens noTables _
    [⟨.IDENT, "a".toList⟩, ⟨.LPAREN, "(".toList⟩, ⟨.IDENT, "b".toList⟩, ⟨.COMMA, ",".toList⟩,
      ⟨.INT, "1".toList⟩, ⟨.LPAREN, "(".toList⟩, ⟨.IDENT, "c".toList⟩, ⟨.RPAREN, ")".toList⟩,
      ⟨.RPAREN, ")".toList⟩, ⟨.EOL, [NUL]⟩, ⟨.EOL, [NUL]⟩] _ (by decide) (by decide)

/-- C6 (defect in the code).  The trailing commas of `eq(a,1,)` and `not(eq(a,1),)` are
accepted: after a comma is consumed the loop of `parseFunctionParameters` ends as soon as the
current token is `)`, and `ParseFilter` returns the same Filter as for `eq(a,1)` and
`not(eq(a,1))`. -/
theorem C6_trailing_comma_accepted :
    parseText noTables "eq(a,1,)".toList
      = some (.Filter (.mk ⟨.IDENT, "eq".toList⟩
          [.Value ⟨.IDENT, "a".toList⟩, .Value ⟨.INT, "1".toList⟩]))
    ∧ parseText noTables "not(eq(a,1),)".toList
      = some (.Filter (.mk ⟨.IDENT, "not".toList⟩
          [.Function (.mk ⟨.IDENT, "eq".toList⟩
            [.Value ⟨.IDENT, "a".toList⟩, .Value ⟨.INT, "1".toList⟩])])) :=
  ⟨parseText_of_tokens noTables _
    [⟨.IDENT, "eq".toList⟩, ⟨.LPAREN, "(".toList⟩, ⟨.IDENT, "a".toList⟩, ⟨.COMMA, ",".toList⟩,
      ⟨.INT, "1".toList⟩, ⟨.COMMA, ",".toList⟩, ⟨.RPAREN, ")".toList⟩, ⟨.EOL, [NUL]⟩,
      ⟨.EOL, [NUL]⟩] _ (by decide) (by decide),
   parseText_of_tokens noTables _
    [⟨.IDENT, "not".toList⟩, ⟨.LPAREN, "(".toList⟩, ⟨.IDENT, "eq".toList⟩,
      ⟨.LPAREN, "(".toList⟩, ⟨.IDENT, "a".toList⟩, ⟨.COMMA, ",".toList⟩, ⟨.INT, "1".toList⟩,
      ⟨.RPAREN, ")".toList⟩, ⟨.COMMA, ",".toList⟩, ⟨.RPAREN, ")".toList⟩, ⟨.EOL, [NUL]⟩,
      ⟨.EOL, [NUL]⟩] _ (by decide) (by decide)⟩

/-- C7.  When `Verify` returns nil on a Filter, the tree it leaves satisfies the checked-AST
invariant `CheckedAST` (upper-case catalog names; NOT over one function; AND and OR over two
functions; an operator over two values, the first an IDENT with a lower-cased literal, the
second not an IDENT and a STRING for CONTAINS and IN) and holds no ParseError node.  The three
examples of the claim make `Verify` return an error: `not(eq(type,1),eq(type,2))`,
`contains(alias,5)`, and every tree whose operator has a first parameter that is a value of
another kind than IDENT. -/
theorem C7_verify_establishes_invariant (U : UnicodeTables) (F G : Function)
    (h : Verify U (.Filter F) = (.Filter G, none)) :
    (CheckedAST U G ∧ G.hasParseError = false)
    ∧ (Verify U (.Filter (.mk ⟨.IDENT, "not".toList⟩
        [.Function (.mk ⟨.IDENT, "eq".toList⟩
          [.Value ⟨.IDENT, "type".toList⟩, .Value ⟨.INT, "1".toList⟩]),
         .Function (.mk ⟨.IDENT, "eq".toList⟩
          [.Value ⟨.IDENT, "type".toList⟩, .Value ⟨.INT, "2".toList⟩])]))).2
        = some ⟨"Function [NOT] should have 1 parameter, found [2]".toList⟩
    ∧ (Verify U (.Filter (.mk ⟨.IDENT, "contains".toList⟩
        [.Value ⟨.IDENT, "alias".toList⟩, .Value ⟨.INT, "5".toList⟩]))).2
        = some ⟨"Function [CONTAINS] Parameter 2 should be a String no [INT]".toList⟩
    ∧ (∀ (name v : Token) (n : Node),
        functionType (stringsToUpper U name.Literal) = .operator → v.Typ ≠ .IDENT →
        (Verify U (.Filter (.mk name [.Value v, n]))).2 ≠ none) := by
  refine ⟨?_, rfl, rfl, ?_⟩
  · unfold Verify verifyFilter at h
    simp only [Prod.mk.injEq, Node.Filter.injEq] at h
    exact verifyFunction_checked U F G (Prod.ext h.1 h.2)
  · intro name v n hn hv
    unfold Verify verifyFilter
    simp only
    unfold verifyFunction
    simp only [hn, verifyOperator]
    rw [if_pos hv]
    simp

/-- C7, witness: the tree of `Gt(Type,1)`. -/
theorem C7_witness :
    Verify noTables (.Filter (.mk ⟨.IDENT, "Gt".toList⟩
        [.Value ⟨.IDENT, "Type".toList⟩, .Value ⟨.INT, "1".toList⟩]))
      = (.Filter (.mk ⟨.IDENT, "GT".toList⟩
        [.Value ⟨.IDENT, "type".toList⟩, .Value ⟨.INT, "1".toList⟩]), none)
    ∧ CheckedAST noTables (.mk ⟨.IDENT, "GT".toList⟩
        [.Value ⟨.IDENT, "type".toList⟩, .Value ⟨.INT, "1".toList⟩]) :=
  ⟨by decide, (C7_verify_establishes_invariant noTables
    (.mk ⟨.IDENT, "Gt".toList⟩ [.Value ⟨.IDENT, "Type".toList⟩, .Value ⟨.INT, "1".toList⟩])
    _ (by decide)).1.1⟩

/-- C8.  `Verify` returns nil on every Filter the function catalog allows (`CatalogAllows`:
names equal to catalog names up to ASCII letter case, NOT over one function, AND and OR over two
functions, operators over an IDENT value and a value that is not an IDENT and is a STRING for
CONTAINS and IN).  The catalog does not restrict the second parameter of GT, GTE, LT and LTE
further, so a STRING there is accepted. -/
theorem C8_verify_accepts_catalog (U : UnicodeTables) (F : Function) (h : CatalogAllows F) :
    (Verify U (.Filter F)).2 = none := by
  unfold Verify verifyFilter
  exact verifyFunction_accepts U F h

/-- C8, witness: `gt(a,"x")`, a GT with a STRING second parameter. -/
theorem C8_witness :
    CatalogAllows (.mk ⟨.IDENT, "gt".toList⟩
        [.Value ⟨.IDENT, "a".toList⟩, .Value ⟨.STRING, "x".toList⟩])
    ∧ (Verify noTables (.Filter (.mk ⟨.IDENT, "gt".toList⟩
        [.Value ⟨.IDENT, "a".toList⟩, .Value ⟨.STRING, "x".toList⟩]))).2 = none :=
  have hc : CatalogAllows (.mk ⟨.IDENT, "gt".toList⟩
      [.Value ⟨.IDENT, "a".toList⟩, .Value ⟨.STRING, "x".toList⟩]) := by
    simp only [CatalogAllows]
    refine ⟨⟨"GT".toList, by decide, by unfold eqIgnoreAsciiCase; decide⟩, trivial,
      by decide, fun _ => trivial⟩
  ⟨hc, C8_verify_accepts_catalog noTables _ hc⟩

/-- C9.  For a function whose upper-cased name is AND or OR and whose two parameters are
functions: when checking the left parameter fails with the error `e`, then `verifyFunction` on
the AND/OR function, and `Verify` on a Filter rooted at it, return exactly `e`, whatever the
right parameter is; the right parameter is left as it was. -/
theorem C9_left_error_is_reported (U : UnicodeTables) (name : Token) (p1 p2 : Function)
    (e : SyntaxError)
    (hname : stringsToUpper U name.Literal = "AND".toList
      ∨ stringsToUpper U name.Literal = "OR".toList)
    (hleft : (verifyFunction U p1).2 = some e) :
    (verifyFunction U (.mk name [.Function p1, .Function p2])).2 = some e
    ∧ (Verify U (.Filter (.mk name [.Function p1, .Function p2]))).2 = some e
    ∧ (verifyFunction U (.mk name [.Function p1, .Function p2])).1.Parameters.drop 1
        = [.Function p2] := by
  have hn : functionType (stringsToUpper U name.Literal) = .logicalBinary := by
    rcases hname with h | h <;> rw [h] <;> decide
  have := verifyFunction_left_error U name p1 p2 e hn hleft
  refine ⟨by rw [this], ?_, by rw [this]; rfl⟩
  unfold Verify verifyFilter
  simp only [this]

/-- C9, witness: `and(foo(a,1),bar(b,2))` reports the unknown function of the left branch. -/
theorem C9_witness :
    (verifyFunction noTables (.mk ⟨.IDENT, "foo".toList⟩
        [.Value ⟨.IDENT, "a".toList⟩, .Value ⟨.INT, "1".toList⟩])).2
      = some ⟨"Function [FOO] is not recognized".toList⟩
    ∧ (Verify noTables (.Filter (.mk ⟨.IDENT, "and".toList⟩
        [.Function (.mk ⟨.IDENT, "foo".toList⟩
          [.Value ⟨.IDENT, "a".toList⟩, .Value ⟨.INT, "1".toList⟩]),
         .Function (.mk ⟨.IDENT, "bar".toList⟩
          [.Value ⟨.IDENT, "b".toList⟩, .Value ⟨.INT, "2".toList⟩])]))).2
      = some ⟨"Function [FOO] is not recognized".toList⟩ :=
  ⟨by decide, (C9_left_error_is_reported noTables ⟨.IDENT, "and".toList⟩ _ _ _
    (Or.inl (by decide)) (by decide)).2.1⟩

/-- C10.  For a Filter `G` that `Verify` accepted and left, that holds no STRING value, and a
mapper (the supplied one, or the identity when none is supplied) that returns a non-empty name
for each field of `G`, `Transpile` returns the string of the dispatch table `tableEmission`:
`NOT(c)`, `(l) AND (r)`, `(l) OR (r)` and `field sign literal` with the signs `=`, `!=`, `>`,
`>=`, `<`, `<=`; the field is the mapper's result for the first parameter's literal and the
literal is the second parameter's literal unchanged. -/
theorem C10_transpile_follows_table (U : UnicodeTables) (mapper : Option TMapIdentityToField)
    (F G : Function) (hv : Verify U (.Filter F) = (.Filter G, none))
    (hs : G.hasStringValue = false)
    (hm : FieldsMapped (mapper.getD (fun identity => identity)) G) :
    Transpile U mapper G = .str (tableEmission (mapper.getD (fun identity => identity)) G) := by
  unfold Verify verifyFilter at hv
  simp only [Prod.mk.injEq, Node.Filter.injEq] at hv
  have hc := (verifyFunction_checked U F G (Prod.ext hv.1 hv.2)).1
  exact transpile_table U _ G hc hs hm

/-- C10, witness: `gt(type,1)` without a mapper transpiles to `type > 1`. -/
theorem C10_witness :
    Verify noTables (.Filter (.mk ⟨.IDENT, "gt".toList⟩
        [.Value ⟨.IDENT, "type".toList⟩, .Value ⟨.INT, "1".toList⟩]))
      = (.Filter (.mk ⟨.IDENT, "GT".toList⟩
        [.Value ⟨.IDENT, "type".toList⟩, .Value ⟨.INT, "1".toList⟩]), none)
    ∧ Transpile noTables none (.mk ⟨.IDENT, "GT".toList⟩
        [.Value ⟨.IDENT, "type".toList⟩, .Value ⟨.INT, "1".toList⟩])
      = .str "type > 1".toList :=
  ⟨by decide, (C10_transpile_follows_table noTables none
    (.mk ⟨.IDENT, "gt".toList⟩ [.Value ⟨.IDENT, "type".toList⟩, .Value ⟨.INT, "1".toList⟩])
    _ (by decide) (by decide) (by simp [FieldsMapped])).trans (by decide)⟩

/-! ## Escaping, errors of the transpiler and the scanners of the lexer -/

/-- C11 (defect in the code).  `mysqlEscapeValue` leaves the wildcard marker U+FFFD of a STRING
value as it is: the string its last replacement looks for is spelled in the source file as the
three code points U+00EF U+00BF U+00BD, which no marker matches.  The value of `"*org*"` comes
out unchanged, with the marker at both ends and no `%`, and the pipeline turns
`neq(alias,"*org*")` into `alias != ` followed by the `%q` quotation of that value, not into
`alias != "%org%"`. -/
theorem C11_wildcard_marker_not_rewritten :
    mysqlEscapeValue ⟨.STRING, [wildcardMarker, 'o', 'r', 'g', wildcardMarker]⟩
        = [wildcardMarker, 'o', 'r', 'g', wildcardMarker]
      ∧ ∀ U : UnicodeTables, compile U "neq(alias,\"*org*\")".toList
          = some (.str ("alias != ".toList
              ++ fmtQuote U [wildcardMarker, 'o', 'r', 'g', wildcardMarker])) := by
  refine ⟨by decide, fun U => ?_⟩
  rw [compile, parse_wildcard]
  rfl

/-- C12 (defect in the code).  The operand of a STRING value is escaped twice: first by
`mysqlEscapeValue`, then by the verb `%q`, which quotes the backslashes and double quotes the
first pass wrote.  The filter text `contains(alias,"a\"b")`, whose string content is `a"b`,
comes out as `alias LIKE "a\\\"b"`: three backslashes before the embedded quote, not one. -/
theorem C12_operand_escaped_twice (U : UnicodeTables) :
    compile U "contains(alias,\"a\\\"b\")".toList
      = some (.str "alias LIKE \"a\\\\\\\"b\"".toList) := by
  rw [compile, parse_embedded_quote]
  rfl

/-- C13 (defect in the code).  `mysqlBinaryLogical` returns the zero string of its failed type
assertion, not the error of the child.  The filter text `and(eq(secret,1),eq(a,1))` parses and
passes the checker; with a mapper that returns the empty string for `secret` its left child
transpiles to the error `Invalid Field [secret]`, and the AND over it comes out as the empty
string. -/
theorem C13_binary_logical_drops_child_error (U : UnicodeTables) :
    parseText U "and(eq(secret,1),eq(a,1))".toList
        = some (.Filter (.mk ⟨.IDENT, "and".toList⟩
            [.Function (.mk ⟨.IDENT, "eq".toList⟩
                [.Value ⟨.IDENT, "secret".toList⟩, .Value ⟨.INT, "1".toList⟩]),
              .Function (.mk ⟨.IDENT, "eq".toList⟩
                [.Value ⟨.IDENT, "a".toList⟩, .Value ⟨.INT, "1".toList⟩])]))
      ∧ Verify U (.Filter (.mk ⟨.IDENT, "and".toList⟩
            [.Function (.mk ⟨.IDENT, "eq".toList⟩
                [.Value ⟨.IDENT, "secret".toList⟩, .Value ⟨.INT, "1".toList⟩]),
              .Function (.mk ⟨.IDENT, "eq".toList⟩
                [.Value ⟨.IDENT, "a".toList⟩, .Value ⟨.INT, "1".toList⟩])]))
        = (.Filter (.mk ⟨.IDENT, "AND".toList⟩
            [.Function (.mk ⟨.IDENT, "EQ".toList⟩
                [.Value ⟨.IDENT, "secret".toList⟩, .Value ⟨.INT, "1".toList⟩]),
              .Function (.mk ⟨.IDENT, "EQ".toList⟩
                [.Value ⟨.IDENT, "a".toList⟩, .Value ⟨.INT, "1".toList⟩])]), none)
      ∧ Transpile U (some secretMapper) (.mk ⟨.IDENT, "EQ".toList⟩
            [.Value ⟨.IDENT, "secret".toList⟩, .Value ⟨.INT, "1".toList⟩])
        = .err ⟨"Invalid Field [secret]".toList⟩
      ∧ Transpile U (some secretMapper) (.mk ⟨.IDENT, "AND".toList⟩
            [.Function (.mk ⟨.IDENT, "EQ".toList⟩
                [.Value ⟨.IDENT, "secret".toList⟩, .Value ⟨.INT, "1".toList⟩]),
              .Function (.mk ⟨.IDENT, "EQ".toList⟩
                [.Value ⟨.IDENT, "a".toList⟩, .Value ⟨.INT, "1".toList⟩])])
        = .str [] :=
  ⟨parse_rejected_field U, rfl, rfl, rfl⟩

/-- C14.  For each of the eight operators: if the mapper in force (the one handed over, or the
identity mapper when none is) returns the empty string for the literal of the first parameter,
`Transpile` of the operator returns a TranspilerError, not a string; its message is
`Invalid Field [` followed by the field literal and `]`, so it contains the literal. -/
theorem C14_rejected_field_is_an_error (U : UnicodeTables) (mapper : Option TMapIdentityToField)
    (name f v : Token) (rest : List Node) (hname : name.Literal ∈ operatorNames)
    (hmap : (mapper.getD reflectIdentityToFieldMapper) f.Literal = []) :
    ∃ e : TranspilerError,
      Transpile U mapper (.mk name (.Value f :: .Value v :: rest)) = .err e
        ∧ e.Message = "Invalid Field [".toList ++ f.Literal ++ "]".toList
        ∧ f.Literal <:+: e.Message := by
  refine ⟨⟨"Invalid Field [".toList ++ f.Literal ++ "]".toList⟩, ?_, rfl,
    ⟨"Invalid Field [".toList, "]".toList, rfl⟩⟩
  obtain ⟨ty, lit⟩ := name
  simp only [operatorNames, List.mem_cons, List.mem_singleton, List.mem_nil_iff, or_false]
    at hname
  unfold Transpile
  rcases hname with h | h | h | h | h | h | h | h <;> subst h
  · exact mysqlBinaryOperator_invalid U _ "=".toList f v hmap
  · exact mysqlBinaryOperator_invalid U _ "!=".toList f v hmap
  · exact mysqlBinaryOperator_invalid U _ ">".toList f v hmap
  · exact mysqlBinaryOperator_invalid U _ ">=".toList f v hmap
  · exact mysqlBinaryOperator_invalid U _ "<".toList f v hmap
  · exact mysqlBinaryOperator_invalid U _ "<=".toList f v hmap
  · exact mysqlOperatorQuoted_invalid U _ "LIKE".toList ⟨ty, "CONTAINS".toList⟩ f v rest hmap
  · exact mysqlOperatorQuoted_invalid U _ "IN".toList ⟨ty, "IN".toList⟩ f v rest hmap

theorem C14_witness :
    ∃ e : TranspilerError,
      Transpile noTables (some secretMapper) (.mk ⟨.IDENT, "CONTAINS".toList⟩
          (.Value ⟨.IDENT, "secret".toList⟩ :: .Value ⟨.STRING, "x".toList⟩ :: [])) = .err e
        ∧ e.Message = "Invalid Field [".toList ++ "secret".toList ++ "]".toList
        ∧ "secret".toList <:+: e.Message :=
  C14_rejected_field_is_an_error noTables (some secretMapper) ⟨.IDENT, "CONTAINS".toList⟩
    ⟨.IDENT, "secret".toList⟩ ⟨.STRING, "x".toList⟩ [] (by decide) (by decide)

/-- C15.  Number scanning follows the reference machine `numberReference`.  The lexer stands
with `pre` behind it (`NewLexer input` is `lexerAt [] input`); what follows is whitespace `ws`,
then the maximal run `r` of digits and periods, which is not empty and does not begin with
whitespace, then `rest`.  `NextToken` returns the token of the reference machine for `r`, and
leaves the lexer right after the literal of that token: the next call scans from the character
that follows it. -/
theorem C15_number_scanning (U : UnicodeTables) (pre ws r rest : List Char)
    (hws : ∀ c ∈ ws, isWhiteSpace U c = true) (hr : r ≠ [])
    (hfirst : isWhiteSpace U (r.headD NUL) = false)
    (hrun : ∀ c ∈ r, isDigit U c = true ∨ c = '.')
    (hmax : ∀ c, rest.head? = some c → isDigit U c = false ∧ c ≠ '.') :
    (lexerAt pre (ws ++ (r ++ rest))).NextToken U
        = some (numberReference r,
            lexerAt (pre ++ ws ++ (numberReference r).Literal)
              (r.drop (numberReference r).Literal.length ++ rest))
      ∧ NewLexer (ws ++ (r ++ rest)) = lexerAt [] (ws ++ (r ++ rest)) := by
  refine ⟨?_, NewLexer_eq _⟩
  obtain ⟨c, cs, rfl⟩ : ∃ c cs, r = c :: cs := by
    cases r with
    | nil => exact absurd rfl hr
    | cons c cs => exact ⟨c, cs, rfl⟩
  have hall : ∀ x ∈ c :: cs, isValidNumberRune U x = true := by
    intro x hx
    unfold isValidNumberRune
    rcases hrun x hx with h | h
    · simp [h]
    · simp [h]
  have hrest : isValidNumberRune U (rest.headD NUL) = false := by
    cases rest with
    | nil => exact isValidNumberRune_NUL U
    | cons d ds =>
      obtain ⟨h1, h2⟩ := hmax d rfl
      simp [isValidNumberRune, h1, h2]
  exact NextToken_number U pre ws c cs rest hws hfirst hall hrest

theorem C15_witness :
    ((lexerAt " .".toList (" ".toList ++ ("5.5.0".toList ++ " .. ".toList))).NextToken noTables
        = some (⟨.ILLEGAL, "5.5.".toList⟩, lexerAt " . 5.5.".toList "0 .. ".toList)
      ∧ NewLexer (" ".toList ++ ("5.5.0".toList ++ " .. ".toList))
        = lexerAt [] (" ".toList ++ ("5.5.0".toList ++ " .. ".toList)))
      ∧ lexN noTables 5 (NewLexer " . 5.5.0 .. ".toList)
        = some [⟨.ILLEGAL, ".".toList⟩, ⟨.ILLEGAL, "5.5.".toList⟩, ⟨.INT, "0".toList⟩,
            ⟨.ILLEGAL, "..".toList⟩, ⟨.EOL, [NUL]⟩]
      ∧ lexN noTables 6 (NewLexer "1,12 34 4.5 .5".toList)
        = some [⟨.INT, "1".toList⟩, ⟨.COMMA, ",".toList⟩, ⟨.INT, "12".toList⟩,
            ⟨.INT, "34".toList⟩, ⟨.NUMBER, "4.5".toList⟩, ⟨.NUMBER, ".5".toList⟩] :=
  ⟨C15_number_scanning noTables " .".toList " ".toList "5.5.0".toList " .. ".toList
      (by decide) (by decide) (by decide) (by decide) (by decide),
    by decide, by decide⟩

/-- C16.  String unescaping follows the reference decoder `decode`.  For an input made of
whitespace, a double quote, a body of printable characters, the first unescaped double quote
after the opening one (`closingQuote` finds it right after the body) and any rest, `NextToken`
returns the STRING token with the literal `decode body` and leaves the lexer after the closing
quote. -/
theorem C16_string_unescaping (U : UnicodeTables) (ws body rest : List Char)
    (hws : ∀ c ∈ ws, isWhiteSpace U c = true)
    (hbody : ∀ c ∈ body, isValidStringRune U c = true)
    (hclose : closingQuote (body ++ '"' :: rest) = some body.length) :
    (NewLexer (ws ++ '"' :: (body ++ '"' :: rest))).NextToken U
      = some ({ Typ := .STRING, Literal := decode body },
          lexerAt (ws ++ '"' :: (body ++ ['"'])) rest) := by
  rw [NewLexer_eq]
  exact NextToken_string U [] ws body rest hws hbody hclose

theorem C16_witness :
    (NewLexer "\" \\ \\\\ \\\\\\ \\\" * \\* \\\\* \\\\\\* \\\\\\\\* \"".toList).NextToken noTables
      = some (⟨.STRING, [' ', '\\', ' ', '\\', ' ', '\\', '\\', ' ', '"', ' ', wildcardMarker, ' ',
              '*', ' ', '\\', wildcardMarker, ' ', '\\', '*', ' ', '\\', '\\', wildcardMarker,
              ' ']⟩,
          lexerAt "\" \\ \\\\ \\\\\\ \\\" * \\* \\\\* \\\\\\* \\\\\\\\* \"".toList []) :=
  C16_string_unescaping noTables [] " \\ \\\\ \\\\\\ \\\" * \\* \\\\* \\\\\\* \\\\\\\\* ".toList []
    (by decide) (by decide) (by decide)

/-- C17, counterexample.  In the input made of a double quote, `a`, a tab and `b` no closing
quote follows; the string scan stops at the tab, and the token after the ILLEGAL one is the
IDENT `b`, not END-OF-INPUT. -/
theorem C17_counterexample :
    closingQuote "a\tb".toList = none
      ∧ lexN noTables 3 (NewLexer "\"a\tb".toList)
        = some [⟨.ILLEGAL, "a".toList⟩, ⟨.IDENT, "b".toList⟩, ⟨.EOL, [NUL]⟩] := by
  refine ⟨by decide, by decide⟩

/-- C17 (as amended).  The input is whitespace, a double quote and a text in which no unescaped
double quote follows (`closingQuote` finds none).  The first token `NextToken` returns is
ILLEGAL; and if every character of the text is printable, the call after it returns
END-OF-INPUT. -/
theorem C17_unterminated_string (U : UnicodeTables) (ws text : List Char)
    (hws : ∀ c ∈ ws, isWhiteSpace U c = true) (hopen : closingQuote text = none) :
    ∃ lit l1, (NewLexer (ws ++ '"' :: text)).NextToken U
        = some ({ Typ := .ILLEGAL, Literal := lit }, l1)
      ∧ ((∀ c ∈ text, isValidStringRune U c = true)
          → l1.NextToken U = some (newToken .EOL NUL, l1)) := by
  have hsplit : text.takeWhile (isValidStringRune U) ++ text.dropWhile (isValidStringRune U)
      = text := List.takeWhile_append_dropWhile _ _
  have hbody : ∀ c ∈ text.takeWhile (isValidStringRune U), isValidStringRune U c = true :=
    fun c hc => List.mem_takeWhile_imp hc
  have htail : isValidStringRune U ((text.dropWhile (isValidStringRune U)).headD NUL)
      = false := by
    cases h : text.dropWhile (isValidStringRune U) with
    | nil => exact isValidStringRune_NUL U
    | cons d ds => exact dropWhile_head _ text d ds h
  obtain ⟨l1, h1, h2⟩ := NextToken_unterminated U [] ws _ _ hws hbody htail
    (by rw [hsplit]; exact hopen)
  rw [hsplit, ← NewLexer_eq] at h1
  refine ⟨_, l1, h1, ?_⟩
  intro hall
  have ht : text.dropWhile (isValidStringRune U) = [] := List.dropWhile_eq_nil_iff.2 hall
  rw [h2 ht]
  have := NextToken_end U ([] ++ ws ++ '"' :: text.takeWhile (isValidStringRune U)) []
    (by simp)
  rw [List.append_nil] at this
  exact this

theorem C17_witness :
    ∃ lit l1, (NewLexer ([] ++ '"' :: "abc\\\"".toList)).NextToken noTables
        = some ({ Typ := .ILLEGAL, Literal := lit }, l1)
      ∧ ((∀ c ∈ "abc\\\"".toList, isValidStringRune noTables c = true)
          → l1.NextToken noTables = some (newToken .EOL NUL, l1)) :=
  C17_unterminated_string noTables [] "abc\\\"".toList (by decide) (by decide)

/-- C18, counterexample.  The input made of a NUL character followed by `a`: the first call
returns END-OF-INPUT for the NUL character, the next call returns the IDENT `a`. -/
theorem C18_counterexample :
    lexN noTables 3 (NewLexer [NUL, 'a'])
      = some [⟨.EOL, [NUL]⟩, ⟨.IDENT, "a".toList⟩, ⟨.EOL, [NUL]⟩] := by
  decide

/-- C18 (as amended).  For an input that holds no NUL character: once the call number `k` of
`NextToken` has returned an END-OF-INPUT token, every later call on the same lexer returns the
END-OF-INPUT token with the literal NUL and leaves the lexer as it is. -/
theorem C18_end_of_input_repeats (U : UnicodeTables) (input : List Char) (hnul : NUL ∉ input)
    (k : Nat) (hk : (lexTok U (NewLexer input) k).Typ = .EOL) (j : Nat) (hj : k < j) :
    (lexState U (NewLexer input) j).NextToken U
      = some (newToken .EOL NUL, lexState U (NewLexer input) j) := by
  have hw := (NewLexer_WF input).1
  have htr := lexer_trace U hw
  have hstate : ∀ i, (lexState U (NewLexer input) i).WF
      ∧ (lexState U (NewLexer input) i).input = input := fun i => by
    obtain ⟨h1, h2, -⟩ := lexState_WF U hw i
    exact ⟨h1, by rw [h2, NewLexer_input]⟩
  have hend : ∀ d, (lexState U (NewLexer input) (k + 1 + d)).input.length
      ≤ (lexState U (NewLexer input) (k + 1 + d)).position := by
    intro d
    induction d with
    | zero =>
      exact (NextToken_EOL_end (hstate k).1 (by rw [(hstate k).2]; exact hnul) (htr k) hk).2
    | succ d ih =>
      obtain ⟨tok, l1, hn, -, -, -, hstay⟩ := NextToken_WF U (hstate (k + 1 + d)).1
      have h2 := htr (k + 1 + d)
      rw [hn] at h2
      simp only [Option.some.injEq, Prod.mk.injEq] at h2
      have e : lexState U (NewLexer input) (k + 1 + (d + 1)) = lexState U (NewLexer input) (k + 1 + d) := by
        rw [show k + 1 + (d + 1) = k + 1 + d + 1 by omega, ← h2.2]
        exact (hstay ih).2
      rw [e]
      exact ih
  obtain ⟨d, rfl⟩ : ∃ d, j = k + 1 + d := ⟨j - (k + 1), by omega⟩
  obtain ⟨tok, l1, hn, -, -, -, hstay⟩ := NextToken_WF U (hstate (k + 1 + d)).1
  rw [hn, (hstay (hend d)).1, (hstay (hend d)).2]

theorem C18_witness :
    (lexState noTables (NewLexer "a".toList) 2).NextToken noTables
      = some (newToken .EOL NUL, lexState noTables (NewLexer "a".toList) 2) :=
  C18_end_of_input_repeats noTables "a".toList (by decide) 1 (by decide) 2 (by decide)

/-- C19.  After any number `k` of `NextToken` calls on the lexer of an input, the input buffer
is the one the lexer was made from, `Reset` gives the state `NewLexer` gives for that input, and
so the tokens returned after `Reset` are those a fresh lexer returns. -/
theorem C19_reset_is_new_lexer (U : UnicodeTables) (input : List Char) (k : Nat) :
    (lexState U (NewLexer input) k).input = input
      ∧ (lexState U (NewLexer input) k).Reset = NewLexer input
      ∧ ∀ n, lexN U n (lexState U (NewLexer input) k).Reset = lexN U n (NewLexer input) := by
  have hin : (lexState U (NewLexer input) k).input = input := by
    rw [(lexState_WF U (NewLexer_WF input).1 k).2.1, NewLexer_input]
  have hr : (lexState U (NewLexer input) k).Reset = NewLexer input := by
    rw [Reset_eq, hin]
  exact ⟨hin, hr, fun n => by rw [hr]⟩

/-- C20.  For a string made only of `(`, `)`, `,` and whitespace, the lexer returns one
LPAREN, RPAREN or COMMA token per delimiter, in order, and then the END-OF-INPUT token with the
literal NUL; this is also what it returns for the string with its whitespace removed. -/
theorem C20_whitespace_around_delimiters (U : UnicodeTables) (s : List Char)
    (hs : ∀ c ∈ s, c = '(' ∨ c = ')' ∨ c = ',' ∨ isWhiteSpace U c = true) :
    lexN U ((stripWhiteSpace U s).length + 1) (NewLexer s)
        = some ((stripWhiteSpace U s).map delimiterToken ++ [newToken .EOL NUL])
      ∧ lexN U ((stripWhiteSpace U s).length + 1) (NewLexer (stripWhiteSpace U s))
        = lexN U ((stripWhiteSpace U s).length + 1) (NewLexer s) := by
  have h1 := lexN_delims U s [] [] (by simp) hs
  rw [List.nil_append, ← NewLexer_eq] at h1
  have hstrip : stripWhiteSpace U (stripWhiteSpace U s) = stripWhiteSpace U s := by
    simp [stripWhiteSpace, List.filter_filter]
  have hs2 : ∀ c ∈ stripWhiteSpace U s, c = '(' ∨ c = ')' ∨ c = ',' ∨ isWhiteSpace U c = true :=
    fun c hc => hs c (List.mem_of_mem_filter hc)
  have h2 := lexN_delims U (stripWhiteSpace U s) [] [] (by simp) hs2
  rw [List.nil_append, ← NewLexer_eq, hstrip] at h2
  exact ⟨h1, h2.trans h1.symm⟩

theorem C20_witness :
    lexN noTables 4 (NewLexer " ( , ) ".toList)
        = some [⟨.LPAREN, "(".toList⟩, ⟨.COMMA, ",".toList⟩, ⟨.RPAREN, ")".toList⟩,
            ⟨.EOL, [NUL]⟩]
      ∧ lexN noTables 4 (NewLexer "(,)".toList) = lexN noTables 4 (NewLexer " ( , ) ".toList) :=
  C20_whitespace_around_delimiters noTables " ( , ) ".toList (by decide)

/-! ## Identifiers, rendering, the parser, the checker frame, escaping and progress -/

/-- C21.  Identifier scanning.  The lexer stands with `pre` behind it (`NewLexer input` is
`lexerAt [] input`); what follows is whitespace `ws`, a letter `c` (which is not whitespace and
which the tables do not list as a digit as well: in the tables of Go no letter is either), the
longest run `run` of letters and underscores after it, and `rest`.  `NextToken` returns the
IDENT token with the literal `c :: run` and leaves the lexer right after it. -/
theorem C21_identifier_scanning (U : UnicodeTables) (pre ws : List Char) (c : Char)
    (run rest : List Char) (hws : ∀ x ∈ ws, isWhiteSpace U x = true)
    (hfirst : isWhiteSpace U c = false) (hletter : isLetter U c = true)
    (hdigit : isDigit U c = false)
    (hrun : ∀ x ∈ run, isLetter U x = true ∨ x = '_')
    (hmax : ∀ x, rest.head? = some x → isLetter U x = false ∧ x ≠ '_') :
    (lexerAt pre (ws ++ (c :: run ++ rest))).NextToken U
        = some ({ Typ := .IDENT, Literal := c :: run }, lexerAt (pre ++ ws ++ c :: run) rest)
      ∧ NewLexer (ws ++ (c :: run ++ rest)) = lexerAt [] (ws ++ (c :: run ++ rest)) := by
  refine ⟨?_, NewLexer_eq _⟩
  have hdot : c ≠ '.' := fun e => by
    have h : isLetter U '.' = false := rfl
    rw [e, h] at hletter
    cases hletter
  have hcn : isValidNumberRune U c = false := by
    simp [isValidNumberRune, hdigit, hdot]
  have hall : ∀ x ∈ run, isValidNextIdentifierRune U x = true := by
    intro x hx
    unfold isValidNextIdentifierRune
    rcases hrun x hx with h | h
    · simp [h]
    · simp [h]
  have hrest : isValidNextIdentifierRune U (rest.headD NUL) = false := by
    cases rest with
    | nil => exact isValidNextIdentifierRune_NUL U
    | cons d ds =>
      obtain ⟨h1, h2⟩ := hmax d rfl
      simp [isValidNextIdentifierRune, h1, h2]
  exact NextToken_identifier U pre ws c run rest hws hfirst hcn hletter hall hrest

theorem C21_witness :
    ((lexerAt "and, or,".toList (" ".toList ++ ('a' :: "_b".toList ++ " b".toList))).NextToken
          noTables
        = some (⟨.IDENT, "a_b".toList⟩, lexerAt "and, or, a_b".toList " b".toList)
      ∧ NewLexer (" ".toList ++ ('a' :: "_b".toList ++ " b".toList))
        = lexerAt [] (" ".toList ++ ('a' :: "_b".toList ++ " b".toList)))
      ∧ lexN noTables 7 (NewLexer "and, or, a_b b".toList)
        = some [⟨.IDENT, "and".toList⟩, ⟨.COMMA, ",".toList⟩, ⟨.IDENT, "or".toList⟩,
            ⟨.COMMA, ",".toList⟩, ⟨.IDENT, "a_b".toList⟩, ⟨.IDENT, "b".toList⟩,
            ⟨.EOL, [NUL]⟩] :=
  ⟨C21_identifier_scanning noTables "and, or,".toList " ".toList 'a' "_b".toList " b".toList
      (by decide) (by decide) (by decide) (by decide) (by decide) (by decide),
    by decide⟩

/-- C22 (defect in the code).  `Value.ToString` writes a STRING literal between double quotes
and puts the backslash back before `*` only, not before a double quote or a backslash, so the
rendering of a string that holds one of them is not the text of that string.  The filter text
`eq(a,"x\"y")` parses and passes the checker; its rendering is `EQ ( a, "x"y" )`, and parsing
the rendering gives a ParseError. -/
theorem C22_rendering_does_not_parse (U : UnicodeTables) :
    parseText U "eq(a,\"x\\\"y\")".toList
        = some (.Filter (.mk ⟨.IDENT, "eq".toList⟩
            [.Value ⟨.IDENT, "a".toList⟩, .Value ⟨.STRING, "x\"y".toList⟩]))
      ∧ Verify U (.Filter (.mk ⟨.IDENT, "eq".toList⟩
            [.Value ⟨.IDENT, "a".toList⟩, .Value ⟨.STRING, "x\"y".toList⟩]))
        = (.Filter (.mk ⟨.IDENT, "EQ".toList⟩
            [.Value ⟨.IDENT, "a".toList⟩, .Value ⟨.STRING, "x\"y".toList⟩]), none)
      ∧ Node.ToString (.Filter (.mk ⟨.IDENT, "EQ".toList⟩
            [.Value ⟨.IDENT, "a".toList⟩, .Value ⟨.STRING, "x\"y".toList⟩]))
        = "EQ ( a, \"x\"y\" )".toList
      ∧ parseText U "EQ ( a, \"x\"y\" )".toList
        = some (.ParseError "FUNCTION PARAMS: unexpected token type [\"ILLEGAL\"]\n".toList) :=
  ⟨parse_quote_in_string U, rfl, by decide, parse_rendering U⟩

/-- C23.  The parser runs on a token stream `tok` (call number `k` of the token source returns
`tok k`) that is END-OF-INPUT from token `N` on, with enough fuel.  `ParseFilter` returns a
result, and: if the first token is not an IDENT, the result is the ParseError
`FILTER: expecting function name`; if `parseFunction` for the root returns a Function and leaves
the parser on token `k1` (token `k1 - 1` is the closing parenthesis of the root) and token `k1`
is not END-OF-INPUT, the result is the ParseError `FILTER: End-of-line Expected`; and a Filter
is returned only when the closing parenthesis of the root is followed by END-OF-INPUT. -/
theorem C23_filter_ends_at_end_of_input {σ : Type} (U : UnicodeTables) {next : TokenSource σ}
    {st : Nat → σ} {tok : Nat → Token} (ht : IsTrace next st tok) (N : Nat)
    (hN : ∀ k, N ≤ k → (tok k).Typ = .EOL) (fuel : Nat) (h1 : 1 ≤ fuel) (h2 : N ≤ fuel) :
    ∃ r, ParseFilterFuel U next fuel (parserAt st tok 0) = some r
      ∧ ((tok 0).Typ ≠ .IDENT → r = .ParseError "FILTER: expecting function name".toList)
      ∧ (∀ f k1, (tok 0).Typ = .IDENT →
          parseFunction U next fuel (parserAt st tok 1) (tok 0)
            = some (.Function f, parserAt st tok k1) →
          (tok k1).Typ ≠ .EOL → r = .ParseError "FILTER: End-of-line Expected".toList)
      ∧ (∀ f, r = .Filter f → ∃ k1, 2 ≤ k1 ∧ (tok (k1 - 1)).Typ = .RPAREN
          ∧ (tok k1).Typ = .EOL
          ∧ parseFunction U next fuel (parserAt st tok 1) (tok 0)
            = some (.Function f, parserAt st tok k1)) := by
  have hcur : ∀ j, (parserAt st tok j).curToken = tok j := fun _ => rfl
  by_cases h0 : (tok 0).Typ = .IDENT
  · obtain ⟨r, k1, hF, hk1, hpost⟩ := (parse_trace U ht N hN fuel).1 1 (tok 0) h1 (by omega)
    rcases hpost with ⟨f, hr, hge, hrp, -⟩ | ⟨m, hr, -⟩
    · subst hr
      by_cases he : (tok k1).Typ = .EOL
      · have hres : ParseFilterFuel U next fuel (parserAt st tok 0) = some (.Filter f) := by
          unfold ParseFilterFuel
          rw [hcur, if_pos h0, nextToken_at ht]
          simp only [hF, hcur]
          rw [if_neg (by simpa using he)]
        refine ⟨_, hres, fun h => absurd h0 h, ?_, ?_⟩
        · intro f2 k2 _ hF2 hne
          rw [hF] at hF2
          simp only [Option.some.injEq, Prod.mk.injEq] at hF2
          have : tok k1 = tok k2 := by
            have := congrArg Parser.curToken hF2.2
            simpa [hcur] using this
          rw [← this] at hne
          exact absurd he hne
        · intro f2 hf2
          simp only [Node.Filter.injEq] at hf2
          subst hf2
          exact ⟨k1, by omega, hrp, he, hF⟩
      · have hres : ParseFilterFuel U next fuel (parserAt st tok 0)
            = some (.ParseError "FILTER: End-of-line Expected".toList) := by
          unfold ParseFilterFuel
          rw [hcur, if_pos h0, nextToken_at ht]
          simp only [hF, hcur]
          rw [if_pos (by simpa using he)]
        refine ⟨_, hres, fun h => absurd h0 h, fun _ _ _ _ _ => rfl, ?_⟩
        intro f2 hf2
        cases hf2
    · subst hr
      have hres : ParseFilterFuel U next fuel (parserAt st tok 0) = some (.ParseError m) := by
        unfold ParseFilterFuel
        rw [hcur, if_pos h0, nextToken_at ht]
        simp only [hF]
      refine ⟨_, hres, fun h => absurd h0 h, ?_, ?_⟩
      · intro f2 k2 _ hF2 _
        rw [hF] at hF2
        simp at hF2
      · intro f2 hf2
        cases hf2
  · refine ⟨.ParseError "FILTER: expecting function name".toList, ?_, fun _ => rfl,
      fun _ _ h => absurd h h0, ?_⟩
    · unfold ParseFilterFuel
      rw [hcur, if_neg h0]
    · intro f hf
      cases hf

theorem C23_witness :
    (∃ r, ParseFilterFuel noTables (Lexer.NextToken noTables) 6
          (parserAt (lexState noTables (NewLexer "a(b)c".toList))
            (lexTok noTables (NewLexer "a(b)c".toList)) 0) = some r
      ∧ ((lexTok noTables (NewLexer "a(b)c".toList) 0).Typ ≠ .IDENT
          → r = .ParseError "FILTER: expecting function name".toList)
      ∧ (∀ f k1, (lexTok noTables (NewLexer "a(b)c".toList) 0).Typ = .IDENT →
          parseFunction noTables (Lexer.NextToken noTables) 6
              (parserAt (lexState noTables (NewLexer "a(b)c".toList))
                (lexTok noTables (NewLexer "a(b)c".toList)) 1)
              (lexTok noTables (NewLexer "a(b)c".toList) 0)
            = some (.Function f, parserAt (lexState noTables (NewLexer "a(b)c".toList))
                (lexTok noTables (NewLexer "a(b)c".toList)) k1) →
          (lexTok noTables (NewLexer "a(b)c".toList) k1).Typ ≠ .EOL
          → r = .ParseError "FILTER: End-of-line Expected".toList)
      ∧ (∀ f, r = .Filter f → ∃ k1, 2 ≤ k1
          ∧ (lexTok noTables (NewLexer "a(b)c".toList) (k1 - 1)).Typ = .RPAREN
          ∧ (lexTok noTables (NewLexer "a(b)c".toList) k1).Typ = .EOL
          ∧ parseFunction noTables (Lexer.NextToken noTables) 6
              (parserAt (lexState noTables (NewLexer "a(b)c".toList))
                (lexTok noTables (NewLexer "a(b)c".toList)) 1)
              (lexTok noTables (NewLexer "a(b)c".toList) 0)
            = some (.Function f, parserAt (lexState noTables (NewLexer "a(b)c".toList))
                (lexTok noTables (NewLexer "a(b)c".toList)) k1)))
      ∧ parseText noTables "a(b)c".toList
        = some (.ParseError "FILTER: End-of-line Expected".toList) :=
  ⟨C23_filter_ends_at_end_of_input noTables
      (lexer_trace noTables (NewLexer_WF "a(b)c".toList).1) 5
      (fun k hk => lexTok_EOL_from noTables "a(b)c".toList k hk) 6 (by decide) (by decide),
    parseText_of_tokens noTables _
      [⟨.IDENT, "a".toList⟩, ⟨.LPAREN, "(".toList⟩, ⟨.IDENT, "b".toList⟩,
        ⟨.RPAREN, ")".toList⟩, ⟨.IDENT, "c".toList⟩, ⟨.EOL, [NUL]⟩, ⟨.EOL, [NUL]⟩] _
      (by decide) (by decide)⟩

/-- C24.  In the tree of a Filter that `ParseFilter` returns for an input, every Function node
has at least one parameter. -/
theorem C24_parameters_never_empty (U : UnicodeTables) (input : List Char) (f : Function)
    (h : parseText U input = some (.Filter f)) : f.paramsNonEmpty = true := by
  unfold parseText at h
  split at h
  · exact absurd h (by simp)
  · rename_i p hp
    unfold ParseFilter ParseFilterFuel at h
    split at h
    · simp only at h
      split at h
      · exact absurd h (by simp)
      · rename_i x pa hpa
        split at h
        · exact absurd h (by simp)
        · simp at h
        · rename_i r pb hr hpb
          have hok := (parse_paramsNonEmpty U _ _).1 _ _ _ _ hpb
          split at h
          · simp at h
          · split at h
            · rename_i fast
              simp only [Option.some.injEq, Node.Filter.injEq] at h
              rw [← h]
              exact hok
            · rename_i hnf
              simp only [Option.some.injEq] at h
              rw [h] at hok
              exact hok
    · simp at h

theorem C24_witness :
    parseText noTables "and(gt(type,1),neq(alias,\"org\"))".toList
        = some (.Filter (.mk ⟨.IDENT, "and".toList⟩
            [.Function (.mk ⟨.IDENT, "gt".toList⟩
                [.Value ⟨.IDENT, "type".toList⟩, .Value ⟨.INT, "1".toList⟩]),
              .Function (.mk ⟨.IDENT, "neq".toList⟩
                [.Value ⟨.IDENT, "alias".toList⟩, .Value ⟨.STRING, "org".toList⟩])]))
      ∧ (Function.mk ⟨.IDENT, "and".toList⟩
        [.Function (.mk ⟨.IDENT, "gt".toList⟩
            [.Value ⟨.IDENT, "type".toList⟩, .Value ⟨.INT, "1".toList⟩]),
          .Function (.mk ⟨.IDENT, "neq".toList⟩
            [.Value ⟨.IDENT, "alias".toList⟩, .Value ⟨.STRING, "org".toList⟩])]).paramsNonEmpty
      = true :=
  ⟨parse_nested_example,
    C24_parameters_never_empty noTables "and(gt(type,1),neq(alias,\"org\"))".toList _
      parse_nested_example⟩

/-- C25.  For a Filter on which `Verify` returned nil (`G` is the tree as `Verify` left it) and
every field mapper, `Transpile` returns a string or a TranspilerError: no type assertion fails
and no parameter index is out of range, and the error is never `Unsupported Funcion [...]`. -/
theorem C25_checked_tree_is_dispatched (U : UnicodeTables) (F G : Function)
    (hv : Verify U (.Filter F) = (.Filter G, none)) (mapper : Option TMapIdentityToField) :
    Transpile U mapper G ≠ .panic
      ∧ ∀ name : List Char,
        Transpile U mapper G ≠ .err ⟨"Unsupported Funcion [".toList ++ name ++ "]".toList⟩ := by
  unfold Verify verifyFilter at hv
  simp only [Prod.mk.injEq, Node.Filter.injEq] at hv
  have hc := (verifyFunction_checked U F G (Prod.ext hv.1 hv.2)).1
  unfold Transpile
  rcases transpile_checked U (mapper.getD reflectIdentityToFieldMapper) G hc with
    ⟨s, hs⟩ | ⟨l, hl⟩
  · rw [hs]
    exact ⟨by simp, fun _ => by simp⟩
  · rw [hl]
    refine ⟨by simp [invalidField], fun name => ?_⟩
    simp [invalidField]

theorem C25_witness :
    Transpile noTables (some secretMapper) (.mk ⟨.IDENT, "NOT".toList⟩
        [.Function (.mk ⟨.IDENT, "EQ".toList⟩
          [.Value ⟨.IDENT, "secret".toList⟩, .Value ⟨.INT, "1".toList⟩])]) ≠ .panic
      ∧ ∀ name : List Char,
        Transpile noTables (some secretMapper) (.mk ⟨.IDENT, "NOT".toList⟩
            [.Function (.mk ⟨.IDENT, "EQ".toList⟩
              [.Value ⟨.IDENT, "secret".toList⟩, .Value ⟨.INT, "1".toList⟩])])
          ≠ .err ⟨"Unsupported Funcion [".toList ++ name ++ "]".toList⟩ :=
  C25_checked_tree_is_dispatched noTables
    (.mk ⟨.IDENT, "not".toList⟩
      [.Function (.mk ⟨.IDENT, "Eq".toList⟩
        [.Value ⟨.IDENT, "Secret".toList⟩, .Value ⟨.INT, "1".toList⟩])])
    (.mk ⟨.IDENT, "NOT".toList⟩
      [.Function (.mk ⟨.IDENT, "EQ".toList⟩
        [.Value ⟨.IDENT, "secret".toList⟩, .Value ⟨.INT, "1".toList⟩])])
    (by decide) (some secretMapper)

/-- C26 (defect in the code).  The message of the default case of `parseFunctionParameters` is
built from `p.peekToken.Type`, the kind of the token after the unexpected one.  For `eq(a 1)`
the unexpected token is the INT `1` and the message names `)`, the kind of the token that
follows it. -/
theorem C26_message_names_the_peek_token (U : UnicodeTables) :
    parseText U "eq(a 1)".toList
      = some (.ParseError "FUNCTION PARAMS: unexpected token type [\")\"]\n".toList) :=
  parseText_of_tokens U _
    [⟨.IDENT, "eq".toList⟩, ⟨.LPAREN, "(".toList⟩, ⟨.IDENT, "a".toList⟩,
      ⟨.INT, "1".toList⟩, ⟨.RPAREN, ")".toList⟩, ⟨.EOL, [NUL]⟩, ⟨.EOL, [NUL]⟩] _
    (lex_unexpected_int U) rfl

/-- C27.  `Verify`, whether it returns nil or an error, leaves a tree that differs from the one
it was given in letter case only (`sameUpToCase`): same nodes in the same order and number,
every token of the same kind, every function name literal the same or upper-cased, the literal
of the first parameter of an operator the same or lower-cased, every other literal and every
message the same. -/
theorem C27_verify_changes_letter_case_only (U : UnicodeTables) (AST : Node) :
    Node.sameUpToCase U false AST (Verify U AST).1 = true
      ∧ ∀ F : Function, Function.sameUpToCase U F (verifyFunction U F).1 = true := by
  refine ⟨?_, verifyFunction_frame U⟩
  unfold Verify verifyFilter
  cases AST with
  | Value v => simp [Node.sameUpToCase]
  | Function f => simp [Node.sameUpToCase, Function.sameUpToCase_self]
  | Filter f => simp [Node.sameUpToCase, verifyFunction_frame]
  | ParseError m => simp [Node.sameUpToCase]

/-- C28.  In the result of `mysqlEscapeValue` for a STRING value, every double quote and every
single quote is directly preceded by an odd number of backslashes (`backslashRun` counts the
backslashes that end the text before the quote). -/
theorem C28_quotes_are_escaped (v : Token) (hv : v.Typ = .STRING) (pre : List Char) (q : Char)
    (post : List Char) (h : mysqlEscapeValue v = pre ++ q :: post)
    (hq : q = '"' ∨ q = '\'') : backslashRun pre % 2 = 1 :=
  escapeShape_quote_odd (mysqlEscapeValue_shape v hv) pre q post h hq

theorem C28_witness :
    mysqlEscapeValue ⟨.STRING, "a\\\"b'".toList⟩ = "a\\\\\\\"b\\'".toList
      ∧ backslashRun "a\\\\\\".toList % 2 = 1 :=
  ⟨by decide,
    C28_quotes_are_escaped ⟨.STRING, "a\\\"b'".toList⟩ rfl "a\\\\\\".toList '"'
      "b\\'".toList (by decide) (Or.inl rfl)⟩

/-- C29, counterexample.  On the input `a` the fresh lexer stands on the only rune, which is not
the end of the input, with `readPosition` 1; the call of `NextToken` returns the IDENT `a` and
leaves `readPosition` at 1. -/
theorem C29_counterexample :
    (NewLexer "a".toList).position = 0 ∧ (NewLexer "a".toList).input.length = 1
      ∧ (NewLexer "a".toList).readPosition = 1
      ∧ (NewLexer "a".toList).NextToken noTables
        = some (⟨.IDENT, "a".toList⟩,
            { input := "a".toList, position := 1, readPosition := 1, ch := NUL }) := by
  decide

/-- C29 (as amended).  In a state `l` reached from `NewLexer input` by calls of `NextToken` and
`Reset`, a call of `NextToken` returns (no index is out of range, `undoChar` included); if the
lexer is not at the end of the input, the call moves `position` forward by at least one rune;
`readPosition`, which never exceeds the length of the input, does not move back and moves
forward unless it has reached that length.  After as many calls as the input has runes the
lexer is at the end of the input, and `ParseFilter` returns on every input. -/
theorem C29_lexer_makes_progress (U : UnicodeTables) (input : List Char) (l : Lexer)
    (hr : Reachable U input l) :
    (∃ tok l1, l.NextToken U = some (tok, l1)
        ∧ (l.position < input.length → l.position + 1 ≤ l1.position)
        ∧ l.readPosition ≤ l1.readPosition
        ∧ (l.readPosition < input.length → l.readPosition + 1 ≤ l1.readPosition))
      ∧ input.length ≤ (lexState U l input.length).position
      ∧ ∃ r, parseText U input = some r := by
  obtain ⟨hw, hin⟩ := reachable_WF hr
  refine ⟨?_, ?_, ?_⟩
  · obtain ⟨tok, l1, hn, hw1, hin1, hprog, hstay⟩ := NextToken_WF U hw
    refine ⟨tok, l1, hn, ?_, ?_, ?_⟩
    · intro h
      have := hprog (by rw [hin]; exact h)
      omega
    · have h1 := hw.1.2
      have h2 := hw1.1.2
      have h3 := hw.1.1
      rw [hin1] at h2
      by_cases hlt : l.position < l.input.length
      · have := hprog hlt
        omega
      · have := (hstay (by omega)).2
        rw [this]
    · intro h
      have h1 := hw.1.2
      have h2 := hw1.1.2
      have h3 := hw1.1.1
      rw [hin1] at h2 h3
      rw [hin] at h1 h2 h3
      have hlt : l.position < l.input.length := by rw [hin]; omega
      have := hprog hlt
      omega
  · have := (lexState_WF U hw input.length).2.2
    rw [hin] at this
    omega
  · obtain ⟨r, h, -⟩ := parseText_returns U input
    exact ⟨r, h⟩

theorem C29_witness :
    (∃ tok l1, (NewLexer "eq(a,1)".toList).Reset.NextToken noTables = some (tok, l1)
        ∧ ((NewLexer "eq(a,1)".toList).Reset.position < "eq(a,1)".toList.length
          → (NewLexer "eq(a,1)".toList).Reset.position + 1 ≤ l1.position)
        ∧ (NewLexer "eq(a,1)".toList).Reset.readPosition ≤ l1.readPosition
        ∧ ((NewLexer "eq(a,1)".toList).Reset.readPosition < "eq(a,1)".toList.length
          → (NewLexer "eq(a,1)".toList).Reset.readPosition + 1 ≤ l1.readPosition))
      ∧ "eq(a,1)".toList.length
        ≤ (lexState noTables (NewLexer "eq(a,1)".toList).Reset "eq(a,1)".toList.length).position
      ∧ ∃ r, parseText noTables "eq(a,1)".toList = some r :=
  C29_lexer_makes_progress noTables "eq(a,1)".toList (NewLexer "eq(a,1)".toList).Reset
    (Reachable.reset _ Reachable.new)

end FilterParser
